import Mathlib

/-!
# SkipList.h: a shallow embedding

The C++ header defines `SkipNode<K, E>` and `SkipList<K, E>`, a skip list with a header
sentinel, a tail sentinel and a scratch array `last_`.

Conventions of the embedding.

* The free store is a list of cells indexed by address: `some nd` is a live node, `none`
  a released one.  `new` appends a cell, `delete` overwrites the cell with `none`; an
  address is never handed out twice.
* A pointer is an address (`Nat`).  A slot of a pointer array is `Option Nat`: `none` is
  a slot that has been allocated but never written (`new T*[n]` does not initialise).
* Every operation returns an `Outcome`: a normal return, `fault` (undefined behaviour:
  reading through a dead or unwritten pointer, indexing an array out of bounds; also
  `new` with a negative array size), or `spin` (a loop that has not stopped when the
  fuel ran out).  Every loop whose length depends on the list takes its fuel from the
  parameter `fuel` of the operation; a result other than `spin` does not change when
  more fuel is given.
* The last loop of `erase` has the body `levels_;`, without a side effect.  `erase` runs
  it as written, so it spins whenever the condition of the loop holds.  C++ leaves a loop
  of that kind undefined and an optimising compiler removes it; `eraseElided` is `erase`
  with the loop removed.
* `K` is any linearly ordered key type, `E` any value type.
* The constructor computes `max_level_` in floating point; it is taken as a parameter
  here.  `rand()` is modelled by the list of values it is going to return.
* The member `cut_off_` is a `float`, and the test `rand() <= cut_off_` of `level`
  converts the draw to `float`.  The conversion never decreases when the draw grows, so
  the draws that pass the test are those up to a largest one; the member `cut_off_` of
  the embedding is that largest draw, a `Nat`, and the test is `d <= cut_off_` on the
  draw itself.  `floatOfInt` and `levelLoopFloat` spell out the comparison on floats, and
  `levelLoopFloat_eq` shows that the two loops are the same.
* The source writes `last` for `last_` in the constructor and `d_size` for `d_size_` in
  `insert`; no such names are declared, and the embedding reads them as the members.
-/

namespace SkipListModel

/-- Result of running a piece of the program. -/
inductive Outcome (α : Type) where
  | ret : α → Outcome α
  | fault : Outcome α
  | spin : Outcome α
  deriving DecidableEq, Repr

/-- Sequencing: run `f` on a normal return, propagate `fault` and `spin`. -/
def Outcome.bind {α β : Type} : Outcome α → (α → Outcome β) → Outcome β
  | .ret a, f => f a
  | .fault, _ => .fault
  | .spin, _ => .spin

/-- Node of the list, `struct SkipNode`: the pair `element_` and the pointer array `next_`. -/
structure SkipNode (K E : Type) where
  element_ : K × E
  next_ : List (Option Nat)
  deriving DecidableEq, Repr

/-- The free store: address to live node. -/
abbrev Heap (K E : Type) := List (Option (SkipNode K E))

/-- The data members of `class SkipList`, together with the free store they point into. -/
structure SkipList (K E : Type) where
  cut_off_ : Nat
  levels_ : Nat
  d_size_ : Int
  max_level_ : Int
  tail_key_ : K
  header_node_ : Nat
  tail_node_ : Nat
  last_ : List (Option Nat)
  heap : Heap K E
  deriving DecidableEq, Repr

section Store

variable {K E : Type}

/-- The node stored at address `p`, if the address is live. -/
def lookup (heap : Heap K E) (p : Nat) : Option (SkipNode K E) :=
  match heap[p]? with
  | some r => r
  | none => none

/-- Dereference `p`: undefined unless the address is live. -/
def deref (heap : Heap K E) (p : Nat) : Outcome (SkipNode K E) :=
  match lookup heap p with
  | some nd => .ret nd
  | none => .fault

/-- Read `p->next_[i]`. -/
def readNext (heap : Heap K E) (p i : Nat) : Outcome Nat :=
  match lookup heap p with
  | some nd =>
    match nd.next_[i]? with
    | some (some q) => .ret q
    | _ => .fault
  | none => .fault

/-- Assign `p->next_[i] = q`. -/
def writeNext (heap : Heap K E) (p i q : Nat) : Outcome (Heap K E) :=
  match lookup heap p with
  | some nd =>
    if i < nd.next_.length then
      .ret (heap.set p (some { nd with next_ := nd.next_.set i (some q) }))
    else .fault
  | none => .fault

/-- Read `p->element_.first`. -/
def keyAt (heap : Heap K E) (p : Nat) : Outcome K :=
  (deref heap p).bind fun nd => .ret nd.element_.1

/-- Read `last_[i]`. -/
def readLast (last : List (Option Nat)) (i : Nat) : Outcome Nat :=
  match last[i]? with
  | some (some p) => .ret p
  | _ => .fault

/-- Assign `last_[i] = p`. -/
def writeLast (last : List (Option Nat)) (i p : Nat) : Outcome (List (Option Nat)) :=
  if i < last.length then .ret (last.set i (some p)) else .fault

/-- The pair held by the node at `p`. -/
def elemAt (heap : Heap K E) (p : Nat) : Option (K × E) :=
  (lookup heap p).map fun nd => nd.element_

/-- The number of forward slots of the node at `p`. -/
def slotsAt (heap : Heap K E) (p : Nat) : Option Nat :=
  (lookup heap p).map fun nd => nd.next_.length

end Store

section Operations

variable {K E : Type} [LinearOrder K]

/-- Constructor `SkipList(large_key, max_pairs, prob)`.  `cut_off` is the largest value
of `rand()` that passes the test `rand() <= cut_off_` for the `float` the constructor
computes as `prob * RAND_MAX` (see `levelLoopFloat_eq`; it is the integer part of that
float when the float is below `2^24`, see `passes_exact`), and `max_level` is the value the constructor
computes from `max_pairs` and `prob` (it is at least `-1` for the documented arguments);
`dflt` is the value of `E()`.  The header is allocated first (address 0) with
`max_level_ + 1` slots, the tail second (address 1) with none, and every header slot is
set to the tail. -/
def construct (large_key : K) (cut_off : Nat) (max_level : Int) (dflt : E) : SkipList K E :=
  { cut_off_ := cut_off
    levels_ := 0
    d_size_ := 0
    max_level_ := max_level
    tail_key_ := large_key
    header_node_ := 0
    tail_node_ := 1
    last_ := List.replicate (max_level + 1).toNat none
    heap := [some { element_ := (large_key, dflt),
                    next_ := List.replicate (max_level + 1).toNat (some 1) },
             some { element_ := (large_key, dflt), next_ := [] }] }

/-- The inner loop of `find` and `search`:
`while (before_node->next_[i]->element_.first < the_key) before_node = before_node->next_[i];`
One unit of fuel pays for one evaluation of the loop condition. -/
def advance (heap : Heap K E) (the_key : K) (i : Nat) : Nat → Nat → Outcome Nat
  | 0, _ => .spin
  | fuel + 1, before_node =>
    (readNext heap before_node i).bind fun nx =>
    (keyAt heap nx).bind fun k =>
    if k < the_key then advance heap the_key i fuel nx else .ret before_node

/-- The outer loop of `find`, `for (int i = levels_; i >= 0; --i)`, with `n = i + 1`
levels still to visit. -/
def findLoop (fuel : Nat) (heap : Heap K E) (the_key : K) : Nat → Nat → Outcome Nat
  | 0, before_node => .ret before_node
  | i + 1, before_node =>
    (advance heap the_key i fuel before_node).bind fun b =>
    findLoop fuel heap the_key i b

/-- Member `find`: the address of the node whose `element_` the returned pointer points
to, or `none` for `NULL`. -/
def find (fuel : Nat) (the_key : K) (s : SkipList K E) : Outcome (Option Nat) :=
  if the_key > s.tail_key_ then .ret none
  else
    (findLoop fuel s.heap the_key (s.levels_ + 1) s.header_node_).bind fun before_node =>
    (readNext s.heap before_node 0).bind fun nx =>
    (keyAt s.heap nx).bind fun k =>
    if k = the_key then .ret (some nx) else .ret none

/-- The pair a call of `find` hands to its caller: the pointee of the returned pointer. -/
def findElement (fuel : Nat) (the_key : K) (s : SkipList K E) : Outcome (Option (K × E)) :=
  (find fuel the_key s).bind fun r =>
    match r with
    | none => .ret none
    | some p => (deref s.heap p).bind fun nd => .ret (some nd.element_)

/-- Round `d` to the nearest multiple of `u`, a tie to the even multiple. -/
def roundTo (u d : Nat) : Nat :=
  if 2 * (d % u) < u then d / u * u
  else if u < 2 * (d % u) then (d / u + 1) * u
  else if d / u % 2 = 0 then d / u * u
  else (d / u + 1) * u

/-- The conversion to `float` that the comparison `rand() <= cut_off_` of `level` applies
to the draw, a non-negative `int` below `2^31`: IEEE 754 single precision with a 24-bit
significand, round to nearest, a tie to the even significand.  A draw below `2^24` is
exact; a draw from `2^k` up to `2^(k+1)` is rounded to a multiple of `2^(k-23)`. -/
def floatOfInt (d : Nat) : Nat :=
  if d < 16777216 then d
  else if d < 33554432 then roundTo 2 d
  else if d < 67108864 then roundTo 4 d
  else if d < 134217728 then roundTo 8 d
  else if d < 268435456 then roundTo 16 d
  else if d < 536870912 then roundTo 32 d
  else if d < 1073741824 then roundTo 64 d
  else roundTo 128 d

/-- The loop of `level`, `while (rand() <= cut_off_) ++lev;`, with the test as the
machine evaluates it: the draw is converted to `float` and compared with the `float`
member `cut_off_`, whose integer part is `cut` (a converted draw is an integer, so only
the integer part matters). -/
def levelLoopFloat (cut : Nat) : List Nat → Nat → Outcome Nat
  | [], _ => .spin
  | d :: ds, lev => if floatOfInt d ≤ cut then levelLoopFloat cut ds (lev + 1) else .ret lev

/-- The loop of `level`: `while (rand() <= cut_off_) ++lev;`.  The list holds the values
`rand()` returns, and `cut_off` is the largest draw that passes the test of the loop, so
that the test is `d <= cut_off` on the draw itself (`levelLoopFloat_eq`).  The loop spins
when the list ends before a draw that fails the test. -/
def levelLoop (cut_off : Nat) : List Nat → Nat → Outcome Nat
  | [], _ => .spin
  | d :: ds, lev => if d ≤ cut_off then levelLoop cut_off ds (lev + 1) else .ret lev

/-- Member `level`: `return lev <= max_level_ ? lev : max_level_;`. -/
def level (s : SkipList K E) (draws : List Nat) : Outcome Int :=
  (levelLoop s.cut_off_ draws 0).bind fun lev =>
    .ret (if (lev : Int) ≤ s.max_level_ then (lev : Int) else s.max_level_)

/-- The outer loop of `search`, with `n = i + 1` levels still to visit; the body ends
with `last_[i] = before_node`. -/
def searchLoop (fuel : Nat) (heap : Heap K E) (the_key : K) :
    Nat → Nat → List (Option Nat) → Outcome (Nat × List (Option Nat))
  | 0, before_node, last => .ret (before_node, last)
  | i + 1, before_node, last =>
    (advance heap the_key i fuel before_node).bind fun b =>
    (writeLast last i b).bind fun last1 =>
    searchLoop fuel heap the_key i b last1

/-- Member `search`: returns `before_node->next_[0]` and leaves the predecessors in
`last_`. -/
def search (fuel : Nat) (the_key : K) (s : SkipList K E) : Outcome (Nat × SkipList K E) :=
  (searchLoop fuel s.heap the_key (s.levels_ + 1) s.header_node_ s.last_).bind fun r =>
  (readNext s.heap r.1 0).bind fun nx =>
  .ret (nx, { s with last_ := r.2 })

/-- The linking loop of `insert`, `for (int i = 0; i <= the_level; ++i)`, with `n`
iterations left:
`new_node->next_[i] = last_[i]->next_[i]; last_[i]->next_[i] = new_node;`. -/
def spliceLoop (last : List (Option Nat)) (new_node : Nat) :
    Nat → Nat → Heap K E → Outcome (Heap K E)
  | 0, _, heap => .ret heap
  | n + 1, i, heap =>
    (readLast last i).bind fun b =>
    (readNext heap b i).bind fun nx =>
    (writeNext heap new_node i nx).bind fun heap1 =>
    (writeNext heap1 b i new_node).bind fun heap2 =>
    spliceLoop last new_node n (i + 1) heap2

/-- Member `insert`.  `draws` are the values `rand()` returns during the call. -/
def insert (fuel : Nat) (draws : List Nat) (the_pair : K × E) (s : SkipList K E) :
    Outcome (SkipList K E) :=
  if the_pair.1 > s.tail_key_ then .ret s
  else
    (search fuel the_pair.1 s).bind fun r =>
    let the_node := r.1
    let s1 := r.2
    (deref s1.heap the_node).bind fun nd =>
    if nd.element_.1 = the_pair.1 then
      -- the_node->element_.second = the_pair.second;
      let nd1 : SkipNode K E := { nd with element_ := (nd.element_.1, the_pair.2) }
      .ret { s1 with heap := s1.heap.set the_node (some nd1) }
    else
      (level s1 draws).bind fun lev =>
      -- if (the_level > levels_) { the_level = ++levels_; last_[the_level] = header_node_; }
      (if lev > (s1.levels_ : Int) then
          (writeLast s1.last_ (s1.levels_ + 1) s1.header_node_).bind fun last1 =>
            .ret (((s1.levels_ + 1 : Nat) : Int),
                  { s1 with levels_ := s1.levels_ + 1, last_ := last1 })
        else .ret (lev, s1)).bind fun r2 =>
      let the_level := r2.1
      let s2 := r2.2
      -- new SkipNode<K, E>(the_pair, the_level + 1): a negative array size throws
      if the_level + 1 < 0 then .fault
      else
        let new_node := s2.heap.length
        let heap1 := s2.heap ++
          [some { element_ := the_pair, next_ := List.replicate (the_level + 1).toNat none }]
        (spliceLoop s2.last_ new_node (the_level + 1).toNat 0 heap1).bind fun heap2 =>
        -- d_size++;
        .ret { s2 with heap := heap2, d_size_ := s2.d_size_ + 1 }

/-- The unlinking loop of `erase`,
`for (int i = 0; i <= levels_ && last_[i]->next_[i] == the_node; ++i)`, with `n` values
of `i` not above `levels_` left; the body is `last_[i]->next_[i] = the_node->next_[i];`. -/
def unlinkLoop (last : List (Option Nat)) (the_node : Nat) :
    Nat → Nat → Heap K E → Outcome (Heap K E)
  | 0, _, heap => .ret heap
  | n + 1, i, heap =>
    (readLast last i).bind fun b =>
    (readNext heap b i).bind fun nx =>
    if nx = the_node then
      (readNext heap the_node i).bind fun nn =>
      (writeNext heap b i nn).bind fun heap1 =>
      unlinkLoop last the_node n (i + 1) heap1
    else .ret heap

/-- The last loop of `erase`:
`while (levels_ > 0 && header_node_->next_[levels_] == tail_node_) { levels_; }`.
The body is the expression statement `levels_;`, which changes nothing: run as written
the loop never ends once its condition holds, and that is what this definition does.  A
loop without a side effect that does not end is undefined in C++, and a compiler may
remove it; `eraseElided` is `erase` translated that way. -/
def shrinkLoop : Nat → SkipList K E → Outcome (SkipList K E)
  | 0, _ => .spin
  | fuel + 1, s =>
    if s.levels_ > 0 then
      (readNext s.heap s.header_node_ s.levels_).bind fun nx =>
        if nx = s.tail_node_ then shrinkLoop fuel s else .ret s
    else .ret s

/-- Member `erase`. -/
def erase (fuel : Nat) (the_key : K) (s : SkipList K E) : Outcome (SkipList K E) :=
  if the_key > s.tail_key_ then .ret s
  else
    (search fuel the_key s).bind fun r =>
    let the_node := r.1
    let s1 := r.2
    (keyAt s1.heap the_node).bind fun k =>
    if k ≠ the_key then .ret s1
    else
      (unlinkLoop s1.last_ the_node (s1.levels_ + 1) 0 s1.heap).bind fun heap1 =>
      (shrinkLoop fuel { s1 with heap := heap1 }).bind fun s2 =>
      -- delete the_node; --d_size_;
      (deref s2.heap the_node).bind fun _ =>
      .ret { s2 with heap := s2.heap.set the_node none, d_size_ := s2.d_size_ - 1 }

/-- Member `erase` as an optimising compiler translates it.  The last loop,
`while (levels_ > 0 && header_node_->next_[levels_] == tail_node_) { levels_; }`, has no
side effect, so when its condition holds it can never end; C++ leaves a loop of that kind
undefined and lets the compiler take it to end, and `g++ -O2` emits no code for it.  This
is `erase` with that loop left out: after the unlink the node is released and `d_size_`
decremented, with `levels_` as it was.  `erase` is the member with the loop run as
written. -/
def eraseElided (fuel : Nat) (the_key : K) (s : SkipList K E) : Outcome (SkipList K E) :=
  if the_key > s.tail_key_ then .ret s
  else
    (search fuel the_key s).bind fun r =>
    let the_node := r.1
    let s1 := r.2
    (keyAt s1.heap the_node).bind fun k =>
    if k ≠ the_key then .ret s1
    else
      (unlinkLoop s1.last_ the_node (s1.levels_ + 1) 0 s1.heap).bind fun heap1 =>
      -- delete the_node; --d_size_;
      (deref heap1 the_node).bind fun _ =>
      .ret { s1 with heap := heap1.set the_node none, d_size_ := s1.d_size_ - 1 }

/-- One call of a public mutator. -/
inductive Call (K E : Type) where
  | insert (draws : List Nat) (the_pair : K × E) : Call K E
  | erase (the_key : K) : Call K E

/-- Perform one call. -/
def call (fuel : Nat) : Call K E → SkipList K E → Outcome (SkipList K E)
  | .insert draws the_pair, s => insert fuel draws the_pair s
  | .erase the_key, s => erase fuel the_key s

/-- Perform a sequence of calls, one after the other. -/
def calls (fuel : Nat) : List (Call K E) → SkipList K E → Outcome (SkipList K E)
  | [], s => .ret s
  | c :: cs, s => (call fuel c s).bind fun s1 => calls fuel cs s1

end Operations

/-! ## Abstract contents of a list -/

section Abstraction

variable {K E : Type}

/-- Abstract description of a real node: its address, key, value and level (the node
owns `lvl + 1` forward slots). -/
structure Cell (K E : Type) where
  addr : Nat
  key : K
  val : E
  lvl : Nat

/-- Addresses of the cells that take part in level `i`, in list order. -/
def chain (cells : List (Cell K E)) (i : Nat) : List Nat :=
  (cells.filter fun c => decide (i ≤ c.lvl)).map Cell.addr

/-- Following the level-`i` links from `p` passes through exactly the addresses `xs`
and then arrives at `q`. -/
def Linked (heap : Heap K E) (i : Nat) : Nat → List Nat → Nat → Prop
  | p, [], q => readNext heap p i = .ret q
  | p, x :: xs, q => readNext heap p i = .ret x ∧ Linked heap i x xs q

/-- The last address of `p :: xs`. -/
def lastFrom (p : Nat) : List Nat → Nat
  | [] => p
  | x :: xs => lastFrom x xs

/-- The first address of `xs ++ [q]`. -/
def firstOr (xs : List Nat) (q : Nat) : Nat :=
  match xs with
  | [] => q
  | x :: _ => x

/-- The heap holds the node described by `c`. -/
def Stored (heap : Heap K E) (c : Cell K E) : Prop :=
  elemAt heap c.addr = some (c.key, c.val) ∧ slotsAt heap c.addr = some (c.lvl + 1)

/-- Observation: the pairs met when following the level-`i` links from `p` until the
address `tail` is reached. -/
def walkLevel (heap : Heap K E) (i tail : Nat) : Nat → Nat → Outcome (List (K × E))
  | 0, _ => .spin
  | fuel + 1, p =>
    (readNext heap p i).bind fun nx =>
    if nx = tail then .ret []
    else
      (deref heap nx).bind fun nd =>
      (walkLevel heap i tail fuel nx).bind fun rest =>
      .ret (nd.element_ :: rest)

/-- Observation: the pairs of the real nodes on level `i`, from the header to the tail. -/
def levelElems (fuel : Nat) (s : SkipList K E) (i : Nat) : Outcome (List (K × E)) :=
  walkLevel s.heap i s.tail_node_ fuel s.header_node_

/-- The top level holds a cell, unless it is level 0. -/
def TopFull (s : SkipList K E) (cells : List (Cell K E)) : Prop :=
  s.levels_ = 0 ∨ ∃ c ∈ cells, s.levels_ ≤ c.lvl

end Abstraction

section WellFormed

variable {K E : Type} [LinearOrder K]

/-- Well-formedness: the list `s` represents the cells `cells`, in ascending key order.

* `distinct`, `header`, `tail`: the two sentinels are different live nodes; the header
  owns `max_level_ + 1` slots, the tail none, and the tail holds the key `tail_key_`.
* `fresh`: the header is not one of the cells.
* `scratch`: `last_` has `max_level_ + 1` slots.
* `top`, `low`: `levels_` is at most `max_level_`, and no cell is on a level above it.
* `sorted`, `below`: the keys ascend strictly and stay below `tail_key_`.
* `stored`: every cell is a live node with that key, that value and `lvl + 1` slots.
* `linked`: on every level up to `max_level_` the chain from the header runs through the
  cells of that level, in order, and ends at the tail.
* `size`: `d_size_` is the number of cells. -/
structure Rep (s : SkipList K E) (cells : List (Cell K E)) : Prop where
  distinct : s.header_node_ ≠ s.tail_node_
  header : ∃ m : Nat, slotsAt s.heap s.header_node_ = some m ∧ (m : Int) = s.max_level_ + 1
  fresh : s.header_node_ ∉ cells.map Cell.addr
  tail : (∃ v, elemAt s.heap s.tail_node_ = some (s.tail_key_, v)) ∧
    slotsAt s.heap s.tail_node_ = some 0
  scratch : (s.last_.length : Int) = s.max_level_ + 1
  top : (s.levels_ : Int) ≤ s.max_level_
  sorted : cells.Pairwise fun a b => a.key < b.key
  below : ∀ c ∈ cells, c.key < s.tail_key_
  stored : ∀ c ∈ cells, Stored s.heap c
  low : ∀ c ∈ cells, c.lvl ≤ s.levels_
  linked : ∀ i : Nat, (i : Int) ≤ s.max_level_ →
    Linked s.heap i s.header_node_ (chain cells i) s.tail_node_
  size : s.d_size_ = cells.length

/-- The level `insert` gives a new node: the draw count capped at `max_level_`, and at
one above the current top level. -/
def newLevel (s : SkipList K E) (lev0 : Nat) : Nat :=
  min (min lev0 s.max_level_.toNat) (s.levels_ + 1)

/-- A list is well formed when it represents some sequence of cells. -/
def WellFormed (s : SkipList K E) : Prop := ∃ cells, Rep s cells

end WellFormed

/-! ## The dictionary a list stands for -/

section Dictionary

variable {K E : Type} [LinearOrder K]

/-- The pair the cells hold for the key `k`, if any. -/
def lookupCell (k : K) (cells : List (Cell K E)) : Option (K × E) :=
  (cells.find? fun c => decide (c.key = k)).map fun c => (c.key, c.val)

/-- A call within the documented domain: its key is below the bound `tk`, and for an
`insert` the draws contain one above `co`, the largest draw that passes the test of
`level`, so that `level` ends. -/
def CallOk (tk : K) (co : Nat) : Call K E → Prop
  | .insert draws the_pair => the_pair.1 < tk ∧ ∃ d ∈ draws, co < d
  | .erase the_key => the_key < tk

/-- The pair a dictionary holds for `k` after the calls `cs`, when it held `start`
before them. -/
def replay (k : K) : List (Call K E) → Option (K × E) → Option (K × E)
  | [], start => start
  | .insert _ the_pair :: cs, start =>
    replay k cs (if the_pair.1 = k then some the_pair else start)
  | .erase the_key :: cs, start => replay k cs (if the_key = k then none else start)

/-- The level as the specification words it: the number of draws before the first one
that is not below the cutoff, capped at the maximum level.  `cutoff` is the cutoff of the
specification, the probability scaled to the range of the draws, when that is a whole
number. -/
def levelBySpec (cutoff : Nat) (max_level : Int) (draws : List Nat) : Int :=
  min ((draws.takeWhile fun d => decide (d < cutoff)).length : Int) max_level

end Dictionary

/-! ## The descent with its accesses to the pointer arrays -/

section Logged

variable {K E : Type} [LinearOrder K]

/-- An access of the descent to a pointer array: a read of the forward slot
`p->next_[i]`, or the assignment `last_[i] = ...`. -/
inductive Access where
  | slot (p i : Nat) : Access
  | scratch (i : Nat) : Access
  deriving DecidableEq, Repr

/-- The inner loop of `find` and `search` (see `advance`), returning next to its result
the slots it reads: one read of `before_node->next_[i]` for the loop condition, and one
more in the body when the condition holds. -/
def advanceLog (heap : Heap K E) (the_key : K) (i : Nat) :
    Nat → Nat → Outcome (Nat × List Access)
  | 0, _ => .spin
  | fuel + 1, before_node =>
    (readNext heap before_node i).bind fun nx =>
    (keyAt heap nx).bind fun k =>
    if k < the_key then
      (advanceLog heap the_key i fuel nx).bind fun r =>
        .ret (r.1, Access.slot before_node i :: Access.slot before_node i :: r.2)
    else .ret (before_node, [Access.slot before_node i])

/-- The outer loop of `find` (see `findLoop`) with the slots it reads. -/
def findLoopLog (fuel : Nat) (heap : Heap K E) (the_key : K) :
    Nat → Nat → Outcome (Nat × List Access)
  | 0, before_node => .ret (before_node, [])
  | i + 1, before_node =>
    (advanceLog heap the_key i fuel before_node).bind fun b =>
    (findLoopLog fuel heap the_key i b.1).bind fun r =>
    .ret (r.1, b.2 ++ r.2)

/-- Member `find` (see `find`) with the slots it reads: after the loops one read of
`before_node->next_[0]` for the comparison, and one more for the pointer returned. -/
def findLog (fuel : Nat) (the_key : K) (s : SkipList K E) :
    Outcome (Option Nat × List Access) :=
  if the_key > s.tail_key_ then .ret (none, [])
  else
    (findLoopLog fuel s.heap the_key (s.levels_ + 1) s.header_node_).bind fun r =>
    (readNext s.heap r.1 0).bind fun nx =>
    (keyAt s.heap nx).bind fun k =>
    if k = the_key then .ret (some nx, r.2 ++ [Access.slot r.1 0, Access.slot r.1 0])
    else .ret (none, r.2 ++ [Access.slot r.1 0])

/-- The outer loop of `search` (see `searchLoop`) with the slots it reads and the
scratch slots it writes. -/
def searchLoopLog (fuel : Nat) (heap : Heap K E) (the_key : K) :
    Nat → Nat → List (Option Nat) → Outcome ((Nat × List (Option Nat)) × List Access)
  | 0, before_node, last => .ret ((before_node, last), [])
  | i + 1, before_node, last =>
    (advanceLog heap the_key i fuel before_node).bind fun b =>
    (writeLast last i b.1).bind fun last1 =>
    (searchLoopLog fuel heap the_key i b.1 last1).bind fun r =>
    .ret (r.1, b.2 ++ Access.scratch i :: r.2)

/-- Member `search` (see `search`) with its accesses; the last one is the read of
`before_node->next_[0]` for the result. -/
def searchLog (fuel : Nat) (the_key : K) (s : SkipList K E) :
    Outcome ((Nat × SkipList K E) × List Access) :=
  (searchLoopLog fuel s.heap the_key (s.levels_ + 1) s.header_node_ s.last_).bind fun r =>
  (readNext s.heap r.1.1 0).bind fun nx =>
  .ret ((nx, { s with last_ := r.1.2 }), r.2 ++ [Access.slot r.1.1 0])

/-- An access within bounds: a slot read is on the header with an index up to
`max_level_`, or on a real node with an index up to the level of the node, and never on
the tail; a scratch write has an index up to `max_level_`. -/
def SafeAccess (s : SkipList K E) (cells : List (Cell K E)) : Access → Prop
  | .slot p i => p ≠ s.tail_node_ ∧
      ((p = s.header_node_ ∧ (i : Int) ≤ s.max_level_) ∨ ∃ c ∈ cells, c.addr = p ∧ i ≤ c.lvl)
  | .scratch i => (i : Int) ≤ s.max_level_

end Logged

/-! ## Example lists -/

section Examples

/-- An empty list with key bound 1000, `cut_off_ = 5` and `max_level_ = 1`. -/
def emptyList : SkipList Nat Nat := construct 1000 5 1 0

/-- The list `emptyList` after `insert(1, 11)` with the draws 3 and 9, which put the new
node on levels 0 and 1. -/
def tallList : SkipList Nat Nat :=
  { cut_off_ := 5, levels_ := 1, d_size_ := 1, max_level_ := 1, tail_key_ := 1000,
    header_node_ := 0, tail_node_ := 1, last_ := [some 0, some 0],
    heap := [some { element_ := (1000, 0), next_ := [some 2, some 2] },
             some { element_ := (1000, 0), next_ := [] },
             some { element_ := (1, 11), next_ := [some 1, some 1] }] }

/-- The list `tallList` after `insert(2, 22)` with the draw 9, which puts the new node on
level 0 only. -/
def pairList : SkipList Nat Nat :=
  { cut_off_ := 5, levels_ := 1, d_size_ := 2, max_level_ := 1, tail_key_ := 1000,
    header_node_ := 0, tail_node_ := 1, last_ := [some 2, some 2],
    heap := [some { element_ := (1000, 0), next_ := [some 2, some 2] },
             some { element_ := (1000, 0), next_ := [] },
             some { element_ := (1, 11), next_ := [some 3, some 1] },
             some { element_ := (2, 22), next_ := [some 1] }] }

/-- The list `emptyList` after `insert(1000, 7)`: the pair of the tail sentinel has been
overwritten. -/
def dentedList : SkipList Nat Nat :=
  { cut_off_ := 5, levels_ := 0, d_size_ := 0, max_level_ := 1, tail_key_ := 1000,
    header_node_ := 0, tail_node_ := 1, last_ := [some 0, none],
    heap := [some { element_ := (1000, 0), next_ := [some 1, some 1] },
             some { element_ := (1000, 7), next_ := [] }] }

/-- An empty list with key bound 100, `cut_off_ = 3` and `max_level_ = 3`, after `insert(7, 70)`
with the draws 0, 0 and 8: the node is on levels 0 and 1 and `d_size_` is 1. -/
def soloList : SkipList Nat Nat :=
  { cut_off_ := 3, levels_ := 1, d_size_ := 1, max_level_ := 3, tail_key_ := 100,
    header_node_ := 0, tail_node_ := 1, last_ := [some 0, some 0, none, none],
    heap := [some { element_ := (100, 0), next_ := [some 2, some 2, some 1, some 1] },
             some { element_ := (100, 0), next_ := [] },
             some { element_ := (7, 70), next_ := [some 1, some 1] }] }

/-- An empty list with key bound 100, `cut_off_ = 3` and `max_level_ = 3`, after
`insert(5, 50)` with the draws 0 and 8 (node on levels 0 and 1) and `insert(8, 80)` with
the draws 0, 0, 0 and 8 (node on levels 0, 1 and 2): the node of key 8 is alone on the top
level 2. -/
def stackList : SkipList Nat Nat :=
  { cut_off_ := 3, levels_ := 2, d_size_ := 2, max_level_ := 3, tail_key_ := 100,
    header_node_ := 0, tail_node_ := 1, last_ := [some 2, some 2, some 0, none],
    heap := [some { element_ := (100, 0), next_ := [some 2, some 2, some 3, some 1] },
             some { element_ := (100, 0), next_ := [] },
             some { element_ := (5, 50), next_ := [some 3, some 3] },
             some { element_ := (8, 80), next_ := [some 1, some 1, some 1] }] }

/-- An empty list with key bound 100, `cut_off_ = 3` and `max_level_ = 3`, after
`insert(3, 30)` with the draw 8, `insert(6, 60)` with the draws 0 and 8 and
`insert(9, 90)` with the draw 8: the node of key 6 is on levels 0 and 1, the two others on
level 0. -/
def ridgeList : SkipList Nat Nat :=
  { cut_off_ := 3, levels_ := 1, d_size_ := 3, max_level_ := 3, tail_key_ := 100,
    header_node_ := 0, tail_node_ := 1, last_ := [some 3, some 3, none, none],
    heap := [some { element_ := (100, 0), next_ := [some 2, some 3, some 1, some 1] },
             some { element_ := (100, 0), next_ := [] },
             some { element_ := (3, 30), next_ := [some 3] },
             some { element_ := (6, 60), next_ := [some 4, some 1] },
             some { element_ := (9, 90), next_ := [some 1] }] }

end Examples

/-! ## The free store -/

section StoreLemmas

variable {K E : Type}

theorem lookup_lt {heap : Heap K E} {p : Nat} {nd : SkipNode K E}
    (h : lookup heap p = some nd) : p < heap.length := by
  unfold lookup at h
  by_contra hlt
  have : heap[p]? = none := List.getElem?_eq_none (by omega)
  simp [this] at h

theorem lookup_set {heap : Heap K E} {p : Nat} (hp : p < heap.length)
    (x : Option (SkipNode K E)) (q : Nat) :
    lookup (heap.set p x) q = if q = p then x else lookup heap q := by
  unfold lookup
  by_cases hq : q = p
  · subst hq; simp [hp]
  · have : p ≠ q := fun h => hq h.symm
    simp [List.getElem?_set_ne this, hq]

theorem lookup_append (heap : Heap K E) (x : Option (SkipNode K E)) (q : Nat) :
    lookup (heap ++ [x]) q = if q = heap.length then x else lookup heap q := by
  unfold lookup
  by_cases hq : q = heap.length
  · subst hq; simp
  · rcases Nat.lt_or_gt_of_ne hq with h | h
    · simp [List.getElem?_append_left h, hq]
    · have h1 : (heap ++ [x])[q]? = none := List.getElem?_eq_none (by simp; omega)
      have h2 : heap[q]? = none := List.getElem?_eq_none (by omega)
      simp [h1, h2, hq]

theorem slotsAt_lt {heap : Heap K E} {p m : Nat} (h : slotsAt heap p = some m) :
    p < heap.length := by
  unfold slotsAt at h
  cases hl : lookup heap p with
  | none => simp [hl] at h
  | some nd => exact lookup_lt hl

theorem readNext_slots {heap : Heap K E} {p i x : Nat} (h : readNext heap p i = .ret x) :
    ∃ m, slotsAt heap p = some m ∧ i < m := by
  unfold readNext at h
  cases hl : lookup heap p with
  | none => simp [hl] at h
  | some nd =>
    refine ⟨nd.next_.length, by simp [slotsAt, hl], ?_⟩
    by_contra hlt
    have : nd.next_[i]? = none := List.getElem?_eq_none (by omega)
    simp [hl, this] at h

theorem writeNext_ret {heap : Heap K E} {p m : Nat} (i q : Nat)
    (h : slotsAt heap p = some m) (hi : i < m) :
    ∃ heap1, writeNext heap p i q = .ret heap1 := by
  unfold slotsAt at h
  cases hl : lookup heap p with
  | none => simp [hl] at h
  | some nd =>
    simp [hl] at h
    subst h
    simp [writeNext, hl, hi]

theorem writeNext_length {heap heap1 : Heap K E} {p i q : Nat}
    (h : writeNext heap p i q = .ret heap1) : heap1.length = heap.length := by
  unfold writeNext at h
  cases hl : lookup heap p with
  | none => simp [hl] at h
  | some nd =>
    simp only [hl] at h
    split at h
    · cases h; simp
    · cases h

theorem writeNext_elemAt {heap heap1 : Heap K E} {p i q : Nat}
    (h : writeNext heap p i q = .ret heap1) (r : Nat) : elemAt heap1 r = elemAt heap r := by
  unfold writeNext at h
  cases hl : lookup heap p with
  | none => simp [hl] at h
  | some nd =>
    simp only [hl] at h
    split at h
    · cases h
      unfold elemAt
      rw [lookup_set (lookup_lt hl)]
      by_cases hr : r = p
      · subst hr; simp [hl]
      · simp [hr]
    · cases h

theorem writeNext_slotsAt {heap heap1 : Heap K E} {p i q : Nat}
    (h : writeNext heap p i q = .ret heap1) (r : Nat) : slotsAt heap1 r = slotsAt heap r := by
  unfold writeNext at h
  cases hl : lookup heap p with
  | none => simp [hl] at h
  | some nd =>
    simp only [hl] at h
    split at h
    · cases h
      unfold slotsAt
      rw [lookup_set (lookup_lt hl)]
      by_cases hr : r = p
      · subst hr; simp [hl]
      · simp [hr]
    · cases h

theorem writeNext_readNext {heap heap1 : Heap K E} {p i q : Nat}
    (h : writeNext heap p i q = .ret heap1) (r j : Nat) :
    readNext heap1 r j = if r = p ∧ j = i then .ret q else readNext heap r j := by
  unfold writeNext at h
  cases hl : lookup heap p with
  | none => simp [hl] at h
  | some nd =>
    simp only [hl] at h
    split at h
    · rename_i hi
      cases h
      unfold readNext
      rw [lookup_set (lookup_lt hl)]
      by_cases hr : r = p
      · subst hr
        by_cases hj : j = i
        · subst hj; simp [hi]
        · have : i ≠ j := fun h => hj h.symm
          simp [hl, hj, List.getElem?_set_ne this]
      · simp [hr]
    · cases h

end StoreLemmas

/-! ## Chains -/

section ChainLemmas

variable {K E : Type}

theorem chain_nil (i : Nat) : chain ([] : List (Cell K E)) i = [] := rfl

theorem chain_append (l1 l2 : List (Cell K E)) (i : Nat) :
    chain (l1 ++ l2) i = chain l1 i ++ chain l2 i := by
  simp [chain, List.filter_append]

theorem chain_cons (c : Cell K E) (l : List (Cell K E)) (i : Nat) :
    chain (c :: l) i = if i ≤ c.lvl then c.addr :: chain l i else chain l i := by
  by_cases h : i ≤ c.lvl <;> simp [chain, List.filter_cons, h]

theorem chain_zero (l : List (Cell K E)) : chain l 0 = l.map Cell.addr := by
  simp [chain]

theorem chain_sublist (l : List (Cell K E)) (i : Nat) :
    (chain l i).Sublist (l.map Cell.addr) := by
  unfold chain
  exact List.Sublist.map _ (List.filter_sublist _)

theorem mem_chain {l : List (Cell K E)} {i a : Nat} (h : a ∈ chain l i) :
    ∃ c ∈ l, c.addr = a ∧ i ≤ c.lvl := by
  unfold chain at h
  simp only [List.mem_map, List.mem_filter, decide_eq_true_eq] at h
  obtain ⟨c, ⟨hc, hl⟩, rfl⟩ := h
  exact ⟨c, hc, rfl, hl⟩

theorem chain_eq_nil_of_low {l : List (Cell K E)} {i : Nat} (h : ∀ c ∈ l, c.lvl < i) :
    chain l i = [] := by
  unfold chain
  simp only [List.map_eq_nil_iff, List.filter_eq_nil_iff, decide_eq_true_eq]
  intro c hc
  have := h c hc
  omega

theorem lastFrom_append (p : Nat) (A B : List Nat) :
    lastFrom p (A ++ B) = lastFrom (lastFrom p A) B := by
  induction A generalizing p with
  | nil => rfl
  | cons a A ih => simpa [lastFrom] using ih a

theorem lastFrom_snoc (p : Nat) (A : List Nat) (x : Nat) : lastFrom p (A ++ [x]) = x := by
  simp [lastFrom_append, lastFrom]

theorem lastFrom_mem (p : Nat) (A : List Nat) : lastFrom p A ∈ p :: A := by
  induction A generalizing p with
  | nil => simp [lastFrom]
  | cons a A ih =>
    have := ih a
    simp only [lastFrom]
    exact List.mem_cons_of_mem _ this

/-- The level-`i` chain splits at the last node that also takes part in level `i + 1`. -/
theorem chain_split_above (l : List (Cell K E)) (i h : Nat) :
    ∃ A B, chain l i = A ++ B ∧ lastFrom h A = lastFrom h (chain l (i + 1)) := by
  induction l using List.reverseRecOn with
  | nil => exact ⟨[], [], rfl, rfl⟩
  | append_singleton l x ih =>
    obtain ⟨A, B, hAB, hA⟩ := ih
    by_cases hx : i + 1 ≤ x.lvl
    · refine ⟨chain l i ++ [x.addr], [], ?_, ?_⟩
      · have : i ≤ x.lvl := by omega
        simp [chain_append, chain_cons, this, chain_nil]
      · simp [chain_append, chain_cons, hx, chain_nil, lastFrom_snoc]
    · by_cases hx0 : i ≤ x.lvl
      · refine ⟨A, B ++ [x.addr], ?_, ?_⟩
        · simp [chain_append, chain_cons, hx0, chain_nil, hAB]
        · simp [chain_append, chain_cons, hx, chain_nil, hA]
      · refine ⟨A, B, ?_, ?_⟩
        · simp [chain_append, chain_cons, hx0, chain_nil, hAB]
        · simp [chain_append, chain_cons, hx, chain_nil, hA]

theorem linked_congr {heap heap1 : Heap K E} {i : Nat} :
    ∀ {xs : List Nat} {p q : Nat}, Linked heap i p xs q →
      (∀ x ∈ p :: xs, readNext heap1 x i = readNext heap x i) → Linked heap1 i p xs q
  | [], p, q, h, hr => by
    unfold Linked at h ⊢
    rw [hr p (by simp)]; exact h
  | x :: xs, p, q, h, hr => by
    unfold Linked at h ⊢
    refine ⟨by rw [hr p (by simp)]; exact h.1, linked_congr h.2 ?_⟩
    intro y hy
    exact hr y (List.mem_cons_of_mem _ hy)

theorem linked_append_cons {heap : Heap K E} {i : Nat} :
    ∀ {A : List Nat} {p y : Nat} {B : List Nat} {q : Nat},
      Linked heap i p (A ++ y :: B) q ↔ Linked heap i p A y ∧ Linked heap i y B q
  | [], p, y, B, q => by simp [Linked]
  | a :: A, p, y, B, q => by
    rw [List.cons_append]
    simp only [Linked]
    rw [linked_append_cons (A := A)]
    exact and_assoc.symm

/-- Dropping the front part of a chain: the rest is linked from the last node dropped. -/
theorem linked_drop {heap : Heap K E} {i : Nat} :
    ∀ {A : List Nat} {p : Nat} {R : List Nat} {q : Nat},
      Linked heap i p (A ++ R) q → Linked heap i (lastFrom p A) R q
  | [], p, R, q, h => by simpa [lastFrom] using h
  | a :: A, p, R, q, h => by
    rw [List.cons_append] at h
    simp only [Linked] at h
    simpa [lastFrom] using linked_drop (A := A) h.2

/-- Keeping the front part of a chain: it is linked to the first node of the rest. -/
theorem linked_take {heap : Heap K E} {i : Nat} :
    ∀ {A : List Nat} {p : Nat} {R : List Nat} {q : Nat},
      Linked heap i p (A ++ R) q → Linked heap i p A (firstOr R q)
  | A, p, [], q, h => by simpa [firstOr] using h
  | A, p, y :: R, q, h => by
    simpa [firstOr] using (linked_append_cons.1 h).1

theorem linked_last {heap : Heap K E} {i : Nat} :
    ∀ {A : List Nat} {p q : Nat}, Linked heap i p A q → readNext heap (lastFrom p A) i = .ret q
  | [], p, q, h => by simpa [Linked, lastFrom] using h
  | a :: A, p, q, h => by
    simp only [Linked] at h
    simpa [lastFrom] using linked_last h.2

@[simp] theorem bind_ret {α β : Type} (a : α) (f : α → Outcome β) :
    (Outcome.ret a).bind f = f a := rfl

@[simp] theorem bind_fault {α β : Type} (f : α → Outcome β) :
    (Outcome.fault : Outcome α).bind f = .fault := rfl

@[simp] theorem bind_spin {α β : Type} (f : α → Outcome β) :
    (Outcome.spin : Outcome α).bind f = .spin := rfl

theorem bind_eq_ret {α β : Type} {o : Outcome α} {f : α → Outcome β} {b : β}
    (h : o.bind f = .ret b) : ∃ a, o = .ret a ∧ f a = .ret b := by
  cases o with
  | ret a => exact ⟨a, rfl, h⟩
  | fault => cases h
  | spin => cases h

theorem keyAt_of_elemAt {heap : Heap K E} {p : Nat} {k : K} {v : E}
    (h : elemAt heap p = some (k, v)) : keyAt heap p = .ret k := by
  unfold elemAt at h
  cases hl : lookup heap p with
  | none => simp [hl] at h
  | some nd =>
    simp [hl] at h
    simp [keyAt, deref, hl, h]

theorem linked_first {heap : Heap K E} {i : Nat} {R : List Nat} {p q : Nat}
    (h : Linked heap i p R q) : readNext heap p i = .ret (firstOr R q) := by
  cases R with
  | nil => simpa [Linked, firstOr] using h
  | cons y R => simpa [Linked, firstOr] using h.1

theorem chain_length_le (l : List (Cell K E)) (i : Nat) : (chain l i).length ≤ l.length := by
  simpa using (chain_sublist l i).length_le

end ChainLemmas

/-! ## The descent of `search` and `find` -/

section Descent

variable {K E : Type} [LinearOrder K]

theorem advance_spec {heap : Heap K E} {the_key : K} {i : Nat} :
    ∀ {B : List Nat} {p : Nat} {R : List Nat} {q : Nat} {fuel : Nat},
      Linked heap i p (B ++ R) q →
      (∀ a ∈ B, ∃ k, keyAt heap a = .ret k ∧ k < the_key) →
      (∃ k, keyAt heap (firstOr R q) = .ret k ∧ ¬ k < the_key) →
      B.length < fuel →
      advance heap the_key i fuel p = .ret (lastFrom p B)
  | [], p, R, q, 0, _, _, _, hf => by simp at hf
  | [], p, R, q, fuel + 1, hl, _, ⟨k, hk, hnk⟩, _ => by
    have h1 := linked_first (by simpa using hl : Linked heap i p R q)
    simp [advance, h1, hk, hnk, lastFrom]
  | a :: B, p, R, q, 0, _, _, _, hf => by simp at hf
  | a :: B, p, R, q, fuel + 1, hl, hB, hR, hf => by
    rw [List.cons_append] at hl
    simp only [Linked] at hl
    obtain ⟨k, hk, hlt⟩ := hB a (by simp)
    have hf2 : B.length < fuel := by simpa using hf
    have ih := advance_spec hl.2 (fun b hb => hB b (List.mem_cons_of_mem _ hb)) hR hf2
    simp [advance, hl.1, hk, hlt, ih, lastFrom]

/-- One level of the descent on a well-formed list: from the predecessor found on level
`i + 1` the inner loop stops at the predecessor on level `i`. -/
theorem advance_level {s : SkipList K E} {cells pre post : List (Cell K E)} {the_key : K}
    {fuel : Nat} (hrep : Rep s cells) (hsplit : cells = pre ++ post)
    (hpre : ∀ c ∈ pre, c.key < the_key) (hpost : ∀ c ∈ post, ¬ c.key < the_key)
    (hk : ¬ s.tail_key_ < the_key) (hf : cells.length < fuel) (i : Nat)
    (hi : (i : Int) ≤ s.max_level_) :
    advance s.heap the_key i fuel (lastFrom s.header_node_ (chain pre (i + 1)))
      = .ret (lastFrom s.header_node_ (chain pre i)) := by
  obtain ⟨A, B, hAB, hA⟩ := chain_split_above pre i s.header_node_
  have hl := hrep.linked i hi
  rw [hsplit, chain_append, hAB, List.append_assoc] at hl
  have hl2 := linked_drop hl
  rw [hA] at hl2
  have hB : ∀ a ∈ B, ∃ k, keyAt s.heap a = .ret k ∧ k < the_key := by
    intro a ha
    have ha2 : a ∈ chain pre i := by rw [hAB]; exact List.mem_append_right _ ha
    obtain ⟨c, hc, rfl, _⟩ := mem_chain ha2
    have hst := hrep.stored c (by rw [hsplit]; exact List.mem_append_left _ hc)
    exact ⟨c.key, keyAt_of_elemAt hst.1, hpre c hc⟩
  have hR : ∃ k, keyAt s.heap (firstOr (chain post i) s.tail_node_) = .ret k ∧ ¬ k < the_key := by
    cases hp : chain post i with
    | nil =>
      obtain ⟨v, hv⟩ := hrep.tail.1
      exact ⟨s.tail_key_, by simpa [firstOr] using keyAt_of_elemAt hv, hk⟩
    | cons y R =>
      have hy : y ∈ chain post i := by rw [hp]; simp
      obtain ⟨c, hc, rfl, _⟩ := mem_chain hy
      have hst := hrep.stored c (by rw [hsplit]; exact List.mem_append_right _ hc)
      exact ⟨c.key, by simpa [firstOr] using keyAt_of_elemAt hst.1, hpost c hc⟩
  have hlen : B.length < fuel := by
    have h1 := chain_length_le pre i
    rw [hAB] at h1
    have h2 : pre.length ≤ cells.length := by rw [hsplit]; simp
    simp at h1
    omega
  rw [advance_spec hl2 hB hR hlen, hAB, lastFrom_append, hA]

theorem searchLoop_spec {s : SkipList K E} {cells pre post : List (Cell K E)} {the_key : K}
    {fuel : Nat} (hrep : Rep s cells) (hsplit : cells = pre ++ post)
    (hpre : ∀ c ∈ pre, c.key < the_key) (hpost : ∀ c ∈ post, ¬ c.key < the_key)
    (hk : ¬ s.tail_key_ < the_key) (hf : cells.length < fuel) :
    ∀ (n : Nat), n ≤ s.levels_ + 1 → ∀ (last : List (Option Nat)),
      (last.length : Int) = s.max_level_ + 1 →
      ∃ last1, searchLoop fuel s.heap the_key n (lastFrom s.header_node_ (chain pre n)) last
          = .ret (lastFrom s.header_node_ (chain pre 0), last1) ∧
        last1.length = last.length ∧
        (∀ j, j < n → last1[j]? = some (some (lastFrom s.header_node_ (chain pre j)))) ∧
        (∀ j, n ≤ j → last1[j]? = last[j]?)
  | 0, _, last, _ => ⟨last, by simp [searchLoop], rfl, by simp, by simp⟩
  | i + 1, hn, last, hlast => by
    have htop := hrep.top
    have hi : (i : Int) ≤ s.max_level_ := by omega
    have hil : i < last.length := by omega
    have hadv := advance_level hrep hsplit hpre hpost hk hf i hi
    obtain ⟨last2, h1, h2, h3, h4⟩ := searchLoop_spec hrep hsplit hpre hpost hk hf i (by omega)
      (last.set i (some (lastFrom s.header_node_ (chain pre i)))) (by simpa using hlast)
    refine ⟨last2, ?_, ?_, ?_, ?_⟩
    · simp [searchLoop, hadv, writeLast, hil, h1]
    · simpa using h2
    · intro j hj
      by_cases hji : j = i
      · subst hji
        rw [h4 j (le_refl _)]
        simp [hil]
      · exact h3 j (by omega)
    · intro j hj
      rw [h4 j (by omega)]
      exact List.getElem?_set_ne (by omega)

theorem exists_split (k : K) :
    ∀ (cells : List (Cell K E)), (cells.Pairwise fun a b => a.key < b.key) →
      ∃ pre post, cells = pre ++ post ∧ (∀ c ∈ pre, c.key < k) ∧ (∀ c ∈ post, ¬ c.key < k)
  | [], _ => ⟨[], [], rfl, by simp, by simp⟩
  | c :: l, hs => by
    rw [List.pairwise_cons] at hs
    by_cases hc : c.key < k
    · obtain ⟨pre, post, h1, h2, h3⟩ := exists_split k l hs.2
      refine ⟨c :: pre, post, by rw [h1]; rfl, ?_, h3⟩
      intro d hd
      rcases List.mem_cons.1 hd with rfl | hd
      · exact hc
      · exact h2 d hd
    · refine ⟨[], c :: l, rfl, by simp, ?_⟩
      intro d hd
      rcases List.mem_cons.1 hd with rfl | hd
      · exact hc
      · exact fun h => hc (lt_trans (hs.1 d hd) h)

theorem sorted_around {pre post : List (Cell K E)} {c : Cell K E}
    (hs : (pre ++ c :: post).Pairwise fun a b => a.key < b.key) :
    (∀ d ∈ pre, d.key < c.key) ∧ (∀ d ∈ c :: post, ¬ d.key < c.key) := by
  rw [List.pairwise_append] at hs
  obtain ⟨_, h2, h3⟩ := hs
  rw [List.pairwise_cons] at h2
  refine ⟨fun d hd => h3 d hd c (by simp), ?_⟩
  intro d hd
  rcases List.mem_cons.1 hd with rfl | hd
  · exact lt_irrefl _
  · exact not_lt_of_lt (h2.1 d hd)

theorem search_spec {s : SkipList K E} {cells pre post : List (Cell K E)} {the_key : K}
    {fuel : Nat} (hrep : Rep s cells) (hsplit : cells = pre ++ post)
    (hpre : ∀ c ∈ pre, c.key < the_key) (hpost : ∀ c ∈ post, ¬ c.key < the_key)
    (hk : ¬ s.tail_key_ < the_key) (hf : cells.length < fuel) :
    ∃ last1, search fuel the_key s
        = .ret (firstOr (chain post 0) s.tail_node_, { s with last_ := last1 }) ∧
      last1.length = s.last_.length ∧
      (∀ j, j ≤ s.levels_ →
        last1[j]? = some (some (lastFrom s.header_node_ (chain pre j)))) ∧
      (∀ j, s.levels_ < j → last1[j]? = s.last_[j]?) := by
  have h0 : chain pre (s.levels_ + 1) = [] := by
    apply chain_eq_nil_of_low
    intro c hc
    have := hrep.low c (by rw [hsplit]; exact List.mem_append_left _ hc)
    omega
  obtain ⟨last1, h1, h2, h3, h4⟩ := searchLoop_spec hrep hsplit hpre hpost hk hf
    (s.levels_ + 1) (le_refl _) s.last_ hrep.scratch
  rw [h0] at h1
  have htop := hrep.top
  have hl := hrep.linked 0 (by omega)
  rw [hsplit, chain_append] at hl
  have hnx := linked_first (linked_drop hl)
  refine ⟨last1, ?_, h2, fun j hj => h3 j (by omega), fun j hj => h4 j (by omega)⟩
  simp only [lastFrom] at h1
  simp [search, h1, hnx]

theorem searchLoop_findLoop {heap : Heap K E} {the_key : K} {fuel : Nat} :
    ∀ {n b : Nat} {last : List (Option Nat)} {r : Nat × List (Option Nat)},
      searchLoop fuel heap the_key n b last = .ret r → findLoop fuel heap the_key n b = .ret r.1
  | 0, b, last, r, h => by
    simp only [searchLoop] at h
    cases h
    simp [findLoop]
  | i + 1, b, last, r, h => by
    simp only [searchLoop] at h
    obtain ⟨b1, hb1, h⟩ := bind_eq_ret h
    obtain ⟨l1, _, h⟩ := bind_eq_ret h
    simp [findLoop, hb1, searchLoop_findLoop h]

/-- On a well-formed list `find` stops at the first cell whose key is not below the key
looked for, or at the tail. -/
theorem find_lands {s : SkipList K E} {cells pre post : List (Cell K E)} {the_key : K}
    {fuel : Nat} (hrep : Rep s cells) (hsplit : cells = pre ++ post)
    (hpre : ∀ c ∈ pre, c.key < the_key) (hpost : ∀ c ∈ post, ¬ c.key < the_key)
    (hk : ¬ s.tail_key_ < the_key) (hf : cells.length < fuel) :
    find fuel the_key s =
      (keyAt s.heap (firstOr (chain post 0) s.tail_node_)).bind fun k =>
        if k = the_key then .ret (some (firstOr (chain post 0) s.tail_node_)) else .ret none := by
  obtain ⟨last1, h1, -⟩ := search_spec hrep hsplit hpre hpost hk hf
  unfold search at h1
  obtain ⟨r, hr, h1⟩ := bind_eq_ret h1
  obtain ⟨nx, hnx, h1⟩ := bind_eq_ret h1
  cases h1
  have hfl := searchLoop_findLoop hr
  have hk2 : ¬ the_key > s.tail_key_ := hk
  simp [find, hk2, hfl, hnx]

theorem find_hit {s : SkipList K E} {pre post : List (Cell K E)} {c : Cell K E}
    {fuel : Nat} (hrep : Rep s (pre ++ c :: post)) (hf : (pre ++ c :: post).length < fuel) :
    find fuel c.key s = .ret (some c.addr) ∧
      findElement fuel c.key s = .ret (some (c.key, c.val)) := by
  obtain ⟨h1, h2⟩ := sorted_around hrep.sorted
  have hc := hrep.below c (by simp)
  have hst := hrep.stored c (by simp)
  have hfind := find_lands hrep rfl h1 h2 (not_lt_of_lt hc) hf
  have hfind2 : find fuel c.key s = .ret (some c.addr) := by
    rw [hfind]
    simp [chain_cons, firstOr, keyAt_of_elemAt hst.1]
  refine ⟨hfind2, ?_⟩
  unfold findElement
  rw [hfind2]
  have := hst.1
  unfold elemAt at this
  cases hl : lookup s.heap c.addr with
  | none => simp [hl] at this
  | some nd =>
    simp [hl] at this
    simp [deref, hl, this]

theorem find_miss {s : SkipList K E} {cells : List (Cell K E)} {the_key : K}
    {fuel : Nat} (hrep : Rep s cells) (hk : the_key < s.tail_key_)
    (habs : ∀ c ∈ cells, c.key ≠ the_key) (hf : cells.length < fuel) :
    find fuel the_key s = .ret none ∧ findElement fuel the_key s = .ret none := by
  obtain ⟨pre, post, hsplit, hpre, hpost⟩ := exists_split the_key cells hrep.sorted
  have hfind := find_lands hrep hsplit hpre hpost (not_lt_of_lt hk) hf
  have hfind2 : find fuel the_key s = .ret none := by
    rw [hfind]
    cases hp : post with
    | nil =>
      obtain ⟨v, hv⟩ := hrep.tail.1
      simp [chain_nil, firstOr, keyAt_of_elemAt hv, ne_of_gt hk]
    | cons c l =>
      have hc : c ∈ cells := by rw [hsplit, hp]; simp
      have hst := hrep.stored c hc
      simp [chain_cons, firstOr, keyAt_of_elemAt hst.1, habs c hc]
  exact ⟨hfind2, by simp [findElement, hfind2]⟩

/-- The node `search` returns holds a pair whose key is not below the key searched. -/
theorem landing_elem {s : SkipList K E} {cells pre post : List (Cell K E)} {the_key : K}
    (hrep : Rep s cells) (hsplit : cells = pre ++ post)
    (hpost : ∀ c ∈ post, ¬ c.key < the_key) (hk : ¬ s.tail_key_ < the_key) :
    ∃ k1 v1, elemAt s.heap (firstOr (chain post 0) s.tail_node_) = some (k1, v1) ∧
      ¬ k1 < the_key := by
  cases hp : post with
  | nil =>
    obtain ⟨v, hv⟩ := hrep.tail.1
    exact ⟨s.tail_key_, v, by simpa [chain_nil, firstOr] using hv, hk⟩
  | cons c l =>
    have hc : c ∈ cells := by rw [hsplit, hp]; simp
    have hst := hrep.stored c hc
    exact ⟨c.key, c.val, by simpa [chain_cons, firstOr] using hst.1,
      hpost c (by rw [hp]; simp)⟩

theorem findElement_lands {s : SkipList K E} {cells pre post : List (Cell K E)}
    {the_key : K} {fuel : Nat} (hrep : Rep s cells) (hsplit : cells = pre ++ post)
    (hpre : ∀ c ∈ pre, c.key < the_key) (hpost : ∀ c ∈ post, ¬ c.key < the_key)
    (hk : ¬ s.tail_key_ < the_key) (hf : cells.length < fuel) {k1 : K} {v1 : E}
    (hel : elemAt s.heap (firstOr (chain post 0) s.tail_node_) = some (k1, v1)) :
    find fuel the_key s
        = .ret (if k1 = the_key then some (firstOr (chain post 0) s.tail_node_) else none) ∧
      findElement fuel the_key s = .ret (if k1 = the_key then some (k1, v1) else none) := by
  have hfind := find_lands hrep hsplit hpre hpost hk hf
  rw [keyAt_of_elemAt hel] at hfind
  simp only [bind_ret] at hfind
  have h1 : find fuel the_key s
      = .ret (if k1 = the_key then some (firstOr (chain post 0) s.tail_node_) else none) := by
    rw [hfind]
    by_cases h : k1 = the_key <;> simp [h]
  refine ⟨h1, ?_⟩
  unfold findElement
  rw [h1]
  by_cases h : k1 = the_key
  · have hd := hel
    unfold elemAt at hd
    cases hl : lookup s.heap (firstOr (chain post 0) s.tail_node_) with
    | none => simp [hl] at hd
    | some nd =>
      simp [hl] at hd
      simp [h, deref, hl, hd]
  · simp [h]

end Descent

/-! ## The linking loop of `insert` -/

section Splice

variable {K E : Type}

theorem readLast_of_get {last : List (Option Nat)} {i p : Nat}
    (h : last[i]? = some (some p)) : readLast last i = .ret p := by
  simp [readLast, h]

theorem lookup_append_old {heap : Heap K E} (x : Option (SkipNode K E)) {p : Nat}
    (hp : p < heap.length) : lookup (heap ++ [x]) p = lookup heap p := by
  rw [lookup_append]; simp [Nat.ne_of_lt hp]

theorem readNext_append_old {heap : Heap K E} (x : Option (SkipNode K E)) {p : Nat}
    (hp : p < heap.length) (j : Nat) : readNext (heap ++ [x]) p j = readNext heap p j := by
  simp [readNext, lookup_append_old x hp]

theorem elemAt_append_old {heap : Heap K E} (x : Option (SkipNode K E)) {p : Nat}
    (hp : p < heap.length) : elemAt (heap ++ [x]) p = elemAt heap p := by
  simp [elemAt, lookup_append_old x hp]

theorem slotsAt_append_old {heap : Heap K E} (x : Option (SkipNode K E)) {p : Nat}
    (hp : p < heap.length) : slotsAt (heap ++ [x]) p = slotsAt heap p := by
  simp [slotsAt, lookup_append_old x hp]

theorem elemAt_lt {heap : Heap K E} {p : Nat} {e : K × E} (h : elemAt heap p = some e) :
    p < heap.length := by
  unfold elemAt at h
  cases hl : lookup heap p with
  | none => simp [hl] at h
  | some nd => exact lookup_lt hl

theorem readNext_lt {heap : Heap K E} {p i x : Nat} (h : readNext heap p i = .ret x) :
    p < heap.length := by
  obtain ⟨m, hm, _⟩ := readNext_slots h
  exact slotsAt_lt hm

/-- Effect of the linking loop of `insert` on the forward slots: at each level of the
range the predecessor `b j` now points to the new node and the new node to the old
successor of `b j`; nothing else changes. -/
theorem spliceLoop_spec (last : List (Option Nat)) (new : Nat) (b : Nat → Nat) :
    ∀ (n i : Nat) (heap : Heap K E),
      (∀ j, i ≤ j → j < i + n →
        readLast last j = .ret (b j) ∧ b j ≠ new ∧ ∃ x, readNext heap (b j) j = .ret x) →
      (∃ m, slotsAt heap new = some m ∧ i + n ≤ m) →
      ∃ heap1, spliceLoop last new n i heap = .ret heap1 ∧ heap1.length = heap.length ∧
        (∀ r, elemAt heap1 r = elemAt heap r) ∧ (∀ r, slotsAt heap1 r = slotsAt heap r) ∧
        ∀ r j, readNext heap1 r j =
          if i ≤ j ∧ j < i + n then
            (if r = new then readNext heap (b j) j
             else if r = b j then .ret new else readNext heap r j)
          else readNext heap r j
  | 0, i, heap, _, _ => by
    refine ⟨heap, by simp [spliceLoop], rfl, fun _ => rfl, fun _ => rfl, ?_⟩
    intro r j
    have : ¬ (i ≤ j ∧ j < i + 0) := by omega
    rw [if_neg this]
  | n + 1, i, heap, hb, hnew => by
    obtain ⟨hlast, hne, x, hx⟩ := hb i (le_refl _) (by omega)
    obtain ⟨m, hm, hmi⟩ := hnew
    obtain ⟨h1, hw1⟩ := writeNext_ret i x hm (by omega)
    obtain ⟨mb, hmb, hmbi⟩ := readNext_slots hx
    have hmb1 : slotsAt h1 (b i) = some mb := by rw [writeNext_slotsAt hw1]; exact hmb
    obtain ⟨h2, hw2⟩ := writeNext_ret i new hmb1 hmbi
    have hread2 : ∀ r j, readNext h2 r j =
        if r = b i ∧ j = i then .ret new
        else if r = new ∧ j = i then .ret x else readNext heap r j := by
      intro r j
      rw [writeNext_readNext hw2, writeNext_readNext hw1]
    obtain ⟨h3, hs3, hl3, he3, hsl3, hr3⟩ := spliceLoop_spec last new b n (i + 1) h2
      (by
        intro j hj1 hj2
        obtain ⟨ha, hb2, y, hy⟩ := hb j (by omega) (by omega)
        refine ⟨ha, hb2, y, ?_⟩
        rw [hread2]
        have : j ≠ i := by omega
        simp [this, hy])
      ⟨m, by rw [writeNext_slotsAt hw2, writeNext_slotsAt hw1]; exact hm, by omega⟩
    refine ⟨h3, ?_, ?_, ?_, ?_, ?_⟩
    · simp [spliceLoop, hlast, hx, hw1, hw2, hs3]
    · rw [hl3, writeNext_length hw2, writeNext_length hw1]
    · intro r; rw [he3, writeNext_elemAt hw2, writeNext_elemAt hw1]
    · intro r; rw [hsl3, writeNext_slotsAt hw2, writeNext_slotsAt hw1]
    · intro r j
      rw [hr3]
      by_cases hji : j = i
      · subst hji
        have h1 : ¬ (j + 1 ≤ j ∧ j < j + 1 + n) := by omega
        have h2 : j ≤ j ∧ j < j + (n + 1) := by omega
        rw [if_neg h1, if_pos h2, hread2]
        by_cases hrn : r = new
        · subst hrn
          have : ¬ r = b j := fun h => hne h.symm
          simp [this, hx]
        · simp [hrn]
      · by_cases hin : i + 1 ≤ j ∧ j < i + 1 + n
        · have h2 : i ≤ j ∧ j < i + (n + 1) := by omega
          rw [if_pos hin, if_pos h2]
          simp [hread2, hji]
        · have h2 : ¬ (i ≤ j ∧ j < i + (n + 1)) := by omega
          rw [if_neg hin, if_neg h2]
          simp [hread2, hji]

/-- Redirecting the last hop of a chain. -/
theorem linked_redirect {heap heap1 : Heap K E} {i : Nat} :
    ∀ {A : List Nat} {p m m1 : Nat}, Linked heap i p A m → (p :: A).Nodup →
      (∀ x ∈ p :: A, x ≠ lastFrom p A → readNext heap1 x i = readNext heap x i) →
      readNext heap1 (lastFrom p A) i = .ret m1 → Linked heap1 i p A m1
  | [], p, m, m1, _, _, _, h => by simpa [Linked, lastFrom] using h
  | a :: A, p, m, m1, hl, hnd, hr, h => by
    simp only [Linked] at hl ⊢
    simp only [lastFrom] at h hr
    have hnd2 : (a :: A).Nodup := (List.nodup_cons.1 hnd).2
    have hp : p ≠ lastFrom a A := by
      intro hp
      have := lastFrom_mem a A
      rw [← hp] at this
      exact (List.nodup_cons.1 hnd).1 this
    refine ⟨by rw [hr p (by simp) hp]; exact hl.1, ?_⟩
    exact linked_redirect hl.2 hnd2 (fun x hx hne => hr x (List.mem_cons_of_mem _ hx) hne) h

theorem linked_of_first {heap : Heap K E} {i : Nat} {p q : Nat} :
    ∀ {Q : List Nat}, readNext heap p i = .ret (firstOr Q q) →
      (∀ y Q1, Q = y :: Q1 → Linked heap i y Q1 q) → Linked heap i p Q q
  | [], h, _ => by simpa [Linked, firstOr] using h
  | y :: Q1, h, hr => by
    simp only [Linked]
    exact ⟨by simpa [firstOr] using h, hr y Q1 rfl⟩

theorem linked_rest {heap : Heap K E} {i : Nat} {A : List Nat} {p y : Nat} {B : List Nat}
    {q : Nat} (h : Linked heap i p (A ++ y :: B) q) : Linked heap i y B q :=
  (linked_append_cons.1 h).2

theorem deref_of_elemAt {heap : Heap K E} {p : Nat} {e : K × E}
    (h : elemAt heap p = some e) : ∃ nd, deref heap p = .ret nd ∧ nd.element_ = e ∧
      lookup heap p = some nd := by
  unfold elemAt at h
  cases hl : lookup heap p with
  | none => simp [hl] at h
  | some nd =>
    simp [hl] at h
    exact ⟨nd, by simp [deref, hl], h, rfl⟩

theorem levelLoop_ret (cut_off : Nat) :
    ∀ (draws : List Nat) (n : Nat), (∃ d ∈ draws, cut_off < d) →
      ∃ lev, levelLoop cut_off draws n = .ret lev
  | [], _, h => by simp at h
  | d :: ds, n, h => by
    by_cases hd : d ≤ cut_off
    · have : ∃ d ∈ ds, cut_off < d := by
        obtain ⟨x, hx, hlt⟩ := h
        rcases List.mem_cons.1 hx with rfl | hx
        · omega
        · exact ⟨x, hx, hlt⟩
      simpa [levelLoop, hd] using levelLoop_ret cut_off ds (n + 1) this
    · exact ⟨n, by simp [levelLoop, hd]⟩

theorem setElem_readNext {heap : Heap K E} {p : Nat} {nd : SkipNode K E}
    (hl : lookup heap p = some nd) (e : K × E) (r j : Nat) :
    readNext (heap.set p (some { nd with element_ := e })) r j = readNext heap r j := by
  unfold readNext
  rw [lookup_set (lookup_lt hl)]
  by_cases hr : r = p
  · subst hr; simp [hl]
  · simp [hr]

theorem setElem_slotsAt {heap : Heap K E} {p : Nat} {nd : SkipNode K E}
    (hl : lookup heap p = some nd) (e : K × E) (r : Nat) :
    slotsAt (heap.set p (some { nd with element_ := e })) r = slotsAt heap r := by
  unfold slotsAt
  rw [lookup_set (lookup_lt hl)]
  by_cases hr : r = p
  · subst hr; simp [hl]
  · simp [hr]

theorem setElem_elemAt {heap : Heap K E} {p : Nat} {nd : SkipNode K E}
    (hl : lookup heap p = some nd) (e : K × E) (r : Nat) :
    elemAt (heap.set p (some { nd with element_ := e })) r
      = if r = p then some e else elemAt heap r := by
  unfold elemAt
  rw [lookup_set (lookup_lt hl)]
  by_cases hr : r = p
  · subst hr; simp
  · simp [hr]

theorem walkLevel_spec {heap : Heap K E} {i tail : Nat} :
    ∀ {xs : List (Cell K E)} {p fuel : Nat},
      Linked heap i p (xs.map Cell.addr) tail →
      (∀ c ∈ xs, Stored heap c ∧ c.addr ≠ tail) → xs.length < fuel →
      walkLevel heap i tail fuel p = .ret (xs.map fun c => (c.key, c.val))
  | [], p, 0, _, _, hf => by simp at hf
  | [], p, fuel + 1, hl, _, _ => by
    simp only [List.map_nil, Linked] at hl
    simp [walkLevel, hl]
  | c :: xs, p, 0, _, _, hf => by simp at hf
  | c :: xs, p, fuel + 1, hl, hst, hf => by
    simp only [List.map_cons, Linked] at hl
    obtain ⟨hsc, hne⟩ := hst c (by simp)
    obtain ⟨nd, hnd, hnde, _⟩ := deref_of_elemAt hsc.1
    have hf2 : xs.length < fuel := by simpa using hf
    have ih := walkLevel_spec hl.2 (fun d hd => hst d (List.mem_cons_of_mem _ hd)) hf2
    simp [walkLevel, hl.1, hne, hnd, ih, hnde]

end Splice

/-! ## `insert` on a well-formed list -/

section InsertLemmas

variable {K E : Type} [LinearOrder K]

theorem rep_addr_lt {s : SkipList K E} {cells : List (Cell K E)} (hrep : Rep s cells)
    {c : Cell K E} (hc : c ∈ cells) : c.addr < s.heap.length :=
  slotsAt_lt (hrep.stored c hc).2

theorem rep_header_lt {s : SkipList K E} {cells : List (Cell K E)} (hrep : Rep s cells) :
    s.header_node_ < s.heap.length := by
  obtain ⟨m, hm, _⟩ := hrep.header
  exact slotsAt_lt hm

theorem rep_tail_lt {s : SkipList K E} {cells : List (Cell K E)} (hrep : Rep s cells) :
    s.tail_node_ < s.heap.length :=
  slotsAt_lt hrep.tail.2

theorem rep_addr_nodup {s : SkipList K E} {cells : List (Cell K E)} (hrep : Rep s cells) :
    (s.header_node_ :: cells.map Cell.addr).Nodup := by
  rw [List.nodup_cons]
  refine ⟨hrep.fresh, ?_⟩
  unfold List.Nodup
  rw [List.pairwise_map]
  refine List.Pairwise.imp_of_mem ?_ hrep.sorted
  intro a b ha hb hlt heq
  have h1 := (hrep.stored a ha).1
  have h2 := (hrep.stored b hb).1
  rw [heq, h2] at h1
  simp at h1
  exact absurd h1.1 (ne_of_gt hlt)

theorem rep_chain_nodup {s : SkipList K E} {cells : List (Cell K E)} (hrep : Rep s cells)
    (i : Nat) : (s.header_node_ :: chain cells i).Nodup :=
  List.Nodup.sublist (List.Sublist.cons₂ _ (chain_sublist cells i)) (rep_addr_nodup hrep)

theorem rep_tail_not_cell {s : SkipList K E} {cells : List (Cell K E)} (hrep : Rep s cells)
    {c : Cell K E} (hc : c ∈ cells) : c.addr ≠ s.tail_node_ := by
  intro heq
  obtain ⟨v, hv⟩ := hrep.tail.1
  have h1 := (hrep.stored c hc).1
  rw [heq, hv] at h1
  simp at h1
  exact absurd h1.1 (ne_of_gt (hrep.below c hc))

theorem sorted_insert {pre post : List (Cell K E)} {c : Cell K E}
    (hs : (pre ++ post).Pairwise fun a b => a.key < b.key)
    (hpre : ∀ d ∈ pre, d.key < c.key) (hpost : ∀ d ∈ post, c.key < d.key) :
    (pre ++ c :: post).Pairwise fun a b => a.key < b.key := by
  rw [List.pairwise_append] at hs ⊢
  obtain ⟨h1, h2, h3⟩ := hs
  refine ⟨h1, List.pairwise_cons.2 ⟨hpost, h2⟩, ?_⟩
  intro a ha b hb
  rcases List.mem_cons.1 hb with rfl | hb
  · exact hpre a ha
  · exact h3 a ha b hb

/-- Linking a new node after the predecessors found by `search` gives a well-formed list
with the new cell spliced in at its place in key order. -/
theorem rep_link_new {s : SkipList K E} {cells pre post : List (Cell K E)} {k : K} (v : E)
    (L levels2 : Nat) (last2 : List (Option Nat))
    (hrep : Rep s cells) (hsplit : cells = pre ++ post)
    (hpre : ∀ c ∈ pre, c.key < k) (hpost : ∀ c ∈ post, k < c.key) (hk : k < s.tail_key_)
    (hL : L ≤ levels2) (hlev : s.levels_ ≤ levels2) (htop : (levels2 : Int) ≤ s.max_level_)
    (hlen : last2.length = s.last_.length)
    (hlast : ∀ j, j ≤ L → last2[j]? = some (some (lastFrom s.header_node_ (chain pre j)))) :
    ∃ heap2, spliceLoop last2 s.heap.length (L + 1) 0
        (s.heap ++ [some { element_ := (k, v), next_ := List.replicate (L + 1) none }])
          = .ret heap2 ∧
      Rep { s with levels_ := levels2, last_ := last2, heap := heap2, d_size_ := s.d_size_ + 1 }
        (pre ++ { addr := s.heap.length, key := k, val := v, lvl := L } :: post) := by
  subst hsplit
  -- the predecessors
  have hlink : ∀ i : Nat, (i : Int) ≤ s.max_level_ →
      Linked s.heap i s.header_node_ (chain pre i ++ chain post i) s.tail_node_ := by
    intro i hi
    have := hrep.linked i hi
    rwa [chain_append] at this
  have hnodup : ∀ i : Nat, (s.header_node_ :: (chain pre i ++ chain post i)).Nodup := by
    intro i
    have := rep_chain_nodup hrep i
    rwa [chain_append] at this
  have hlive : ∀ i x, x ∈ s.header_node_ :: (chain pre i ++ chain post i) →
      x < s.heap.length := by
    intro i x hx
    rcases List.mem_cons.1 hx with rfl | hx
    · exact rep_header_lt hrep
    · rw [← chain_append] at hx
      obtain ⟨c, hc, rfl, _⟩ := mem_chain hx
      exact rep_addr_lt hrep hc
  have hbmem : ∀ i, lastFrom s.header_node_ (chain pre i)
      ∈ s.header_node_ :: (chain pre i ++ chain post i) := by
    intro i
    have := lastFrom_mem s.header_node_ (chain pre i)
    rcases List.mem_cons.1 this with h | h
    · rw [h]; simp
    · exact List.mem_cons_of_mem _ (List.mem_append_left _ h)
  have hbnext : ∀ i : Nat, (i : Int) ≤ s.max_level_ →
      readNext s.heap (lastFrom s.header_node_ (chain pre i)) i
        = .ret (firstOr (chain post i) s.tail_node_) :=
    fun i hi => linked_last (linked_take (hlink i hi))
  obtain ⟨heap2, hsp, hl2, he2, hsl2, hr2⟩ := spliceLoop_spec last2 s.heap.length
    (fun j => lastFrom s.header_node_ (chain pre j)) (L + 1) 0
    (s.heap ++ [some { element_ := (k, v), next_ := List.replicate (L + 1) none }])
    (by
      intro j _ hj
      have hjL : j ≤ L := by omega
      have hjm : (j : Int) ≤ s.max_level_ := by omega
      have hlt := hlive j _ (hbmem j)
      refine ⟨readLast_of_get (hlast j hjL), Nat.ne_of_lt hlt,
        firstOr (chain post j) s.tail_node_, ?_⟩
      rw [readNext_append_old _ hlt]
      exact hbnext j hjm)
    ⟨L + 1, by simp [slotsAt, lookup_append], by omega⟩
  refine ⟨heap2, hsp, ?_⟩
  have hread : ∀ r j, j ≤ L → readNext heap2 r j =
      if r = s.heap.length then .ret (firstOr (chain post j) s.tail_node_)
      else if r = lastFrom s.header_node_ (chain pre j) then .ret s.heap.length
      else readNext s.heap r j := by
    intro r j hj
    rw [hr2]
    have h1 : 0 ≤ j ∧ j < 0 + (L + 1) := by omega
    have hjm : (j : Int) ≤ s.max_level_ := by omega
    have hlt := hlive j _ (hbmem j)
    rw [if_pos h1, readNext_append_old _ hlt, hbnext j hjm]
    by_cases hr : r = s.heap.length
    · simp [hr]
    · rw [if_neg hr, if_neg hr]
      by_cases hrb : r = lastFrom s.header_node_ (chain pre j)
      · simp [hrb]
      · rw [if_neg hrb, if_neg hrb]
        simp [readNext, lookup_append, hr]
  have hread_hi : ∀ r j, ¬ j ≤ L → r < s.heap.length →
      readNext heap2 r j = readNext s.heap r j := by
    intro r j hj hr
    rw [hr2]
    have h1 : ¬ (0 ≤ j ∧ j < 0 + (L + 1)) := by omega
    rw [if_neg h1, readNext_append_old _ hr]
  have helem : ∀ r, r < s.heap.length → elemAt heap2 r = elemAt s.heap r := by
    intro r hr
    rw [he2, elemAt_append_old _ hr]
  have hslots : ∀ r, r < s.heap.length → slotsAt heap2 r = slotsAt s.heap r := by
    intro r hr
    rw [hsl2, slotsAt_append_old _ hr]
  refine
    { distinct := hrep.distinct
      header := ?_
      fresh := ?_
      tail := ?_
      scratch := ?_
      top := htop
      sorted := sorted_insert hrep.sorted hpre hpost
      below := ?_
      stored := ?_
      low := ?_
      linked := ?_
      size := ?_ }
  · obtain ⟨m, hm, hmm⟩ := hrep.header
    exact ⟨m, by rw [← hm]; exact hslots _ (rep_header_lt hrep), hmm⟩
  · have hf := hrep.fresh
    have hh := rep_header_lt hrep
    simp only [List.map_append, List.map_cons, List.mem_append, List.mem_cons] at hf ⊢
    rintro (h | h | h)
    · exact hf (Or.inl h)
    · exact absurd h (Nat.ne_of_lt hh)
    · exact hf (Or.inr h)
  · obtain ⟨⟨v0, hv0⟩, ht⟩ := hrep.tail
    have hh := rep_tail_lt hrep
    exact ⟨⟨v0, by rw [← hv0]; exact helem _ hh⟩, by rw [← ht]; exact hslots _ hh⟩
  · have := hrep.scratch
    show ((last2.length : Nat) : Int) = s.max_level_ + 1
    rw [hlen]; exact this
  · intro c hc
    rcases List.mem_append.1 hc with h | h
    · exact hrep.below c (List.mem_append_left _ h)
    · rcases List.mem_cons.1 h with rfl | h
      · exact hk
      · exact hrep.below c (List.mem_append_right _ h)
  · have hold : ∀ c ∈ pre ++ post, Stored heap2 c := by
      intro c hc
      have hst := hrep.stored c hc
      have hlt := rep_addr_lt hrep hc
      exact ⟨by rw [← hst.1]; exact helem _ hlt, by rw [← hst.2]; exact hslots _ hlt⟩
    intro c hc
    rcases List.mem_append.1 hc with h | h
    · exact hold c (List.mem_append_left _ h)
    · rcases List.mem_cons.1 h with rfl | h
      · exact ⟨by rw [he2]; simp [elemAt, lookup_append],
          by rw [hsl2]; simp [slotsAt, lookup_append]⟩
      · exact hold c (List.mem_append_right _ h)
  · intro c hc
    have hold : ∀ c ∈ pre ++ post, c.lvl ≤ levels2 :=
      fun c hc => le_trans (hrep.low c hc) hlev
    rcases List.mem_append.1 hc with h | h
    · exact hold c (List.mem_append_left _ h)
    · rcases List.mem_cons.1 h with rfl | h
      · exact hL
      · exact hold c (List.mem_append_right _ h)
  · intro i hi
    show Linked heap2 i s.header_node_ _ s.tail_node_
    have hi2 : (i : Int) ≤ s.max_level_ := hi
    have hl := hlink i hi2
    rw [chain_append, chain_cons]
    by_cases hiL : i ≤ L
    · rw [if_pos hiL, linked_append_cons]
      have hnd := hnodup i
      have hnd1 : (s.header_node_ :: chain pre i).Nodup := by
        have : (s.header_node_ :: chain pre i).Sublist
            (s.header_node_ :: (chain pre i ++ chain post i)) :=
          List.Sublist.cons₂ _ (List.sublist_append_left _ _)
        exact List.Nodup.sublist this hnd
      constructor
      · refine linked_redirect (linked_take hl) hnd1 ?_ ?_
        · intro x hx hne
          have hxl : x < s.heap.length := hlive i x (by
            rcases List.mem_cons.1 hx with h | h
            · rw [h]; simp
            · exact List.mem_cons_of_mem _ (List.mem_append_left _ h))
          rw [hread x i hiL, if_neg (Nat.ne_of_lt hxl), if_neg hne]
        · have hlt := hlive i _ (hbmem i)
          rw [hread _ i hiL, if_neg (Nat.ne_of_lt hlt), if_pos rfl]
      · refine linked_of_first ?_ ?_
        · rw [hread _ i hiL, if_pos rfl]
        · intro y Q1 hQ
          rw [hQ] at hl
          refine linked_congr (linked_rest hl) ?_
          intro x hx
          have hxq : x ∈ chain post i := by rw [hQ]; exact hx
          have hxl : x < s.heap.length :=
            hlive i x (List.mem_cons_of_mem _ (List.mem_append_right _ hxq))
          have hxb : x ≠ lastFrom s.header_node_ (chain pre i) := by
            intro hxb
            have hdis : (s.header_node_ :: chain pre i ++ chain post i).Nodup := by
              simpa using hnd
            have := (List.nodup_append.1 hdis).2.2
            exact this (by rw [hxb]; exact lastFrom_mem _ _) hxq
          rw [hread x i hiL, if_neg (Nat.ne_of_lt hxl), if_neg hxb]
    · rw [if_neg hiL]
      refine linked_congr hl ?_
      intro x hx
      exact hread_hi x i hiL (hlive i x hx)
  · show s.d_size_ + 1 = ((pre ++ _ :: post).length : Int)
    have := hrep.size
    simp only [List.length_append, List.length_cons] at this ⊢
    push_cast at this ⊢
    omega

/-- Inserting a key that is not stored: `insert` returns, and the list then holds the new
cell at its place in key order. -/
theorem insert_new {s : SkipList K E} {cells pre post : List (Cell K E)} {k : K} (v : E)
    {fuel : Nat} {draws : List Nat} {lev0 : Nat}
    (hrep : Rep s cells) (hsplit : cells = pre ++ post)
    (hpre : ∀ c ∈ pre, c.key < k) (hpost : ∀ c ∈ post, k < c.key) (hk : k < s.tail_key_)
    (hf : cells.length < fuel) (hlev : levelLoop s.cut_off_ draws 0 = .ret lev0) :
    ∃ s1, insert fuel draws (k, v) s = .ret s1 ∧
      Rep s1 (pre ++ { addr := s.heap.length, key := k, val := v, lvl := newLevel s lev0 }
        :: post) ∧
      s1.levels_ = max s.levels_ (newLevel s lev0) ∧ s1.d_size_ = s.d_size_ + 1 ∧
      s1.max_level_ = s.max_level_ ∧ s1.tail_key_ = s.tail_key_ ∧
      s1.header_node_ = s.header_node_ ∧ s1.tail_node_ = s.tail_node_ ∧
      s1.cut_off_ = s.cut_off_ := by
  have hpost2 : ∀ c ∈ post, ¬ c.key < k := fun c hc => not_lt_of_lt (hpost c hc)
  obtain ⟨last1, hsearch, hlen1, hlast1, hlast1b⟩ :=
    search_spec hrep hsplit hpre hpost2 (not_lt_of_lt hk) hf
  have hg : ¬ (k > s.tail_key_) := not_lt_of_lt hk
  -- the node `search` returns holds another key
  have hnode : ∃ nd, deref s.heap (firstOr (chain post 0) s.tail_node_) = .ret nd ∧
      nd.element_.1 ≠ k := by
    cases hp : post with
    | nil =>
      obtain ⟨v0, hv0⟩ := hrep.tail.1
      obtain ⟨nd, h1, h2, _⟩ := deref_of_elemAt hv0
      exact ⟨nd, by simpa [chain_nil, firstOr] using h1, by rw [h2]; exact ne_of_gt hk⟩
    | cons c l =>
      have hc : c ∈ post := by rw [hp]; simp
      have hst := hrep.stored c (by rw [hsplit]; exact List.mem_append_right _ hc)
      obtain ⟨nd, h1, h2, _⟩ := deref_of_elemAt hst.1
      exact ⟨nd, by simpa [chain_cons, firstOr] using h1, by rw [h2]; exact ne_of_gt (hpost c hc)⟩
  obtain ⟨nd, hnd, hndk⟩ := hnode
  have htop := hrep.top
  have hscr := hrep.scratch
  unfold insert
  simp only [hg, if_false, hsearch, bind_ret, hnd, hndk, level, hlev]
  obtain ⟨lev, hlevdef⟩ : ∃ lev : Int,
      lev = if (lev0 : Int) ≤ s.max_level_ then (lev0 : Int) else s.max_level_ := ⟨_, rfl⟩
  rw [← hlevdef]
  have hlev_nonneg : 0 ≤ lev := by rw [hlevdef]; split <;> omega
  have hlev_le : lev ≤ s.max_level_ := by rw [hlevdef]; split <;> omega
  have hlev_nat : lev.toNat = min lev0 s.max_level_.toNat := by
    rw [hlevdef]; split <;> omega
  have hchain0 : chain pre (s.levels_ + 1) = [] := by
    apply chain_eq_nil_of_low
    intro c hc
    have := hrep.low c (by rw [hsplit]; exact List.mem_append_left _ hc)
    omega
  by_cases hgt : lev > (s.levels_ : Int)
  · have hnl : newLevel s lev0 = s.levels_ + 1 := by
      unfold newLevel; rw [← hlev_nat]; omega
    have hwl : s.levels_ + 1 < last1.length := by omega
    obtain ⟨heap2, hsp, hrep2⟩ := rep_link_new v (s.levels_ + 1) (s.levels_ + 1)
      (last1.set (s.levels_ + 1) (some s.header_node_)) hrep hsplit hpre hpost hk
      (le_refl _) (by omega) (by omega) (by simpa using hlen1)
      (by
        intro j hj
        by_cases hjl : j = s.levels_ + 1
        · subst hjl
          rw [hchain0]
          simp [lastFrom, hwl]
        · rw [List.getElem?_set_ne (by omega)]
          exact hlast1 j (by omega))
    have ht : ((s.levels_ + 1 : Nat) : Int) + 1 = ((s.levels_ + 1 + 1 : Nat) : Int) := by
      push_cast; ring
    have hn : ¬ (((s.levels_ + 1 + 1 : Nat) : Int) < 0) := by omega
    refine ⟨{ s with levels_ := s.levels_ + 1,
                     last_ := last1.set (s.levels_ + 1) (some s.header_node_),
                     heap := heap2, d_size_ := s.d_size_ + 1 }, ?_, ?_⟩
    · simp only [if_pos hgt, writeLast, if_pos hwl, bind_ret, if_neg hn, ht, Int.toNat_ofNat, hsp]
    · rw [hnl]
      exact ⟨hrep2, by simp, rfl, rfl, rfl, rfl, rfl, rfl⟩
  · have hnl : newLevel s lev0 = lev.toNat := by
      unfold newLevel; rw [← hlev_nat]; omega
    obtain ⟨heap2, hsp, hrep2⟩ := rep_link_new v lev.toNat s.levels_ last1
      hrep hsplit hpre hpost hk
      (by omega) (le_refl _) htop hlen1 (fun j hj => hlast1 j (by omega))
    have ht : (lev + 1).toNat = lev.toNat + 1 := by omega
    have hn : ¬ (lev + 1 < 0) := by omega
    refine ⟨{ s with levels_ := s.levels_, last_ := last1, heap := heap2,
                     d_size_ := s.d_size_ + 1 }, ?_, ?_⟩
    · simp only [if_neg hgt, bind_ret, if_neg hn, ht, hsp]
    · rw [hnl]
      refine ⟨hrep2, ?_, rfl, rfl, rfl, rfl, rfl, rfl⟩
      show s.levels_ = max s.levels_ lev.toNat
      omega

/-- Inserting a key that is stored: `insert` returns, and only the value of that cell has
changed. -/
theorem insert_overwrite {s : SkipList K E} {pre post : List (Cell K E)} {c : Cell K E}
    (v : E) {fuel : Nat} (draws : List Nat)
    (hrep : Rep s (pre ++ c :: post)) (hf : (pre ++ c :: post).length < fuel) :
    ∃ s1, insert fuel draws (c.key, v) s = .ret s1 ∧
      Rep s1 (pre ++ { c with val := v } :: post) ∧
      s1.levels_ = s.levels_ ∧ s1.d_size_ = s.d_size_ ∧
      s1.max_level_ = s.max_level_ ∧ s1.tail_key_ = s.tail_key_ ∧
      s1.header_node_ = s.header_node_ ∧ s1.tail_node_ = s.tail_node_ ∧
      s1.cut_off_ = s.cut_off_ ∧ s1.heap.length = s.heap.length := by
  obtain ⟨h1, h2⟩ := sorted_around hrep.sorted
  have hck := hrep.below c (by simp)
  have hst := hrep.stored c (by simp)
  obtain ⟨last1, hsearch, hlen1, -, -⟩ := search_spec hrep rfl h1 h2 (not_lt_of_lt hck) hf
  have hg : ¬ (c.key > s.tail_key_) := not_lt_of_lt hck
  obtain ⟨nd, hnd, hnde, hl⟩ := deref_of_elemAt hst.1
  have hfirst : firstOr (chain (c :: post) 0) s.tail_node_ = c.addr := by
    simp [chain_cons, firstOr]
  rw [hfirst] at hsearch
  have hkey : nd.element_.1 = c.key := by rw [hnde]
  refine ⟨{ s with
      last_ := last1,
      heap := (s.heap.set c.addr (some { nd with element_ := (nd.element_.1, v) })) },
    ?_, ?_, rfl, rfl, rfl, rfl, rfl, rfl, rfl, by simp⟩
  · unfold insert
    simp only [hg, if_false, hsearch, bind_ret, hnd, hkey, if_true]
  have hne : ∀ d ∈ pre ++ post, d.addr ≠ c.addr := by
    intro d hd heq
    have hdm : d ∈ pre ++ c :: post := by
      rcases List.mem_append.1 hd with h | h
      · exact List.mem_append_left _ h
      · exact List.mem_append_right _ (List.mem_cons_of_mem _ h)
    have hsd := (hrep.stored d hdm).1
    rw [heq, hst.1] at hsd
    simp at hsd
    rcases List.mem_append.1 hd with h | h
    · exact absurd hsd.1 (ne_of_gt (h1 d h))
    · have := hrep.sorted
      rw [List.pairwise_append, List.pairwise_cons] at this
      exact absurd hsd.1 (ne_of_lt (this.2.1.1 d h))
  refine
    { distinct := hrep.distinct
      header := ?_
      fresh := ?_
      tail := ?_
      scratch := ?_
      top := hrep.top
      sorted := ?_
      below := ?_
      stored := ?_
      low := ?_
      linked := ?_
      size := ?_ }
  · obtain ⟨m, hm, hmm⟩ := hrep.header
    exact ⟨m, by rw [← hm]; exact setElem_slotsAt hl _ _, hmm⟩
  · simpa using hrep.fresh
  · obtain ⟨⟨v0, hv0⟩, ht⟩ := hrep.tail
    have hne2 : s.tail_node_ ≠ c.addr := fun h => rep_tail_not_cell hrep (c := c) (by simp) h.symm
    refine ⟨⟨v0, ?_⟩, by rw [← ht]; exact setElem_slotsAt hl _ _⟩
    show elemAt (s.heap.set c.addr _) s.tail_node_ = _
    rw [setElem_elemAt hl, if_neg hne2]; exact hv0
  · show ((last1.length : Nat) : Int) = s.max_level_ + 1
    rw [hlen1]; exact hrep.scratch
  · have := hrep.sorted
    rw [List.pairwise_append, List.pairwise_cons] at this ⊢
    refine ⟨this.1, ⟨this.2.1.1, this.2.1.2⟩, ?_⟩
    intro a ha b hb
    rcases List.mem_cons.1 hb with rfl | hb
    · exact this.2.2 a ha c (by simp)
    · exact this.2.2 a ha b (List.mem_cons_of_mem _ hb)
  · intro d hd
    rcases List.mem_append.1 hd with h | h
    · exact hrep.below d (List.mem_append_left _ h)
    · rcases List.mem_cons.1 h with rfl | h
      · exact hck
      · exact hrep.below d (List.mem_append_right _ (List.mem_cons_of_mem _ h))
  · have hold : ∀ d ∈ pre ++ post, d ∈ pre ++ c :: post → Stored (s.heap.set c.addr
        (some { nd with element_ := (nd.element_.1, v) })) d := by
      intro d hd hdm
      have hsd := hrep.stored d hdm
      refine ⟨?_, by rw [← hsd.2]; exact setElem_slotsAt hl _ _⟩
      rw [setElem_elemAt hl, if_neg (hne d hd)]; exact hsd.1
    intro d hd
    rcases List.mem_append.1 hd with h | h
    · exact hold d (List.mem_append_left _ h) (List.mem_append_left _ h)
    · rcases List.mem_cons.1 h with rfl | h
      · refine ⟨?_, by rw [← hst.2]; exact setElem_slotsAt hl _ _⟩
        show elemAt (s.heap.set c.addr _) c.addr = _
        rw [setElem_elemAt hl, if_pos rfl, hkey]
      · exact hold d (List.mem_append_right _ h)
          (List.mem_append_right _ (List.mem_cons_of_mem _ h))
  · intro d hd
    rcases List.mem_append.1 hd with h | h
    · exact hrep.low d (List.mem_append_left _ h)
    · rcases List.mem_cons.1 h with rfl | h
      · exact hrep.low c (by simp)
      · exact hrep.low d (List.mem_append_right _ (List.mem_cons_of_mem _ h))
  · intro i hi
    have hl0 := hrep.linked i hi
    have hch : chain (pre ++ { c with val := v } :: post) i = chain (pre ++ c :: post) i := by
      simp [chain_append, chain_cons]
    rw [hch]
    exact linked_congr hl0 (fun x _ => setElem_readNext hl _ x i)
  · have := hrep.size
    simpa using this

end InsertLemmas

/-! ## Construction, observation, and `erase` of an absent key -/

section Observe

variable {K E : Type} [LinearOrder K]

theorem construct_rep (large_key : K) (cut_off : Nat) (max_level : Int) (dflt : E)
    (hm : 0 ≤ max_level) : Rep (construct large_key cut_off max_level dflt) [] := by
  have hlen : (((max_level + 1).toNat : Nat) : Int) = max_level + 1 := by omega
  refine
    { distinct := by simp [construct]
      header := ⟨(max_level + 1).toNat, by simp [construct, slotsAt, lookup], hlen⟩
      fresh := by simp
      tail := ⟨⟨dflt, by simp [construct, elemAt, lookup]⟩, by simp [construct, slotsAt, lookup]⟩
      scratch := by simpa [construct] using hlen
      top := by simpa [construct] using hm
      sorted := List.Pairwise.nil
      below := by simp
      stored := by simp
      low := by simp
      linked := ?_
      size := by simp [construct] }
  intro i hi
  have hi2 : (i : Int) ≤ max_level := hi
  have hi3 : i < (max_level + 1).toNat := by omega
  simp [chain_nil, Linked, construct, readNext, lookup, hi3]

theorem levelElems_spec {s : SkipList K E} {cells : List (Cell K E)} (hrep : Rep s cells)
    {fuel : Nat} (hf : cells.length < fuel) (i : Nat) (hi : (i : Int) ≤ s.max_level_) :
    levelElems fuel s i
      = .ret ((cells.filter fun c => decide (i ≤ c.lvl)).map fun c => (c.key, c.val)) := by
  unfold levelElems
  apply walkLevel_spec
  · exact hrep.linked i hi
  · intro c hc
    have hc2 := (List.mem_filter.1 hc).1
    exact ⟨hrep.stored c hc2, rep_tail_not_cell hrep hc2⟩
  · exact lt_of_le_of_lt (List.length_filter_le _ _) hf

theorem levelElems_zero {s : SkipList K E} {cells : List (Cell K E)} (hrep : Rep s cells)
    {fuel : Nat} (hf : cells.length < fuel) :
    levelElems fuel s 0 = .ret (cells.map fun c => (c.key, c.val)) := by
  have htop := hrep.top
  rw [levelElems_spec hrep hf 0 (by omega)]
  simp

/-- Erasing a key that is not stored: `erase` returns after `search`, and nothing but the
scratch array has changed. -/
theorem erase_absent {s : SkipList K E} {cells : List (Cell K E)} {the_key : K} {fuel : Nat}
    (hrep : Rep s cells) (hk : the_key < s.tail_key_)
    (habs : ∀ c ∈ cells, c.key ≠ the_key) (hf : cells.length < fuel) :
    ∃ last1, erase fuel the_key s = .ret { s with last_ := last1 } ∧
      last1.length = s.last_.length := by
  obtain ⟨pre, post, hsplit, hpre, hpost⟩ := exists_split the_key cells hrep.sorted
  obtain ⟨last1, hsearch, hlen1, -, -⟩ :=
    search_spec hrep hsplit hpre hpost (not_lt_of_lt hk) hf
  have hg : ¬ (the_key > s.tail_key_) := not_lt_of_lt hk
  have hkey : ∃ k1, keyAt s.heap (firstOr (chain post 0) s.tail_node_) = .ret k1 ∧
      k1 ≠ the_key := by
    cases hp : post with
    | nil =>
      obtain ⟨v0, hv0⟩ := hrep.tail.1
      exact ⟨_, by simpa [chain_nil, firstOr] using keyAt_of_elemAt hv0, ne_of_gt hk⟩
    | cons c l =>
      have hc : c ∈ cells := by rw [hsplit, hp]; simp
      have hst := hrep.stored c hc
      exact ⟨_, by simpa [chain_cons, firstOr] using keyAt_of_elemAt hst.1, habs c hc⟩
  obtain ⟨k1, hk1, hne⟩ := hkey
  refine ⟨last1, ?_, hlen1⟩
  unfold erase
  simp only [hg, if_false, hsearch, bind_ret, hk1, hne, ne_eq, not_false_eq_true, if_true]

end Observe

/-! ## Fuel: results other than `spin` do not depend on it -/

section FuelGeneric

variable {K E : Type}

theorem bind_stable {α β : Type} {o o1 : Outcome α} {g g1 : α → Outcome β}
    (h : o.bind g ≠ .spin) (ho : o ≠ .spin → o1 = o)
    (hg : ∀ a, o = .ret a → g a ≠ .spin → g1 a = g a) : o1.bind g1 = o.bind g := by
  cases o with
  | ret a =>
    rw [ho (by simp)]
    exact hg a rfl h
  | fault => rw [ho (by simp)]; rfl
  | spin => exact absurd rfl h

theorem stable_le {α : Type} (F : Nat → Outcome α)
    (hF : ∀ f, F f ≠ .spin → F (f + 1) = F f) {f0 f : Nat} (h0 : F f0 ≠ .spin)
    (hle : f0 ≤ f) : F f = F f0 := by
  induction hle with
  | refl => rfl
  | step _ ih =>
    rw [← ih]
    exact hF _ (by rw [ih]; exact h0)

theorem stable_eq {α : Type} (F : Nat → Outcome α)
    (hF : ∀ f, F f ≠ .spin → F (f + 1) = F f) {f0 f : Nat} (h0 : F f0 ≠ .spin)
    (h1 : F f ≠ .spin) : F f = F f0 := by
  rw [← stable_le F hF h1 (Nat.le_max_left f f0), stable_le F hF h0 (Nat.le_max_right f f0)]

theorem shrinkLoop_stable :
    ∀ (fuel : Nat) (s : SkipList K E), shrinkLoop fuel s ≠ .spin →
      shrinkLoop (fuel + 1) s = shrinkLoop fuel s
  | 0, s, h => absurd rfl h
  | fuel + 1, s, h => by
    have e0 : shrinkLoop (fuel + 1) s =
        if s.levels_ > 0 then
          (readNext s.heap s.header_node_ s.levels_).bind fun nx =>
            if nx = s.tail_node_ then shrinkLoop fuel s else .ret s
        else .ret s := rfl
    have e1 : shrinkLoop (fuel + 1 + 1) s =
        if s.levels_ > 0 then
          (readNext s.heap s.header_node_ s.levels_).bind fun nx =>
            if nx = s.tail_node_ then shrinkLoop (fuel + 1) s else .ret s
        else .ret s := rfl
    rw [e0] at h
    rw [e1]
    conv_rhs => rw [e0]
    by_cases hl : s.levels_ > 0
    · simp only [if_pos hl] at h ⊢
      refine bind_stable h (fun _ => rfl) ?_
      intro nx _ h2
      by_cases hn : nx = s.tail_node_
      · simp only [if_pos hn] at h2 ⊢
        exact shrinkLoop_stable fuel s h2
      · simp only [if_neg hn]
    · simp only [if_neg hl]

theorem shrinkLoop_spin {s : SkipList K E} (hl : s.levels_ > 0)
    (hn : readNext s.heap s.header_node_ s.levels_ = .ret s.tail_node_) :
    ∀ fuel, shrinkLoop fuel s = .spin
  | 0 => rfl
  | fuel + 1 => by
    rw [shrinkLoop, if_pos hl, hn]
    simp only [bind_ret, if_true]
    exact shrinkLoop_spin hl hn fuel

theorem shrinkLoop_hang {s : SkipList K E} {fuel0 : Nat}
    (h : shrinkLoop (fuel0 + 1) s = .spin) (fuel : Nat) : shrinkLoop fuel s = .spin := by
  rw [shrinkLoop] at h
  by_cases hl : s.levels_ > 0
  · rw [if_pos hl] at h
    cases hr : readNext s.heap s.header_node_ s.levels_ with
    | ret nx =>
      rw [hr] at h
      simp only [bind_ret] at h
      by_cases hn : nx = s.tail_node_
      · exact shrinkLoop_spin hl (by rw [hr, hn]) fuel
      · rw [if_neg hn] at h; cases h
    | fault => rw [hr] at h; cases h
    | spin =>
      unfold readNext at hr
      split at hr
      · split at hr <;> cases hr
      · cases hr
  · rw [if_neg hl] at h; cases h

theorem bind_eq_spin {α β : Type} {o : Outcome α} {g : α → Outcome β}
    (h : o.bind g = .spin) : o = .spin ∨ ∃ a, o = .ret a ∧ g a = .spin := by
  cases o with
  | ret a => exact Or.inr ⟨a, rfl, h⟩
  | fault => cases h
  | spin => exact Or.inl rfl

theorem deref_ne_spin (heap : Heap K E) (p : Nat) : deref heap p ≠ .spin := by
  unfold deref; split <;> simp

theorem readNext_ne_spin (heap : Heap K E) (p i : Nat) : readNext heap p i ≠ .spin := by
  unfold readNext
  split
  · split <;> simp
  · simp

theorem writeNext_ne_spin (heap : Heap K E) (p i q : Nat) : writeNext heap p i q ≠ .spin := by
  unfold writeNext
  split
  · split <;> simp
  · simp

theorem readLast_ne_spin (last : List (Option Nat)) (i : Nat) : readLast last i ≠ .spin := by
  unfold readLast; split <;> simp

theorem keyAt_ne_spin (heap : Heap K E) (p : Nat) : keyAt heap p ≠ .spin := by
  unfold keyAt
  intro h
  rcases bind_eq_spin h with h | ⟨a, _, h⟩
  · exact deref_ne_spin _ _ h
  · cases h

theorem unlinkLoop_ne_spin (last : List (Option Nat)) (the_node : Nat) :
    ∀ (n i : Nat) (heap : Heap K E), unlinkLoop last the_node n i heap ≠ .spin
  | 0, _, _ => by simp [unlinkLoop]
  | n + 1, i, heap => by
    rw [unlinkLoop]
    intro h
    rcases bind_eq_spin h with h | ⟨b, _, h⟩
    · exact readLast_ne_spin _ _ h
    rcases bind_eq_spin h with h | ⟨nx, _, h⟩
    · exact readNext_ne_spin _ _ _ h
    by_cases hn : nx = the_node
    · rw [if_pos hn] at h
      rcases bind_eq_spin h with h | ⟨nn, _, h⟩
      · exact readNext_ne_spin _ _ _ h
      rcases bind_eq_spin h with h | ⟨h1, _, h⟩
      · exact writeNext_ne_spin _ _ _ _ h
      exact unlinkLoop_ne_spin last the_node n (i + 1) h1 h
    · rw [if_neg hn] at h; cases h

end FuelGeneric

section Fuel

variable {K E : Type} [LinearOrder K]

theorem advance_stable {heap : Heap K E} {the_key : K} {i : Nat} :
    ∀ (fuel p : Nat), advance heap the_key i fuel p ≠ .spin →
      advance heap the_key i (fuel + 1) p = advance heap the_key i fuel p
  | 0, p, h => absurd rfl h
  | fuel + 1, p, h => by
    rw [advance] at h ⊢
    rw [advance]
    refine bind_stable h (fun _ => rfl) ?_
    intro nx _ h2
    refine bind_stable h2 (fun _ => rfl) ?_
    intro k1 _ h3
    by_cases hk : k1 < the_key
    · simp only [if_pos hk] at h3 ⊢
      exact advance_stable fuel nx h3
    · simp only [if_neg hk]

theorem searchLoop_stable {heap : Heap K E} {the_key : K} {fuel : Nat} :
    ∀ (n b : Nat) (last : List (Option Nat)),
      searchLoop fuel heap the_key n b last ≠ .spin →
      searchLoop (fuel + 1) heap the_key n b last = searchLoop fuel heap the_key n b last
  | 0, b, last, _ => by simp [searchLoop]
  | i + 1, b, last, h => by
    rw [searchLoop] at h ⊢
    refine bind_stable h (advance_stable fuel b) ?_
    intro b1 _ h2
    refine bind_stable h2 (fun _ => rfl) ?_
    intro l1 _ h3
    exact searchLoop_stable i b1 l1 h3

theorem search_stable {the_key : K} {s : SkipList K E} (fuel : Nat)
    (h : search fuel the_key s ≠ .spin) :
    search (fuel + 1) the_key s = search fuel the_key s := by
  unfold search at h ⊢
  exact bind_stable h (searchLoop_stable _ _ _) (fun _ _ _ => rfl)

theorem findLoop_stable {heap : Heap K E} {the_key : K} {fuel : Nat} :
    ∀ (n b : Nat), findLoop fuel heap the_key n b ≠ .spin →
      findLoop (fuel + 1) heap the_key n b = findLoop fuel heap the_key n b
  | 0, b, _ => by simp [findLoop]
  | i + 1, b, h => by
    rw [findLoop] at h ⊢
    refine bind_stable h (advance_stable fuel b) ?_
    intro b1 _ h2
    exact findLoop_stable i b1 h2

theorem find_stable {the_key : K} {s : SkipList K E} (fuel : Nat)
    (h : find fuel the_key s ≠ .spin) : find (fuel + 1) the_key s = find fuel the_key s := by
  unfold find at h ⊢
  by_cases hg : the_key > s.tail_key_
  · simp [hg]
  · simp only [if_neg hg] at h ⊢
    exact bind_stable h (findLoop_stable _ _) (fun _ _ _ => rfl)

theorem findElement_stable {the_key : K} {s : SkipList K E} (fuel : Nat)
    (h : findElement fuel the_key s ≠ .spin) :
    findElement (fuel + 1) the_key s = findElement fuel the_key s := by
  unfold findElement at h ⊢
  exact bind_stable h (find_stable fuel) (fun _ _ _ => rfl)

theorem insert_stable {draws : List Nat} {the_pair : K × E} {s : SkipList K E} (fuel : Nat)
    (h : insert fuel draws the_pair s ≠ .spin) :
    insert (fuel + 1) draws the_pair s = insert fuel draws the_pair s := by
  unfold insert at h ⊢
  by_cases hg : the_pair.1 > s.tail_key_
  · simp [hg]
  · simp only [if_neg hg] at h ⊢
    exact bind_stable h (search_stable fuel) (fun _ _ _ => rfl)

theorem erase_stable {the_key : K} {s : SkipList K E} (fuel : Nat)
    (h : erase fuel the_key s ≠ .spin) : erase (fuel + 1) the_key s = erase fuel the_key s := by
  unfold erase at h ⊢
  by_cases hg : the_key > s.tail_key_
  · simp [hg]
  · simp only [if_neg hg] at h ⊢
    refine bind_stable h (search_stable fuel) ?_
    intro r _ h2
    refine bind_stable h2 (fun _ => rfl) ?_
    intro k1 _ h3
    by_cases hk : k1 ≠ the_key
    · simp only [if_pos hk]
    · simp only [if_neg hk] at h3 ⊢
      refine bind_stable h3 (fun _ => rfl) ?_
      intro heap1 _ h4
      exact bind_stable h4 (shrinkLoop_stable fuel _) (fun _ _ _ => rfl)

theorem call_stable (c : Call K E) (s : SkipList K E) (fuel : Nat)
    (h : call fuel c s ≠ .spin) : call (fuel + 1) c s = call fuel c s := by
  cases c with
  | insert draws the_pair => exact insert_stable fuel h
  | erase the_key => exact erase_stable fuel h

theorem calls_stable {fuel : Nat} :
    ∀ (cs : List (Call K E)) (s : SkipList K E), calls fuel cs s ≠ .spin →
      calls (fuel + 1) cs s = calls fuel cs s
  | [], s, _ => rfl
  | c :: cs, s, h => by
    rw [calls] at h ⊢
    refine bind_stable h (call_stable c s fuel) ?_
    intro s1 _ h2
    exact calls_stable cs s1 h2

theorem search_zero (the_key : K) (s : SkipList K E) : search 0 the_key s = .spin := by
  simp [search, searchLoop, advance]

/-- A call of `erase` that spins although its `search` has returned spins for every
amount of fuel: the loop that does not stop is the last one, which never changes the
state it tests. -/
theorem erase_hang {the_key : K} {s : SkipList K E} (fuel0 : Nat)
    (hs : search fuel0 the_key s ≠ .spin) (he : erase fuel0 the_key s = .spin) (fuel : Nat) :
    erase fuel the_key s = .spin := by
  have hf0 : fuel0 ≠ 0 := by
    intro h; rw [h] at hs; exact hs (search_zero _ _)
  obtain ⟨f0, rfl⟩ := Nat.exists_eq_succ_of_ne_zero hf0
  by_cases hsp : search fuel the_key s = .spin
  · unfold erase at he ⊢
    by_cases hg : the_key > s.tail_key_
    · rw [if_pos hg] at he; cases he
    · rw [if_neg hg, hsp]; rfl
  · have hseq := stable_eq (fun f => search f the_key s) (fun f => search_stable f) hs hsp
    simp only at hseq
    unfold erase at he ⊢
    by_cases hg : the_key > s.tail_key_
    · rw [if_pos hg] at he; cases he
    · rw [if_neg hg] at he ⊢
      rw [hseq]
      rcases bind_eq_spin he with h | ⟨r, hr, h⟩
      · exact absurd h hs
      rw [hr]
      simp only [bind_ret] at h ⊢
      rcases bind_eq_spin h with h | ⟨k1, hk1, h⟩
      · exact absurd h (keyAt_ne_spin _ _)
      rw [hk1]
      simp only [bind_ret]
      by_cases hk : k1 ≠ the_key
      · rw [if_pos hk] at h; cases h
      · rw [if_neg hk] at h ⊢
        rcases bind_eq_spin h with h | ⟨heap1, hh1, h⟩
        · exact absurd h (unlinkLoop_ne_spin _ _ _ _ _)
        rw [hh1]
        simp only [bind_ret]
        rcases bind_eq_spin h with h | ⟨s2, _, h⟩
        · rw [shrinkLoop_hang h fuel]; rfl
        · rcases bind_eq_spin h with h | ⟨_, _, h⟩
          · exact absurd h (deref_ne_spin _ _)
          · cases h

theorem calls_append (fuel : Nat) :
    ∀ (cs1 cs2 : List (Call K E)) (s : SkipList K E),
      calls fuel (cs1 ++ cs2) s = (calls fuel cs1 s).bind fun s1 => calls fuel cs2 s1
  | [], cs2, s => rfl
  | c :: cs1, cs2, s => by
    rw [List.cons_append, calls, calls]
    cases hc : call fuel c s with
    | ret s1 => simp only [bind_ret]; exact calls_append fuel cs1 cs2 s1
    | fault => rfl
    | spin => rfl

/-- A sequence of calls in which a call of `erase` hangs never gets past that call,
whatever the fuel. -/
theorem calls_hang (cs1 cs2 : List (Call K E)) {the_key : K} {s : SkipList K E} (fuel0 : Nat)
    (h1 : calls fuel0 cs1 s ≠ .spin)
    (h2 : ((calls fuel0 cs1 s).bind fun s1 => search fuel0 the_key s1) ≠ .spin)
    (h3 : ((calls fuel0 cs1 s).bind fun s1 => erase fuel0 the_key s1) = .spin) (fuel : Nat) :
    calls fuel (cs1 ++ .erase the_key :: cs2) s = .spin := by
  rw [calls_append]
  by_cases hsp : calls fuel cs1 s = .spin
  · rw [hsp]; rfl
  · have heq := stable_eq (fun f => calls f cs1 s) (fun f => calls_stable cs1 s) h1 hsp
    simp only at heq
    rw [heq]
    cases hc : calls fuel0 cs1 s with
    | ret s1 =>
      rw [hc] at h2 h3
      simp only [bind_ret] at h2 h3 ⊢
      rw [calls, call, erase_hang fuel0 h2 h3 fuel]; rfl
    | fault => rw [hc] at h3; cases h3
    | spin => exact absurd hc h1

end Fuel

/-! ## The unlinking loop of `erase` -/

section Unlink

variable {K E : Type}

/-- Effect of the unlinking loop of `erase` on the forward slots: on the levels below
`stop` the predecessor `b j` is repointed to `t j`, the old successor of the node; the
loop stops at `stop`, where the predecessor does not point to the node. -/
theorem unlinkLoop_spec (last : List (Option Nat)) (the_node : Nat) (b t : Nat → Nat)
    (stop : Nat) :
    ∀ (n i : Nat) (heap : Heap K E), i ≤ stop → stop ≤ i + n →
      (∀ j, i ≤ j → j < stop → readLast last j = .ret (b j) ∧
        readNext heap (b j) j = .ret the_node ∧ readNext heap the_node j = .ret (t j)) →
      (stop < i + n → ∃ x, readLast last stop = .ret (b stop) ∧
        readNext heap (b stop) stop = .ret x ∧ x ≠ the_node) →
      ∃ heap1, unlinkLoop last the_node n i heap = .ret heap1 ∧
        heap1.length = heap.length ∧
        (∀ r, elemAt heap1 r = elemAt heap r) ∧ (∀ r, slotsAt heap1 r = slotsAt heap r) ∧
        ∀ r j, readNext heap1 r j =
          if i ≤ j ∧ j < stop ∧ r = b j then .ret (t j) else readNext heap r j
  | 0, i, heap, h1, h2, _, _ => by
    refine ⟨heap, by simp [unlinkLoop], rfl, fun _ => rfl, fun _ => rfl, ?_⟩
    intro r j
    have : ¬ (i ≤ j ∧ j < stop ∧ r = b j) := by omega
    rw [if_neg this]
  | n + 1, i, heap, h1, h2, hin, hstop => by
    by_cases hi : i < stop
    · obtain ⟨hl, hb, ht⟩ := hin i (le_refl _) hi
      obtain ⟨m, hm, hmi⟩ := readNext_slots hb
      obtain ⟨heap1, hw⟩ := writeNext_ret i (t i) hm hmi
      have hread1 : ∀ r j, readNext heap1 r j =
          if r = b i ∧ j = i then .ret (t i) else readNext heap r j :=
        fun r j => writeNext_readNext hw r j
      obtain ⟨heap2, hu, hlen, he, hs, hr⟩ := unlinkLoop_spec last the_node b t stop n (i + 1)
        heap1 (by omega) (by omega)
        (by
          intro j hj1 hj2
          obtain ⟨ha, hb2, hc⟩ := hin j (by omega) hj2
          have hji : j ≠ i := by omega
          refine ⟨ha, ?_, ?_⟩
          · rw [hread1]; simp [hji, hb2]
          · rw [hread1]; simp [hji, hc])
        (by
          intro hlt
          obtain ⟨x, ha, hb2, hc⟩ := hstop (by omega)
          have hji : stop ≠ i := by omega
          refine ⟨x, ha, ?_, hc⟩
          rw [hread1]; simp [hji, hb2])
      refine ⟨heap2, ?_, ?_, ?_, ?_, ?_⟩
      · simp [unlinkLoop, hl, hb, ht, hw, hu]
      · rw [hlen, writeNext_length hw]
      · intro r; rw [he, writeNext_elemAt hw]
      · intro r; rw [hs, writeNext_slotsAt hw]
      · intro r j
        rw [hr, hread1]
        by_cases hji : j = i
        · subst hji
          have h3 : ¬ (j + 1 ≤ j ∧ j < stop ∧ r = b j) := by omega
          rw [if_neg h3]
          by_cases hrb : r = b j
          · simp [hrb, hi]
          · simp [hrb]
        · by_cases hc : i + 1 ≤ j ∧ j < stop ∧ r = b j
          · have hc2 : i ≤ j ∧ j < stop ∧ r = b j := ⟨by omega, hc.2.1, hc.2.2⟩
            rw [if_pos hc, if_pos hc2]
          · have hc2 : ¬ (i ≤ j ∧ j < stop ∧ r = b j) := by
              intro h; exact hc ⟨by omega, h.2.1, h.2.2⟩
            rw [if_neg hc, if_neg hc2]
            simp [hji]
    · have hie : i = stop := by omega
      subst hie
      obtain ⟨x, hl, hb, hx⟩ := hstop (by omega)
      refine ⟨heap, by simp [unlinkLoop, hl, hb, hx], rfl, fun _ => rfl, fun _ => rfl, ?_⟩
      intro r j
      have : ¬ (i ≤ j ∧ j < i ∧ r = b j) := by omega
      rw [if_neg this]

theorem linked_join {heap : Heap K E} {i : Nat} {p q : Nat} {A : List Nat} :
    ∀ {B : List Nat}, Linked heap i p A (firstOr B q) →
      (∀ y B1, B = y :: B1 → Linked heap i y B1 q) → Linked heap i p (A ++ B) q
  | [], h, _ => by simpa [firstOr] using h
  | y :: B1, h, hr => by
    rw [linked_append_cons]
    exact ⟨by simpa [firstOr] using h, hr y B1 rfl⟩

theorem lookup_set_none {heap : Heap K E} {p : Nat} (hp : p < heap.length) (r : Nat) :
    lookup (heap.set p none) r = if r = p then none else lookup heap r :=
  lookup_set hp none r

theorem delete_readNext {heap : Heap K E} {p : Nat} (hp : p < heap.length) {r : Nat}
    (hr : r ≠ p) (j : Nat) : readNext (heap.set p none) r j = readNext heap r j := by
  simp [readNext, lookup_set_none hp, hr]

theorem delete_elemAt {heap : Heap K E} {p : Nat} (hp : p < heap.length) {r : Nat}
    (hr : r ≠ p) : elemAt (heap.set p none) r = elemAt heap r := by
  simp [elemAt, lookup_set_none hp, hr]

theorem delete_slotsAt {heap : Heap K E} {p : Nat} (hp : p < heap.length) {r : Nat}
    (hr : r ≠ p) : slotsAt (heap.set p none) r = slotsAt heap r := by
  simp [slotsAt, lookup_set_none hp, hr]

end Unlink

/-! ## `erase` of a stored key -/

section EraseLemmas

variable {K E : Type} [LinearOrder K]

theorem rep_other_addr {s : SkipList K E} {pre post : List (Cell K E)} {c : Cell K E}
    (hrep : Rep s (pre ++ c :: post)) : ∀ d ∈ pre ++ post, d.addr ≠ c.addr := by
  intro d hd heq
  obtain ⟨h1, -⟩ := sorted_around hrep.sorted
  have hst := hrep.stored c (by simp)
  have hdm : d ∈ pre ++ c :: post := by
    rcases List.mem_append.1 hd with h | h
    · exact List.mem_append_left _ h
    · exact List.mem_append_right _ (List.mem_cons_of_mem _ h)
  have hsd := (hrep.stored d hdm).1
  rw [heq, hst.1] at hsd
  simp at hsd
  rcases List.mem_append.1 hd with h | h
  · exact absurd hsd.1 (ne_of_gt (h1 d h))
  · have := hrep.sorted
    rw [List.pairwise_append, List.pairwise_cons] at this
    exact absurd hsd.1 (ne_of_lt (this.2.1.1 d h))

theorem rep_chain_other {s : SkipList K E} {pre post : List (Cell K E)} {c : Cell K E}
    (hrep : Rep s (pre ++ c :: post)) (j : Nat) :
    ∀ x ∈ s.header_node_ :: (chain pre j ++ chain post j), x ≠ c.addr := by
  intro x hx
  rcases List.mem_cons.1 hx with rfl | hx
  · intro h
    exact hrep.fresh (by rw [h]; simp)
  · rw [← chain_append] at hx
    obtain ⟨d, hd, rfl, _⟩ := mem_chain hx
    exact rep_other_addr hrep d hd

theorem rep_chain_nodup_rest {s : SkipList K E} {pre post : List (Cell K E)} {c : Cell K E}
    (hrep : Rep s (pre ++ c :: post)) (j : Nat) :
    (s.header_node_ :: (chain pre j ++ chain post j)).Nodup := by
  have h := rep_addr_nodup hrep
  have hsub : (s.header_node_ :: (chain pre j ++ chain post j)).Sublist
      (s.header_node_ :: (pre ++ c :: post).map Cell.addr) := by
    refine List.Sublist.cons₂ _ ?_
    rw [← chain_append]
    refine List.Sublist.trans (chain_sublist _ j) ?_
    exact List.Sublist.map _ (List.Sublist.append (List.Sublist.refl _)
      (List.sublist_cons_self _ _))
  exact List.Nodup.sublist hsub h

/-- The unlinking loop of `erase` on a well-formed list takes the cell `c` out of every
chain it is on and leaves every other link as it was. -/
theorem rep_unlink {s : SkipList K E} {pre post : List (Cell K E)} {c : Cell K E}
    (last1 : List (Option Nat)) (hrep : Rep s (pre ++ c :: post))
    (hlast : ∀ j, j ≤ s.levels_ →
      last1[j]? = some (some (lastFrom s.header_node_ (chain pre j)))) :
    ∃ heap1, unlinkLoop last1 c.addr (s.levels_ + 1) 0 s.heap = .ret heap1 ∧
      heap1.length = s.heap.length ∧
      (∀ r, elemAt heap1 r = elemAt s.heap r) ∧ (∀ r, slotsAt heap1 r = slotsAt s.heap r) ∧
      ∀ j : Nat, (j : Int) ≤ s.max_level_ →
        Linked heap1 j s.header_node_ (chain (pre ++ post) j) s.tail_node_ := by
  have htop := hrep.top
  have hclow := hrep.low c (by simp)
  have hother := fun j => rep_chain_other hrep j
  have hnodup := fun j => rep_chain_nodup_rest hrep j
  -- the chains with and without the cell
  have hon : ∀ j : Nat, (j : Int) ≤ s.max_level_ → j ≤ c.lvl →
      Linked s.heap j s.header_node_ (chain pre j) c.addr ∧
      Linked s.heap j c.addr (chain post j) s.tail_node_ := by
    intro j hj hjc
    have := hrep.linked j hj
    rw [chain_append, chain_cons, if_pos hjc] at this
    exact linked_append_cons.1 this
  have hoff : ∀ j : Nat, (j : Int) ≤ s.max_level_ → ¬ j ≤ c.lvl →
      Linked s.heap j s.header_node_ (chain pre j ++ chain post j) s.tail_node_ := by
    intro j hj hjc
    have := hrep.linked j hj
    rwa [chain_append, chain_cons, if_neg hjc] at this
  have hfirst_ne : ∀ j, firstOr (chain post j) s.tail_node_ ≠ c.addr := by
    intro j
    cases hp : chain post j with
    | nil => exact fun h => rep_tail_not_cell hrep (c := c) (by simp) h.symm
    | cons y B =>
      have : y ∈ s.header_node_ :: (chain pre j ++ chain post j) := by
        rw [hp]; simp
      simpa [firstOr] using hother j y this
  obtain ⟨heap1, hu, hlen, he, hs, hr⟩ := unlinkLoop_spec last1 c.addr
    (fun j => lastFrom s.header_node_ (chain pre j))
    (fun j => firstOr (chain post j) s.tail_node_) (c.lvl + 1) (s.levels_ + 1) 0 s.heap
    (by omega) (by omega)
    (by
      intro j _ hj
      have hjc : j ≤ c.lvl := by omega
      obtain ⟨h1, h2⟩ := hon j (by omega) hjc
      exact ⟨readLast_of_get (hlast j (by omega)), linked_last h1, linked_first h2⟩)
    (by
      intro hlt
      have hjc : ¬ c.lvl + 1 ≤ c.lvl := by omega
      have h1 := hoff (c.lvl + 1) (by omega) hjc
      exact ⟨_, readLast_of_get (hlast _ (by omega)), linked_last (linked_take h1),
        hfirst_ne _⟩)
  refine ⟨heap1, hu, hlen, he, hs, ?_⟩
  intro j hj
  rw [chain_append]
  by_cases hjc : j ≤ c.lvl
  · obtain ⟨h1, h2⟩ := hon j hj hjc
    have hnd1 : (s.header_node_ :: chain pre j).Nodup := by
      have : (s.header_node_ :: chain pre j).Sublist
          (s.header_node_ :: (chain pre j ++ chain post j)) :=
        List.Sublist.cons₂ _ (List.sublist_append_left _ _)
      exact List.Nodup.sublist this (hnodup j)
    have hcond : 0 ≤ j ∧ j < c.lvl + 1 := by omega
    refine linked_join ?_ ?_
    · refine linked_redirect h1 hnd1 ?_ ?_
      · intro x _ hne
        rw [hr]
        have : ¬ (0 ≤ j ∧ j < c.lvl + 1 ∧ x = lastFrom s.header_node_ (chain pre j)) :=
          fun h => hne h.2.2
        rw [if_neg this]
      · rw [hr, if_pos ⟨hcond.1, hcond.2, rfl⟩]
    · intro y B1 hB
      rw [hB] at h2
      refine linked_congr h2.2 ?_
      intro x hx
      rw [hr]
      have hxb : x ≠ lastFrom s.header_node_ (chain pre j) := by
        intro hxb
        have hdis : (s.header_node_ :: chain pre j ++ chain post j).Nodup := by
          simpa using hnodup j
        have := (List.nodup_append.1 hdis).2.2
        have hm1 : x ∈ s.header_node_ :: chain pre j := by
          rw [hxb]; exact lastFrom_mem _ _
        have hm2 : x ∈ chain post j := by rw [hB]; exact hx
        exact this hm1 hm2
      have : ¬ (0 ≤ j ∧ j < c.lvl + 1 ∧ x = lastFrom s.header_node_ (chain pre j)) :=
        fun h => hxb h.2.2
      rw [if_neg this]
  · refine linked_congr (hoff j hj hjc) ?_
    intro x _
    rw [hr]
    have : ¬ (0 ≤ j ∧ j < c.lvl + 1 ∧ x = lastFrom s.header_node_ (chain pre j)) := by
      omega
    rw [if_neg this]

/-- After the unlink and the release of the node of `c` the list represents the cells
without `c`. -/
theorem rep_delete {s : SkipList K E} {pre post : List (Cell K E)} {c : Cell K E}
    {last1 : List (Option Nat)} {heap1 : Heap K E}
    (hrep : Rep s (pre ++ c :: post)) (hlen1 : last1.length = s.last_.length)
    (hlen : heap1.length = s.heap.length)
    (he : ∀ r, elemAt heap1 r = elemAt s.heap r) (hs : ∀ r, slotsAt heap1 r = slotsAt s.heap r)
    (hlinked : ∀ j : Nat, (j : Int) ≤ s.max_level_ →
      Linked heap1 j s.header_node_ (chain (pre ++ post) j) s.tail_node_) :
    Rep { s with last_ := last1, heap := (heap1.set c.addr none), d_size_ := s.d_size_ - 1 }
      (pre ++ post) := by
  have hcl : c.addr < heap1.length := by rw [hlen]; exact rep_addr_lt hrep (by simp)
  have hother := rep_other_addr hrep
  have hsub : (pre ++ post).Sublist (pre ++ c :: post) :=
    List.Sublist.append (List.Sublist.refl _) (List.sublist_cons_self _ _)
  have hmem : ∀ d ∈ pre ++ post, d ∈ pre ++ c :: post := fun d hd => hsub.subset hd
  have hhead : s.header_node_ ≠ c.addr := fun h => hrep.fresh (by rw [h]; simp)
  have htail : s.tail_node_ ≠ c.addr := fun h => rep_tail_not_cell hrep (c := c) (by simp) h.symm
  refine
    { distinct := hrep.distinct
      header := ?_
      fresh := ?_
      tail := ?_
      scratch := ?_
      top := hrep.top
      sorted := List.Pairwise.sublist hsub hrep.sorted
      below := fun d hd => hrep.below d (hmem d hd)
      stored := ?_
      low := fun d hd => hrep.low d (hmem d hd)
      linked := ?_
      size := ?_ }
  · obtain ⟨m, hm, hmm⟩ := hrep.header
    refine ⟨m, ?_, hmm⟩
    show slotsAt (heap1.set c.addr none) s.header_node_ = some m
    rw [delete_slotsAt hcl hhead, hs]; exact hm
  · intro h
    exact hrep.fresh ((List.Sublist.map Cell.addr hsub).subset h)
  · obtain ⟨⟨v0, hv0⟩, ht⟩ := hrep.tail
    refine ⟨⟨v0, ?_⟩, ?_⟩
    · show elemAt (heap1.set c.addr none) s.tail_node_ = _
      rw [delete_elemAt hcl htail, he]; exact hv0
    · show slotsAt (heap1.set c.addr none) s.tail_node_ = _
      rw [delete_slotsAt hcl htail, hs]; exact ht
  · show ((last1.length : Nat) : Int) = s.max_level_ + 1
    rw [hlen1]; exact hrep.scratch
  · intro d hd
    have hst := hrep.stored d (hmem d hd)
    have hne := hother d hd
    refine ⟨?_, ?_⟩
    · show elemAt (heap1.set c.addr none) d.addr = _
      rw [delete_elemAt hcl hne, he]; exact hst.1
    · show slotsAt (heap1.set c.addr none) d.addr = _
      rw [delete_slotsAt hcl hne, hs]; exact hst.2
  · intro j hj
    have hj2 : (j : Int) ≤ s.max_level_ := hj
    show Linked (heap1.set c.addr none) j s.header_node_ _ s.tail_node_
    refine linked_congr (hlinked j hj2) ?_
    intro x hx
    have hne : x ≠ c.addr := by
      rw [chain_append] at hx
      exact rep_chain_other hrep j x hx
    exact delete_readNext hcl hne j
  · show s.d_size_ - 1 = ((pre ++ post).length : Int)
    have := hrep.size
    simp only [List.length_append, List.length_cons] at this ⊢
    push_cast at this ⊢
    omega

/-- What `erase` does with a stored key on a well-formed list: it spins when the unlink
leaves the top level above 0 without a node, and otherwise returns the well-formed list
without the cell. -/
theorem erase_stored {s : SkipList K E} {pre post : List (Cell K E)} {c : Cell K E}
    {fuel : Nat} (hrep : Rep s (pre ++ c :: post)) (hf : (pre ++ c :: post).length < fuel) :
    (0 < s.levels_ ∧ chain (pre ++ post) s.levels_ = [] → erase fuel c.key s = .spin) ∧
    (¬ (0 < s.levels_ ∧ chain (pre ++ post) s.levels_ = []) →
      ∃ s1, erase fuel c.key s = .ret s1 ∧ Rep s1 (pre ++ post) ∧
        s1.levels_ = s.levels_ ∧ s1.d_size_ = s.d_size_ - 1 ∧
        s1.max_level_ = s.max_level_ ∧ s1.tail_key_ = s.tail_key_ ∧
        s1.header_node_ = s.header_node_ ∧ s1.tail_node_ = s.tail_node_ ∧
        s1.cut_off_ = s.cut_off_ ∧ s1.heap.length = s.heap.length ∧
        lookup s1.heap c.addr = none) := by
  obtain ⟨h1, h2⟩ := sorted_around hrep.sorted
  have hck := hrep.below c (by simp)
  have hst := hrep.stored c (by simp)
  obtain ⟨last1, hsearch, hlen1, hlast1, -⟩ :=
    search_spec hrep rfl h1 h2 (not_lt_of_lt hck) hf
  have hfirst : firstOr (chain (c :: post) 0) s.tail_node_ = c.addr := by
    simp [chain_cons, firstOr]
  rw [hfirst] at hsearch
  have hg : ¬ (c.key > s.tail_key_) := not_lt_of_lt hck
  have hkey := keyAt_of_elemAt hst.1
  obtain ⟨heap1, hu, hlen, he, hs, hlinked⟩ := rep_unlink last1 hrep hlast1
  have htop := hrep.top
  have hnext := linked_first (hlinked s.levels_ htop)
  have hcl : c.addr < heap1.length := by rw [hlen]; exact rep_addr_lt hrep (by simp)
  obtain ⟨f, rfl⟩ : ∃ f, fuel = f + 1 := ⟨fuel - 1, by omega⟩
  have hcore : erase (f + 1) c.key s =
      (shrinkLoop (f + 1) { s with last_ := last1, heap := heap1 }).bind fun s2 =>
        (deref s2.heap c.addr).bind fun _ =>
          .ret { s2 with heap := (s2.heap.set c.addr none), d_size_ := s2.d_size_ - 1 } := by
    unfold erase
    simp only [hg, if_false, hsearch, bind_ret, hkey, ne_eq, not_true_eq_false, hu]
  constructor
  · rintro ⟨hpos, hnil⟩
    rw [hnil] at hnext
    rw [hcore, shrinkLoop_spin (s := { s with last_ := last1, heap := heap1 }) hpos hnext]
    rfl
  · intro hno
    have hshrink : shrinkLoop (f + 1) { s with last_ := last1, heap := heap1 }
        = .ret { s with last_ := last1, heap := heap1 } := by
      rw [shrinkLoop]
      by_cases hpos : 0 < s.levels_
      · have hne : chain (pre ++ post) s.levels_ ≠ [] := fun h => hno ⟨hpos, h⟩
        obtain ⟨y, B, hyB⟩ := List.exists_cons_of_ne_nil hne
        have hy : y ∈ chain (pre ++ post) s.levels_ := by rw [hyB]; simp
        obtain ⟨d, hd, hda, _⟩ := mem_chain hy
        have hdm : d ∈ pre ++ c :: post :=
          (List.Sublist.append (List.Sublist.refl pre) (List.sublist_cons_self c post)).subset hd
        have hyt : y ≠ s.tail_node_ := by rw [← hda]; exact rep_tail_not_cell hrep hdm
        rw [hyB] at hnext
        simp only [firstOr] at hnext
        simp only [gt_iff_lt, hpos, if_true, hnext, bind_ret, hyt, if_false]
      · simp only [gt_iff_lt, hpos, if_false]
    obtain ⟨nd, hnd, -, -⟩ := deref_of_elemAt (by rw [he]; exact hst.1 :
      elemAt heap1 c.addr = some (c.key, c.val))
    refine ⟨{ s with
        last_ := last1,
        heap := (heap1.set c.addr none),
        d_size_ := s.d_size_ - 1 }, ?_, rep_delete hrep hlen1 hlen he hs hlinked,
      rfl, rfl, rfl, rfl, rfl, rfl, rfl, by simpa using hlen, ?_⟩
    · rw [hcore, hshrink]
      simp only [bind_ret, hnd]
    · show lookup (heap1.set c.addr none) c.addr = none
      rw [lookup_set_none hcl, if_pos rfl]

/-- On every well-formed list `erase` of a stored key hangs, whatever the fuel, when the
cell is the only one on the top level and the top level is above 0. -/
theorem erase_stored_hangs {s : SkipList K E} {pre post : List (Cell K E)} {c : Cell K E}
    (hrep : Rep s (pre ++ c :: post)) (hpos : 0 < s.levels_)
    (hnil : chain (pre ++ post) s.levels_ = []) (fuel : Nat) :
    erase fuel c.key s = .spin := by
  have hf : (pre ++ c :: post).length < (pre ++ c :: post).length + 1 := Nat.lt_succ_self _
  have hsp := (erase_stored hrep hf).1 ⟨hpos, hnil⟩
  obtain ⟨h1, h2⟩ := sorted_around hrep.sorted
  have hck := hrep.below c (by simp)
  obtain ⟨last1, hsearch, -⟩ := search_spec hrep rfl h1 h2 (not_lt_of_lt hck) hf
  exact erase_hang _ (by rw [hsearch]; simp) hsp fuel

/-- On every well-formed list `search` for `tail_key_` itself ends at the tail. -/
theorem search_tail_key {s : SkipList K E} {cells : List (Cell K E)} {fuel : Nat}
    (hrep : Rep s cells) (hf : cells.length < fuel) :
    ∃ last1, search fuel s.tail_key_ s = .ret (s.tail_node_, { s with last_ := last1 }) ∧
      last1.length = s.last_.length ∧
      ∀ j, j ≤ s.levels_ → last1[j]? = some (some (lastFrom s.header_node_ (chain cells j))) := by
  have hsplit : cells = cells ++ [] := by simp
  have hpost : ∀ c ∈ ([] : List (Cell K E)), ¬ c.key < s.tail_key_ := by simp
  obtain ⟨last1, h1, h2, h3, -⟩ := search_spec hrep hsplit hrep.below hpost (lt_irrefl _) hf
  exact ⟨last1, by simpa [chain_nil, firstOr] using h1, h2, h3⟩

/-- On every well-formed list `find(tail_key_)` returns a pointer to the pair of the tail
sentinel. -/
theorem find_tail_key {s : SkipList K E} {cells : List (Cell K E)} {fuel : Nat}
    (hrep : Rep s cells) (hf : cells.length < fuel) :
    find fuel s.tail_key_ s = .ret (some s.tail_node_) := by
  have hsplit : cells = cells ++ [] := by simp
  have hpost : ∀ c ∈ ([] : List (Cell K E)), ¬ c.key < s.tail_key_ := by simp
  have h := find_lands hrep hsplit hrep.below hpost (lt_irrefl _) hf
  obtain ⟨v, hv⟩ := hrep.tail.1
  rw [h]
  simp [chain_nil, firstOr, keyAt_of_elemAt hv]

/-- On every well-formed list `insert` of a pair with key `tail_key_` overwrites the value
of the tail sentinel. -/
theorem insert_tail_key {s : SkipList K E} {cells : List (Cell K E)} {fuel : Nat}
    (draws : List Nat) (v : E) (hrep : Rep s cells) (hf : cells.length < fuel) :
    ∃ s1, insert fuel draws (s.tail_key_, v) s = .ret s1 ∧
      elemAt s1.heap s.tail_node_ = some (s.tail_key_, v) := by
  obtain ⟨last1, hsearch, -⟩ := search_tail_key hrep hf
  obtain ⟨v0, hv0⟩ := hrep.tail.1
  obtain ⟨nd, hnd, hnde, hl⟩ := deref_of_elemAt hv0
  have hkey : nd.element_.1 = s.tail_key_ := by rw [hnde]
  have hg : ¬ (s.tail_key_ > s.tail_key_) := lt_irrefl _
  refine ⟨{ s with
      last_ := last1,
      heap := (s.heap.set s.tail_node_ (some { nd with element_ := (nd.element_.1, v) })) },
    ?_, ?_⟩
  · unfold insert
    simp only [hg, if_false, hsearch, bind_ret, hnd, hkey, if_true]
  · show elemAt (s.heap.set s.tail_node_ _) s.tail_node_ = _
    rw [setElem_elemAt hl, if_pos rfl, hkey]

/-- On every well-formed list `erase(tail_key_)` is undefined: its unlink loop reads a
forward slot of the tail sentinel, which has none. -/
theorem erase_tail_key {s : SkipList K E} {cells : List (Cell K E)} {fuel : Nat}
    (hrep : Rep s cells) (hf : cells.length < fuel) :
    erase fuel s.tail_key_ s = .fault := by
  obtain ⟨last1, hsearch, -, hlast⟩ := search_tail_key hrep hf
  obtain ⟨v0, hv0⟩ := hrep.tail.1
  have hkey := keyAt_of_elemAt hv0
  have hg : ¬ (s.tail_key_ > s.tail_key_) := lt_irrefl _
  have htop := hrep.top
  have hl := hrep.linked 0 (by omega)
  have hb := linked_last hl
  have hnone : readNext s.heap s.tail_node_ 0 = .fault := by
    have := hrep.tail.2
    unfold slotsAt at this
    unfold readNext
    cases hlk : lookup s.heap s.tail_node_ with
    | none => rfl
    | some nd =>
      rw [hlk] at this
      simp at this
      simp [this]
  unfold erase
  simp only [hg, if_false, hsearch, bind_ret, hkey, ne_eq, not_true_eq_false, unlinkLoop,
    readLast_of_get (hlast 0 (Nat.zero_le _)), hb, if_true, hnone, bind_fault]

end EraseLemmas

/-! ## The operations as dictionary operations -/

section DictionaryLemmas

variable {K E : Type} [LinearOrder K]

theorem lookupCell_none {k : K} {cells : List (Cell K E)} (h : ∀ c ∈ cells, c.key ≠ k) :
    lookupCell k cells = none := by
  unfold lookupCell
  have : cells.find? (fun c => decide (c.key = k)) = none := by
    rw [List.find?_eq_none]
    intro c hc
    simpa using h c hc
  rw [this]; rfl

theorem lookupCell_skip {k : K} (pre post : List (Cell K E)) {c : Cell K E} (h : c.key ≠ k) :
    lookupCell k (pre ++ c :: post) = lookupCell k (pre ++ post) := by
  unfold lookupCell
  simp [List.find?_append, List.find?_cons, h]

theorem lookupCell_hit {pre post : List (Cell K E)} {c : Cell K E}
    (h : ∀ d ∈ pre, d.key ≠ c.key) :
    lookupCell c.key (pre ++ c :: post) = some (c.key, c.val) := by
  unfold lookupCell
  have : pre.find? (fun d => decide (d.key = c.key)) = none := by
    rw [List.find?_eq_none]
    intro d hd
    simpa using h d hd
  simp [List.find?_append, this]

/-- On a well-formed list `find` returns the pair the cells hold for the key, and
`NULL` when they hold none. -/
theorem findElement_rep {s : SkipList K E} {cells : List (Cell K E)} {k : K} {fuel : Nat}
    (hrep : Rep s cells) (hk : k < s.tail_key_) (hf : cells.length < fuel) :
    findElement fuel k s = .ret (lookupCell k cells) := by
  by_cases hmem : ∃ c ∈ cells, c.key = k
  · obtain ⟨c, hc, rfl⟩ := hmem
    obtain ⟨pre, post, rfl⟩ := List.append_of_mem hc
    rw [(find_hit hrep hf).2, lookupCell_hit]
    intro d hd
    exact ne_of_lt ((sorted_around hrep.sorted).1 d hd)
  · have habs : ∀ c ∈ cells, c.key ≠ k := fun c hc h => hmem ⟨c, hc, h⟩
    rw [(find_miss hrep hk habs hf).2, lookupCell_none habs]

/-- What `insert` does on a well-formed list, in terms of the cells: it returns, and
afterwards the list holds `(k, v)` for `k` and, for every other key, what it held. -/
theorem insert_rep {s : SkipList K E} {cells : List (Cell K E)} {k : K} (v : E)
    {fuel : Nat} {draws : List Nat} (hrep : Rep s cells) (hk : k < s.tail_key_)
    (hd : ∃ d ∈ draws, s.cut_off_ < d) (hf : cells.length < fuel) :
    ∃ s1 cells1, insert fuel draws (k, v) s = .ret s1 ∧ Rep s1 cells1 ∧
      cells1.length ≤ cells.length + 1 ∧ s1.tail_key_ = s.tail_key_ ∧
      s1.max_level_ = s.max_level_ ∧ s1.cut_off_ = s.cut_off_ ∧
      lookupCell k cells1 = some (k, v) ∧
      ∀ k1, k1 ≠ k → lookupCell k1 cells1 = lookupCell k1 cells := by
  by_cases hmem : ∃ c ∈ cells, c.key = k
  · obtain ⟨c, hc, rfl⟩ := hmem
    obtain ⟨pre, post, rfl⟩ := List.append_of_mem hc
    obtain ⟨s1, hi1, hrep1, -, -, hml, htk, -, -, hco, -⟩ := insert_overwrite v draws hrep hf
    have hpre : ∀ d ∈ pre, d.key ≠ c.key := fun d hd =>
      ne_of_lt ((sorted_around hrep.sorted).1 d hd)
    refine ⟨s1, _, hi1, hrep1, by simp, htk, hml, hco, ?_, ?_⟩
    · exact lookupCell_hit (c := { c with val := v }) hpre
    · intro k1 hk1
      rw [lookupCell_skip pre post (c := { c with val := v }) (Ne.symm hk1),
        lookupCell_skip pre post (Ne.symm hk1)]
  · obtain ⟨pre, post, hsplit, hpre, hpost⟩ := exists_split k cells hrep.sorted
    have hpost2 : ∀ c ∈ post, k < c.key := by
      intro c hc
      have hne : c.key ≠ k := fun h =>
        hmem ⟨c, by rw [hsplit]; exact List.mem_append_right _ hc, h⟩
      exact lt_of_le_of_ne (not_lt.1 (hpost c hc)) (Ne.symm hne)
    obtain ⟨lev0, hlev⟩ := levelLoop_ret s.cut_off_ draws 0 hd
    obtain ⟨s1, hi1, hrep1, -, -, hml, htk, -, -, hco⟩ :=
      insert_new v hrep hsplit hpre hpost2 hk hf hlev
    have hpre2 : ∀ d ∈ pre, d.key ≠ k := fun d hd => ne_of_lt (hpre d hd)
    refine ⟨s1, _, hi1, hrep1, by rw [hsplit]; simp; omega, htk, hml, hco, ?_, ?_⟩
    · exact lookupCell_hit (c := ⟨s.heap.length, k, v, newLevel s lev0⟩) hpre2
    · intro k1 hk1
      rw [lookupCell_skip pre post (c := ⟨s.heap.length, k, v, newLevel s lev0⟩)
        (Ne.symm hk1), hsplit]

/-- What `erase` does on a well-formed list when it returns, in terms of the cells:
afterwards the list holds nothing for `k` and, for every other key, what it held. -/
theorem erase_rep {s s1 : SkipList K E} {cells : List (Cell K E)} {k : K} {fuel : Nat}
    (hrep : Rep s cells) (hk : k < s.tail_key_) (hf : cells.length < fuel)
    (he : erase fuel k s = .ret s1) :
    ∃ cells1, Rep s1 cells1 ∧ cells1.length ≤ cells.length ∧
      s1.tail_key_ = s.tail_key_ ∧ s1.max_level_ = s.max_level_ ∧
      s1.cut_off_ = s.cut_off_ ∧ lookupCell k cells1 = none ∧
      ∀ k1, k1 ≠ k → lookupCell k1 cells1 = lookupCell k1 cells := by
  by_cases hmem : ∃ c ∈ cells, c.key = k
  · obtain ⟨c, hc, rfl⟩ := hmem
    obtain ⟨pre, post, rfl⟩ := List.append_of_mem hc
    obtain ⟨hspin, hret⟩ := erase_stored hrep hf
    by_cases hcond : 0 < s.levels_ ∧ chain (pre ++ post) s.levels_ = []
    · rw [hspin hcond] at he; cases he
    · obtain ⟨s2, he2, hrep2, -, -, hml, htk, -, -, hco, -⟩ := hret hcond
      rw [he2] at he
      cases he
      obtain ⟨h1, h2⟩ := sorted_around hrep.sorted
      have hs := hrep.sorted
      rw [List.pairwise_append, List.pairwise_cons] at hs
      refine ⟨pre ++ post, hrep2, by simp, htk, hml, hco, ?_, ?_⟩
      · apply lookupCell_none
        intro d hd
        rcases List.mem_append.1 hd with h | h
        · exact ne_of_lt (h1 d h)
        · exact ne_of_gt (hs.2.1.1 d h)
      · intro k1 hk1
        rw [lookupCell_skip pre post (Ne.symm hk1)]
  · have habs : ∀ c ∈ cells, c.key ≠ k := fun c hc h => hmem ⟨c, hc, h⟩
    obtain ⟨last1, he2, hlen1⟩ := erase_absent hrep hk habs hf
    rw [he2] at he
    cases he
    refine ⟨cells, ?_, le_refl _, rfl, rfl, rfl, lookupCell_none habs, fun _ _ => rfl⟩
    exact
      { distinct := hrep.distinct
        header := hrep.header
        fresh := hrep.fresh
        tail := hrep.tail
        scratch := by
          show ((last1.length : Nat) : Int) = s.max_level_ + 1
          rw [hlen1]; exact hrep.scratch
        top := hrep.top
        sorted := hrep.sorted
        below := hrep.below
        stored := hrep.stored
        low := hrep.low
        linked := hrep.linked
        size := hrep.size }

/-- On a well-formed list `erase` of a key below the bound returns or spins; it never
runs into undefined behaviour. -/
theorem erase_ret_or_spin {s : SkipList K E} {cells : List (Cell K E)} {k : K} {fuel : Nat}
    (hrep : Rep s cells) (hk : k < s.tail_key_) (hf : cells.length < fuel) :
    erase fuel k s = .spin ∨ ∃ s1, erase fuel k s = .ret s1 := by
  by_cases hmem : ∃ c ∈ cells, c.key = k
  · obtain ⟨c, hc, rfl⟩ := hmem
    obtain ⟨pre, post, rfl⟩ := List.append_of_mem hc
    obtain ⟨hspin, hret⟩ := erase_stored hrep hf
    by_cases hcond : 0 < s.levels_ ∧ chain (pre ++ post) s.levels_ = []
    · exact Or.inl (hspin hcond)
    · obtain ⟨s2, he2, -⟩ := hret hcond
      exact Or.inr ⟨s2, he2⟩
  · have habs : ∀ c ∈ cells, c.key ≠ k := fun c hc h => hmem ⟨c, hc, h⟩
    obtain ⟨last1, he2, -⟩ := erase_absent hrep hk habs hf
    exact Or.inr ⟨_, he2⟩

/-- A sequence of calls within the domain on a well-formed list either spins (a call of
`erase` hangs) or returns a well-formed list that holds, for every key, what replaying
the calls on a dictionary gives. -/
theorem calls_rep {fuel : Nat} :
    ∀ (cs : List (Call K E)) {s : SkipList K E} {cells : List (Cell K E)}, Rep s cells →
      (∀ c ∈ cs, CallOk s.tail_key_ s.cut_off_ c) → cells.length + cs.length < fuel →
      calls fuel cs s = .spin ∨
      ∃ s1 cells1, calls fuel cs s = .ret s1 ∧ Rep s1 cells1 ∧
        s1.tail_key_ = s.tail_key_ ∧ s1.max_level_ = s.max_level_ ∧
        ∀ k, lookupCell k cells1 = replay k cs (lookupCell k cells)
  | [], s, cells, hrep, _, _ => Or.inr ⟨s, cells, rfl, hrep, rfl, rfl, fun _ => rfl⟩
  | .insert draws the_pair :: cs, s, cells, hrep, hok, hf => by
    obtain ⟨hk, hd⟩ := hok (.insert draws the_pair) (by simp)
    have hf1 : cells.length < fuel := by simp at hf; omega
    obtain ⟨s1, cells1, hi, hrep1, hlen, htk, hml, hco, hhit, hframe⟩ :=
      insert_rep the_pair.2 hrep hk hd hf1
    have hok1 : ∀ c ∈ cs, CallOk s1.tail_key_ s1.cut_off_ c := by
      intro c hc
      rw [htk, hco]
      exact hok c (List.mem_cons_of_mem _ hc)
    have hf2 : cells1.length + cs.length < fuel := by simp at hf; omega
    have hcalls : calls fuel (.insert draws the_pair :: cs) s = calls fuel cs s1 := by
      rw [calls, call]
      show (insert fuel draws (the_pair.1, the_pair.2) s).bind _ = _
      rw [hi]; rfl
    rw [hcalls]
    rcases calls_rep cs hrep1 hok1 hf2 with h | ⟨s2, cells2, h1, h2, h3, h4, h5⟩
    · exact Or.inl h
    · refine Or.inr ⟨s2, cells2, h1, h2, by rw [h3, htk], by rw [h4, hml], ?_⟩
      intro k
      rw [h5 k, replay]
      by_cases hkk : the_pair.1 = k
      · rw [if_pos hkk, ← hkk, hhit]
      · rw [if_neg hkk, hframe k (Ne.symm hkk)]
  | .erase the_key :: cs, s, cells, hrep, hok, hf => by
    have hk : the_key < s.tail_key_ := hok (.erase the_key) (by simp)
    have hf1 : cells.length < fuel := by simp at hf; omega
    have hcalls : calls fuel (.erase the_key :: cs) s
        = (erase fuel the_key s).bind fun s1 => calls fuel cs s1 := rfl
    rw [hcalls]
    rcases erase_ret_or_spin hrep hk hf1 with h | ⟨s1, he⟩
    · rw [h]; exact Or.inl rfl
    · obtain ⟨cells1, hrep1, hlen, htk, hml, hco, hgone, hframe⟩ := erase_rep hrep hk hf1 he
      have hok1 : ∀ c ∈ cs, CallOk s1.tail_key_ s1.cut_off_ c := by
        intro c hc
        rw [htk, hco]
        exact hok c (List.mem_cons_of_mem _ hc)
      have hf2 : cells1.length + cs.length < fuel := by simp at hf; omega
      rw [he]
      simp only [bind_ret]
      rcases calls_rep cs hrep1 hok1 hf2 with h | ⟨s2, cells2, h1, h2, h3, h4, h5⟩
      · exact Or.inl h
      · refine Or.inr ⟨s2, cells2, h1, h2, by rw [h3, htk], by rw [h4, hml], ?_⟩
        intro k
        rw [h5 k, replay]
        by_cases hkk : the_key = k
        · rw [if_pos hkk, ← hkk, hgone]
        · rw [if_neg hkk, hframe k (Ne.symm hkk)]

end DictionaryLemmas

/-! ## Every call that returns keeps the list well formed -/

section StepGeneric

variable {K E : Type}

theorem levelLoop_cases (cut_off : Nat) :
    ∀ (draws : List Nat) (n : Nat),
      levelLoop cut_off draws n = .spin ∨ ∃ lev, levelLoop cut_off draws n = .ret lev
  | [], _ => Or.inl rfl
  | d :: ds, n => by
    by_cases hd : d ≤ cut_off
    · simpa [levelLoop, hd] using levelLoop_cases cut_off ds (n + 1)
    · exact Or.inr ⟨n, by simp [levelLoop, hd]⟩

theorem chain_ne_nil {cells : List (Cell K E)} {c : Cell K E} {i : Nat}
    (hc : c ∈ cells) (hi : i ≤ c.lvl) : chain cells i ≠ [] := by
  intro h
  have : c.addr ∈ chain cells i := by
    unfold chain
    exact List.mem_map.2 ⟨c, List.mem_filter.2 ⟨hc, by simpa using hi⟩, rfl⟩
  rw [h] at this
  cases this

theorem levelLoop_count (cut_off : Nat) :
    ∀ (draws : List Nat) (n : Nat), (∃ d ∈ draws, cut_off < d) →
      levelLoop cut_off draws n
        = .ret (n + (draws.takeWhile fun d => decide (d ≤ cut_off)).length)
  | [], _, h => by simp at h
  | d :: ds, n, h => by
    by_cases hd : d ≤ cut_off
    · have h2 : ∃ d ∈ ds, cut_off < d := by
        obtain ⟨e, he, hlt⟩ := h
        rcases List.mem_cons.1 he with rfl | he
        · omega
        · exact ⟨e, he, hlt⟩
      have ih := levelLoop_count cut_off ds (n + 1) h2
      have e : (List.takeWhile (fun d => decide (d ≤ cut_off)) (d :: ds))
          = d :: List.takeWhile (fun d => decide (d ≤ cut_off)) ds := by
        simp [List.takeWhile_cons, hd]
      rw [levelLoop, if_pos hd, ih, e, List.length_cons]
      congr 1
      omega
    · simp [levelLoop, hd, List.takeWhile_cons]

/-- The last loop of `erase` hands back the list it was given, when it ends. -/
theorem shrinkLoop_ret :
    ∀ (fuel : Nat) (s s1 : SkipList K E), shrinkLoop fuel s = .ret s1 → s1 = s
  | 0, s, s1, h => by simp [shrinkLoop] at h
  | fuel + 1, s, s1, h => by
    rw [shrinkLoop] at h
    by_cases hpos : s.levels_ > 0
    · rw [if_pos hpos] at h
      obtain ⟨nx, -, h⟩ := bind_eq_ret h
      by_cases hnx : nx = s.tail_node_
      · rw [if_pos hnx] at h
        exact shrinkLoop_ret fuel s s1 h
      · rw [if_neg hnx] at h
        cases h
        rfl
    · rw [if_neg hpos] at h
      cases h
      rfl

end StepGeneric

/-! ## The test of `level` on floats -/

section FloatTest

theorem roundTo_ge (u d : Nat) : d / u * u ≤ roundTo u d := by
  have h : d / u * u ≤ (d / u + 1) * u := Nat.mul_le_mul_right _ (Nat.le_succ _)
  unfold roundTo
  split_ifs <;> first | exact le_refl _ | exact h

theorem roundTo_le (u d : Nat) : roundTo u d ≤ (d / u + 1) * u := by
  have h : d / u * u ≤ (d / u + 1) * u := Nat.mul_le_mul_right _ (Nat.le_succ _)
  unfold roundTo
  split_ifs <;> first | exact le_refl _ | exact h

theorem roundTo_mono {u a b : Nat} (hu : 0 < u) (h : a ≤ b) : roundTo u a ≤ roundTo u b := by
  have hq : a / u ≤ b / u := Nat.div_le_div_right h
  rcases Nat.lt_or_eq_of_le hq with hlt | heq
  · calc roundTo u a ≤ (a / u + 1) * u := roundTo_le u a
      _ ≤ b / u * u := Nat.mul_le_mul_right _ hlt
      _ ≤ roundTo u b := roundTo_ge u b
  · have ha := Nat.div_add_mod a u
    have hb := Nat.div_add_mod b u
    rw [← heq] at hb
    have hr : a % u ≤ b % u := by omega
    have e : (a / u + 1) * u = a / u * u + u := by ring
    unfold roundTo
    rw [← heq, e]
    split_ifs <;> omega

theorem roundTo_le_bound {u k d : Nat} (hu : 0 < u) (h : d < k * u) : roundTo u d ≤ k * u := by
  have : d / u < k := (Nat.div_lt_iff_lt_mul hu).2 h
  exact le_trans (roundTo_le u d) (Nat.mul_le_mul_right _ this)

theorem bound_le_roundTo {u k d : Nat} (hu : 0 < u) (h : k * u ≤ d) : k * u ≤ roundTo u d := by
  have : k ≤ d / u := (Nat.le_div_iff_mul_le hu).2 h
  exact le_trans (Nat.mul_le_mul_right _ this) (roundTo_ge u d)

theorem floatOfInt_exact {d : Nat} (h : d < 16777216) : floatOfInt d = d := by
  unfold floatOfInt; rw [if_pos h]

theorem floatOfInt_step1 {d : Nat} (h1 : 16777216 ≤ d) (h2 : d < 33554432) :
    floatOfInt d = roundTo 2 d := by
  unfold floatOfInt; rw [if_neg (by omega), if_pos h2]

theorem floatOfInt_step2 {d : Nat} (h1 : 33554432 ≤ d) (h2 : d < 67108864) :
    floatOfInt d = roundTo 4 d := by
  unfold floatOfInt; rw [if_neg (by omega), if_neg (by omega), if_pos h2]

theorem floatOfInt_step3 {d : Nat} (h1 : 67108864 ≤ d) (h2 : d < 134217728) :
    floatOfInt d = roundTo 8 d := by
  unfold floatOfInt; rw [if_neg (by omega), if_neg (by omega), if_neg (by omega), if_pos h2]

theorem floatOfInt_step4 {d : Nat} (h1 : 134217728 ≤ d) (h2 : d < 268435456) :
    floatOfInt d = roundTo 16 d := by
  unfold floatOfInt
  rw [if_neg (by omega), if_neg (by omega), if_neg (by omega), if_neg (by omega), if_pos h2]

theorem floatOfInt_step5 {d : Nat} (h1 : 268435456 ≤ d) (h2 : d < 536870912) :
    floatOfInt d = roundTo 32 d := by
  unfold floatOfInt
  rw [if_neg (by omega), if_neg (by omega), if_neg (by omega), if_neg (by omega),
    if_neg (by omega), if_pos h2]

theorem floatOfInt_step6 {d : Nat} (h1 : 536870912 ≤ d) (h2 : d < 1073741824) :
    floatOfInt d = roundTo 64 d := by
  unfold floatOfInt
  rw [if_neg (by omega), if_neg (by omega), if_neg (by omega), if_neg (by omega),
    if_neg (by omega), if_neg (by omega), if_pos h2]

theorem floatOfInt_step7 {d : Nat} (h1 : 1073741824 ≤ d) :
    floatOfInt d = roundTo 128 d := by
  unfold floatOfInt
  rw [if_neg (by omega), if_neg (by omega), if_neg (by omega), if_neg (by omega),
    if_neg (by omega), if_neg (by omega), if_neg (by omega)]

/-- A draw and its conversion are on the same side of every power of two from `2^24` to
`2^30`. -/
theorem floatOfInt_range (d : Nat) :
    (d < 16777216 → floatOfInt d = d) ∧
    (16777216 ≤ d → 16777216 ≤ floatOfInt d) ∧ (d < 33554432 → floatOfInt d ≤ 33554432) ∧
    (33554432 ≤ d → 33554432 ≤ floatOfInt d) ∧ (d < 67108864 → floatOfInt d ≤ 67108864) ∧
    (67108864 ≤ d → 67108864 ≤ floatOfInt d) ∧ (d < 134217728 → floatOfInt d ≤ 134217728) ∧
    (134217728 ≤ d → 134217728 ≤ floatOfInt d) ∧ (d < 268435456 → floatOfInt d ≤ 268435456) ∧
    (268435456 ≤ d → 268435456 ≤ floatOfInt d) ∧ (d < 536870912 → floatOfInt d ≤ 536870912) ∧
    (536870912 ≤ d → 536870912 ≤ floatOfInt d) ∧
    (d < 1073741824 → floatOfInt d ≤ 1073741824) ∧
    (1073741824 ≤ d → 1073741824 ≤ floatOfInt d) := by
  by_cases h0 : d < 16777216
  · have := floatOfInt_exact h0
    omega
  by_cases h1 : d < 33554432
  · have e := floatOfInt_step1 (by omega) h1
    have a := bound_le_roundTo (u := 2) (k := 8388608) (d := d) (by omega) (by omega)
    have b := roundTo_le_bound (u := 2) (k := 16777216) (d := d) (by omega) (by omega)
    omega
  by_cases h2 : d < 67108864
  · have e := floatOfInt_step2 (by omega) h2
    have a := bound_le_roundTo (u := 4) (k := 8388608) (d := d) (by omega) (by omega)
    have b := roundTo_le_bound (u := 4) (k := 16777216) (d := d) (by omega) (by omega)
    omega
  by_cases h3 : d < 134217728
  · have e := floatOfInt_step3 (by omega) h3
    have a := bound_le_roundTo (u := 8) (k := 8388608) (d := d) (by omega) (by omega)
    have b := roundTo_le_bound (u := 8) (k := 16777216) (d := d) (by omega) (by omega)
    omega
  by_cases h4 : d < 268435456
  · have e := floatOfInt_step4 (by omega) h4
    have a := bound_le_roundTo (u := 16) (k := 8388608) (d := d) (by omega) (by omega)
    have b := roundTo_le_bound (u := 16) (k := 16777216) (d := d) (by omega) (by omega)
    omega
  by_cases h5 : d < 536870912
  · have e := floatOfInt_step5 (by omega) h5
    have a := bound_le_roundTo (u := 32) (k := 8388608) (d := d) (by omega) (by omega)
    have b := roundTo_le_bound (u := 32) (k := 16777216) (d := d) (by omega) (by omega)
    omega
  by_cases h6 : d < 1073741824
  · have e := floatOfInt_step6 (by omega) h6
    have a := bound_le_roundTo (u := 64) (k := 8388608) (d := d) (by omega) (by omega)
    have b := roundTo_le_bound (u := 64) (k := 16777216) (d := d) (by omega) (by omega)
    omega
  · have e := floatOfInt_step7 (by omega : 1073741824 ≤ d)
    have a := bound_le_roundTo (u := 128) (k := 8388608) (d := d) (by omega) (by omega)
    omega

/-- The conversion never decreases when the draw grows. -/
theorem floatOfInt_mono {a b : Nat} (h : a ≤ b) : floatOfInt a ≤ floatOfInt b := by
  have ra := floatOfInt_range a
  have rb := floatOfInt_range b
  by_cases b0 : b < 16777216
  · rw [floatOfInt_exact b0, floatOfInt_exact (by omega)]; exact h
  by_cases a0 : a < 16777216
  · omega
  by_cases b1 : b < 33554432
  · rw [floatOfInt_step1 (by omega) b1, floatOfInt_step1 (by omega) (by omega)]
    exact roundTo_mono (by omega) h
  by_cases a1 : a < 33554432
  · omega
  by_cases b2 : b < 67108864
  · rw [floatOfInt_step2 (by omega) b2, floatOfInt_step2 (by omega) (by omega)]
    exact roundTo_mono (by omega) h
  by_cases a2 : a < 67108864
  · omega
  by_cases b3 : b < 134217728
  · rw [floatOfInt_step3 (by omega) b3, floatOfInt_step3 (by omega) (by omega)]
    exact roundTo_mono (by omega) h
  by_cases a3 : a < 134217728
  · omega
  by_cases b4 : b < 268435456
  · rw [floatOfInt_step4 (by omega) b4, floatOfInt_step4 (by omega) (by omega)]
    exact roundTo_mono (by omega) h
  by_cases a4 : a < 268435456
  · omega
  by_cases b5 : b < 536870912
  · rw [floatOfInt_step5 (by omega) b5, floatOfInt_step5 (by omega) (by omega)]
    exact roundTo_mono (by omega) h
  by_cases a5 : a < 536870912
  · omega
  by_cases b6 : b < 1073741824
  · rw [floatOfInt_step6 (by omega) b6, floatOfInt_step6 (by omega) (by omega)]
    exact roundTo_mono (by omega) h
  by_cases a6 : a < 1073741824
  · omega
  · rw [floatOfInt_step7 (by omega), floatOfInt_step7 (by omega)]
    exact roundTo_mono (by omega) h

/-- The test of the loop of `level` is a comparison of the draw with the largest draw that
passes the test. -/
theorem passes_iff_le {cut N : Nat} (hN : floatOfInt N ≤ cut)
    (hN1 : cut < floatOfInt (N + 1)) (d : Nat) : floatOfInt d ≤ cut ↔ d ≤ N := by
  constructor
  · intro h
    by_contra hlt
    have := floatOfInt_mono (by omega : N + 1 ≤ d)
    omega
  · intro h
    exact le_trans (floatOfInt_mono h) hN

/-- Below `2^24` the conversion is exact, and the largest draw that passes the test is the
integer part of the cutoff. -/
theorem passes_exact {cut : Nat} (hc : cut < 16777216) (d : Nat) :
    floatOfInt d ≤ cut ↔ d ≤ cut := by
  have r := floatOfInt_range (cut + 1)
  have e := floatOfInt_exact hc
  exact passes_iff_le (by omega) (by omega) d

/-- When some draw fails the test there is a largest draw that passes it. -/
theorem largest_passing (cut : Nat) :
    ∀ (f : Nat), cut < floatOfInt f →
      ∃ N, floatOfInt N ≤ cut ∧ cut < floatOfInt (N + 1)
  | 0, h => by
    rw [floatOfInt_exact (by omega)] at h
    omega
  | f + 1, h => by
    by_cases hf : cut < floatOfInt f
    · exact largest_passing cut f hf
    · exact ⟨f, by omega, h⟩

/-- The loop with the float comparison is the loop that compares the draw with the
largest draw that passes. -/
theorem levelLoopFloat_eq {cut N : Nat} (hN : floatOfInt N ≤ cut)
    (hN1 : cut < floatOfInt (N + 1)) :
    ∀ (draws : List Nat) (n : Nat), levelLoopFloat cut draws n = levelLoop N draws n
  | [], _ => rfl
  | d :: ds, n => by
    have ih := levelLoopFloat_eq hN hN1 ds (n + 1)
    by_cases hd : d ≤ N
    · have hp := (passes_iff_le hN hN1 d).2 hd
      rw [levelLoopFloat, levelLoop, if_pos hp, if_pos hd, ih]
    · have hp : ¬ floatOfInt d ≤ cut := fun h => hd ((passes_iff_le hN hN1 d).1 h)
      rw [levelLoopFloat, levelLoop, if_neg hp, if_neg hd]

theorem takeWhile_passes {cut N : Nat} (hN : floatOfInt N ≤ cut)
    (hN1 : cut < floatOfInt (N + 1)) (draws : List Nat) :
    (draws.takeWhile fun d => decide (floatOfInt d ≤ cut))
      = draws.takeWhile fun d => decide (d ≤ N) := by
  congr 1
  funext d
  exact decide_eq_decide.2 (passes_iff_le hN hN1 d)

theorem takeWhile_spec (cutoff N : Nat) (hc : cutoff ≤ N + 1) :
    ∀ (draws : List Nat), (∀ d ∈ draws, ¬ (cutoff ≤ d ∧ d ≤ N)) →
      (draws.takeWhile fun d => decide (d ≤ N))
        = draws.takeWhile fun d => decide (d < cutoff)
  | [], _ => rfl
  | d :: ds, h => by
    have hd := h d (by simp)
    have ih := takeWhile_spec cutoff N hc ds (fun e he => h e (List.mem_cons_of_mem _ he))
    by_cases hle : d ≤ N
    · have hlt : d < cutoff := by omega
      simp [List.takeWhile_cons, hle, hlt, ih]
    · have hlt : ¬ d < cutoff := by omega
      simp [List.takeWhile_cons, hle, hlt]

end FloatTest

/-! ## Every call that returns keeps the list well formed, continued -/

section Step

variable {K E : Type} [LinearOrder K]

theorem rep_scratch {s : SkipList K E} {cells : List (Cell K E)} (last1 : List (Option Nat))
    (hrep : Rep s cells) (hlen : last1.length = s.last_.length) :
    Rep { s with last_ := last1 } cells :=
  { distinct := hrep.distinct
    header := hrep.header
    fresh := hrep.fresh
    tail := hrep.tail
    scratch := by
      show ((last1.length : Nat) : Int) = s.max_level_ + 1
      rw [hlen]; exact hrep.scratch
    top := hrep.top
    sorted := hrep.sorted
    below := hrep.below
    stored := hrep.stored
    low := hrep.low
    linked := hrep.linked
    size := hrep.size }

theorem insert_beyond {s : SkipList K E} (fuel : Nat) (draws : List Nat) {the_pair : K × E}
    (h : s.tail_key_ < the_pair.1) : insert fuel draws the_pair s = .ret s := by
  have hg : the_pair.1 > s.tail_key_ := h
  unfold insert
  rw [if_pos hg]

theorem erase_beyond {s : SkipList K E} (fuel : Nat) {the_key : K}
    (h : s.tail_key_ < the_key) : erase fuel the_key s = .ret s := by
  have hg : the_key > s.tail_key_ := h
  unfold erase
  rw [if_pos hg]

/-- Inserting a key that is not stored spins when the draws end before `level` does. -/
theorem insert_new_spin {s : SkipList K E} {cells : List (Cell K E)} {k : K} (v : E)
    {fuel : Nat} {draws : List Nat} (hrep : Rep s cells) (hk : k < s.tail_key_)
    (habs : ∀ c ∈ cells, c.key ≠ k) (hf : cells.length < fuel)
    (hlev : levelLoop s.cut_off_ draws 0 = .spin) : insert fuel draws (k, v) s = .spin := by
  obtain ⟨pre, post, hsplit, hpre, hpost⟩ := exists_split k cells hrep.sorted
  obtain ⟨last1, hsearch, -⟩ := search_spec hrep hsplit hpre hpost (not_lt_of_lt hk) hf
  have hg : ¬ (k > s.tail_key_) := not_lt_of_lt hk
  have hnode : ∃ nd, deref s.heap (firstOr (chain post 0) s.tail_node_) = .ret nd ∧
      nd.element_.1 ≠ k := by
    cases hp : post with
    | nil =>
      obtain ⟨v0, hv0⟩ := hrep.tail.1
      obtain ⟨nd, h1, h2, _⟩ := deref_of_elemAt hv0
      exact ⟨nd, by simpa [chain_nil, firstOr] using h1, by rw [h2]; exact ne_of_gt hk⟩
    | cons c l =>
      have hc : c ∈ cells := by rw [hsplit, hp]; simp
      have hst := hrep.stored c hc
      obtain ⟨nd, h1, h2, _⟩ := deref_of_elemAt hst.1
      exact ⟨nd, by simpa [chain_cons, firstOr] using h1, by rw [h2]; exact habs c hc⟩
  obtain ⟨nd, hnd, hndk⟩ := hnode
  unfold insert
  simp only [hg, if_false, hsearch, bind_ret, hnd, hndk, level, hlev, bind_spin]

/-- Inserting a pair with key `tail_key_` into a well-formed list leaves it well formed,
with the same cells: only the value of the tail sentinel and the scratch array change. -/
theorem insert_tail_key_rep {s : SkipList K E} {cells : List (Cell K E)} {fuel : Nat}
    (draws : List Nat) (v : E) (hrep : Rep s cells) (hf : cells.length < fuel) :
    ∃ s1, insert fuel draws (s.tail_key_, v) s = .ret s1 ∧ Rep s1 cells ∧
      s1.levels_ = s.levels_ ∧ s1.d_size_ = s.d_size_ ∧ s1.max_level_ = s.max_level_ ∧
      s1.tail_key_ = s.tail_key_ ∧ s1.cut_off_ = s.cut_off_ := by
  obtain ⟨last1, hsearch, hlen1, -⟩ := search_tail_key hrep hf
  obtain ⟨v0, hv0⟩ := hrep.tail.1
  obtain ⟨nd, hnd, hnde, hl⟩ := deref_of_elemAt hv0
  have hkey : nd.element_.1 = s.tail_key_ := by rw [hnde]
  have hg : ¬ (s.tail_key_ > s.tail_key_) := lt_irrefl _
  refine ⟨{ s with
      last_ := last1,
      heap := (s.heap.set s.tail_node_ (some { nd with element_ := (nd.element_.1, v) })) },
    ?_, ?_, rfl, rfl, rfl, rfl, rfl⟩
  · unfold insert
    simp only [hg, if_false, hsearch, bind_ret, hnd, hkey, if_true]
  refine
    { distinct := hrep.distinct
      header := ?_
      fresh := hrep.fresh
      tail := ?_
      scratch := ?_
      top := hrep.top
      sorted := hrep.sorted
      below := hrep.below
      stored := ?_
      low := hrep.low
      linked := ?_
      size := hrep.size }
  · obtain ⟨m, hm, hmm⟩ := hrep.header
    exact ⟨m, by rw [← hm]; exact setElem_slotsAt hl _ _, hmm⟩
  · refine ⟨⟨v, ?_⟩, by rw [← hrep.tail.2]; exact setElem_slotsAt hl _ _⟩
    show elemAt (s.heap.set s.tail_node_ _) s.tail_node_ = _
    rw [setElem_elemAt hl, if_pos rfl, hkey]
  · show ((last1.length : Nat) : Int) = s.max_level_ + 1
    rw [hlen1]; exact hrep.scratch
  · intro d hd
    have hsd := hrep.stored d hd
    have hne : d.addr ≠ s.tail_node_ := rep_tail_not_cell hrep hd
    refine ⟨?_, by rw [← hsd.2]; exact setElem_slotsAt hl _ _⟩
    show elemAt (s.heap.set s.tail_node_ _) d.addr = _
    rw [setElem_elemAt hl, if_neg hne]; exact hsd.1
  · intro i hi
    exact linked_congr (hrep.linked i hi) (fun x _ => setElem_readNext hl _ x i)

/-- A call of `insert` that returns on a well-formed list returns a well-formed list,
whatever the key and the draws. -/
theorem insert_step {s s1 : SkipList K E} {cells : List (Cell K E)} {fuel : Nat}
    {draws : List Nat} {the_pair : K × E} (hrep : Rep s cells) (htf : TopFull s cells)
    (hf : cells.length < fuel) (h : insert fuel draws the_pair s = .ret s1) :
    ∃ cells1, Rep s1 cells1 ∧ TopFull s1 cells1 ∧ cells1.length ≤ cells.length + 1 ∧
      s1.max_level_ = s.max_level_ ∧ s1.tail_key_ = s.tail_key_ ∧
      s1.cut_off_ = s.cut_off_ := by
  obtain ⟨k, v⟩ := the_pair
  rcases lt_trichotomy k s.tail_key_ with hk | hk | hk
  · by_cases hmem : ∃ c ∈ cells, c.key = k
    · obtain ⟨c, hc, rfl⟩ := hmem
      obtain ⟨pre, post, rfl⟩ := List.append_of_mem hc
      obtain ⟨s2, hi, hrep2, hlv, -, hml, htk, -, -, hco, -⟩ :=
        insert_overwrite v draws hrep hf
      rw [hi] at h
      cases h
      refine ⟨_, hrep2, ?_, by simp, hml, htk, hco⟩
      rcases htf with h0 | ⟨d, hd, hdl⟩
      · exact Or.inl (by rw [hlv]; exact h0)
      · refine Or.inr ?_
        rw [hlv]
        rcases List.mem_append.1 hd with hd | hd
        · exact ⟨d, List.mem_append_left _ hd, hdl⟩
        · rcases List.mem_cons.1 hd with rfl | hd
          · exact ⟨{ d with val := v }, by simp, hdl⟩
          · exact ⟨d, List.mem_append_right _ (List.mem_cons_of_mem _ hd), hdl⟩
    · have habs : ∀ c ∈ cells, c.key ≠ k := fun c hc hck => hmem ⟨c, hc, hck⟩
      rcases levelLoop_cases s.cut_off_ draws 0 with hsp | ⟨lev0, hlev⟩
      · rw [insert_new_spin v hrep hk habs hf hsp] at h
        cases h
      · obtain ⟨pre, post, hsplit, hpre, hpost⟩ := exists_split k cells hrep.sorted
        have hpost2 : ∀ c ∈ post, k < c.key := by
          intro c hc
          have hne : c.key ≠ k := habs c (by rw [hsplit]; exact List.mem_append_right _ hc)
          exact lt_of_le_of_ne (not_lt.1 (hpost c hc)) (Ne.symm hne)
        obtain ⟨s2, hi, hrep2, hlv, -, hml, htk, -, -, hco⟩ :=
          insert_new v hrep hsplit hpre hpost2 hk hf hlev
        rw [hi] at h
        cases h
        refine ⟨_, hrep2, ?_, by rw [hsplit]; simp; omega, hml, htk, hco⟩
        by_cases hnl : newLevel s lev0 ≤ s.levels_
        · have hl : s1.levels_ = s.levels_ := by rw [hlv]; exact max_eq_left hnl
          rcases htf with h0 | ⟨d, hd, hdl⟩
          · exact Or.inl (by rw [hl]; exact h0)
          · refine Or.inr ⟨d, ?_, by rw [hl]; exact hdl⟩
            rw [hsplit] at hd
            rcases List.mem_append.1 hd with hd | hd
            · exact List.mem_append_left _ hd
            · exact List.mem_append_right _ (List.mem_cons_of_mem _ hd)
        · have hl : s1.levels_ = newLevel s lev0 := by
            rw [hlv]; exact max_eq_right (by omega)
          exact Or.inr ⟨⟨s.heap.length, k, v, newLevel s lev0⟩, by simp, by rw [hl]⟩
  · subst hk
    obtain ⟨s2, hi, hrep2, hlv, -, hml, htk, hco⟩ := insert_tail_key_rep draws v hrep hf
    rw [hi] at h
    cases h
    refine ⟨cells, hrep2, ?_, by omega, hml, htk, hco⟩
    rcases htf with h0 | h1
    · exact Or.inl (by rw [hlv]; exact h0)
    · exact Or.inr (by rw [hlv]; exact h1)
  · have hb : insert fuel draws (k, v) s = .ret s := insert_beyond fuel draws hk
    rw [hb] at h
    cases h
    exact ⟨cells, hrep, htf, by omega, rfl, rfl, rfl⟩

/-- A call of `erase` that returns on a well-formed list returns a well-formed list,
whatever the key. -/
theorem erase_step {s s1 : SkipList K E} {cells : List (Cell K E)} {fuel : Nat}
    {the_key : K} (hrep : Rep s cells) (htf : TopFull s cells)
    (hf : cells.length < fuel) (h : erase fuel the_key s = .ret s1) :
    ∃ cells1, Rep s1 cells1 ∧ TopFull s1 cells1 ∧ cells1.length ≤ cells.length + 1 ∧
      s1.max_level_ = s.max_level_ ∧ s1.tail_key_ = s.tail_key_ ∧
      s1.cut_off_ = s.cut_off_ := by
  rcases lt_trichotomy the_key s.tail_key_ with hk | hk | hk
  · by_cases hmem : ∃ c ∈ cells, c.key = the_key
    · obtain ⟨c, hc, rfl⟩ := hmem
      obtain ⟨pre, post, rfl⟩ := List.append_of_mem hc
      obtain ⟨hspin, hret⟩ := erase_stored hrep hf
      by_cases hcond : 0 < s.levels_ ∧ chain (pre ++ post) s.levels_ = []
      · rw [hspin hcond] at h; cases h
      · obtain ⟨s2, he2, hrep2, hlv, -, hml, htk, -, -, hco, -⟩ := hret hcond
        rw [he2] at h
        cases h
        refine ⟨pre ++ post, hrep2, ?_, by simp; omega, hml, htk, hco⟩
        by_cases h0 : s.levels_ = 0
        · exact Or.inl (by rw [hlv]; exact h0)
        · have hne : chain (pre ++ post) s.levels_ ≠ [] :=
            fun hnil => hcond ⟨Nat.pos_of_ne_zero h0, hnil⟩
          obtain ⟨y, B, hyB⟩ := List.exists_cons_of_ne_nil hne
          have hy : y ∈ chain (pre ++ post) s.levels_ := by rw [hyB]; simp
          obtain ⟨d, hd, -, hdl⟩ := mem_chain hy
          exact Or.inr ⟨d, hd, by rw [hlv]; exact hdl⟩
    · have habs : ∀ c ∈ cells, c.key ≠ the_key := fun c hc hck => hmem ⟨c, hc, hck⟩
      obtain ⟨last1, he2, hlen1⟩ := erase_absent hrep hk habs hf
      rw [he2] at h
      cases h
      exact ⟨cells, rep_scratch last1 hrep hlen1, htf, by omega, rfl, rfl, rfl⟩
  · subst hk
    rw [erase_tail_key hrep hf] at h
    cases h
  · rw [erase_beyond fuel hk] at h
    cases h
    exact ⟨cells, hrep, htf, by omega, rfl, rfl, rfl⟩

theorem call_step {s s1 : SkipList K E} {cells : List (Cell K E)} {fuel : Nat}
    (c : Call K E) (hrep : Rep s cells) (htf : TopFull s cells)
    (hf : cells.length < fuel) (h : call fuel c s = .ret s1) :
    ∃ cells1, Rep s1 cells1 ∧ TopFull s1 cells1 ∧ cells1.length ≤ cells.length + 1 ∧
      s1.max_level_ = s.max_level_ ∧ s1.tail_key_ = s.tail_key_ ∧
      s1.cut_off_ = s.cut_off_ := by
  cases c with
  | insert draws the_pair => exact insert_step hrep htf hf h
  | erase the_key => exact erase_step hrep htf hf h

theorem calls_step_big {fuel : Nat} :
    ∀ (cs : List (Call K E)) {s s1 : SkipList K E} {cells : List (Cell K E)},
      Rep s cells → TopFull s cells → cells.length + cs.length < fuel →
      calls fuel cs s = .ret s1 →
      ∃ cells1, Rep s1 cells1 ∧ TopFull s1 cells1 ∧ s1.max_level_ = s.max_level_ ∧
        s1.tail_key_ = s.tail_key_ ∧ s1.cut_off_ = s.cut_off_
  | [], s, s1, cells, hrep, htf, _, h => by
    simp only [calls] at h
    cases h
    exact ⟨cells, hrep, htf, rfl, rfl, rfl⟩
  | c :: cs, s, s1, cells, hrep, htf, hf, h => by
    rw [calls] at h
    obtain ⟨s2, hc, h2⟩ := bind_eq_ret h
    have hf1 : cells.length < fuel := by simp at hf; omega
    obtain ⟨cells2, hrep2, htf2, hlen2, hml, htk, hco⟩ := call_step c hrep htf hf1 hc
    have hf2 : cells2.length + cs.length < fuel := by simp at hf; omega
    obtain ⟨cells1, hrep1, htf1, hml1, htk1, hco1⟩ := calls_step_big cs hrep2 htf2 hf2 h2
    exact ⟨cells1, hrep1, htf1, by rw [hml1, hml], by rw [htk1, htk], by rw [hco1, hco]⟩

/-- Every sequence of calls that returns on a well-formed list returns a well-formed
list, whatever the keys, the draws and the fuel. -/
theorem calls_step {fuel : Nat} (cs : List (Call K E)) {s s1 : SkipList K E}
    {cells : List (Cell K E)} (hrep : Rep s cells) (htf : TopFull s cells)
    (h : calls fuel cs s = .ret s1) :
    ∃ cells1, Rep s1 cells1 ∧ TopFull s1 cells1 ∧ s1.max_level_ = s.max_level_ ∧
      s1.tail_key_ = s.tail_key_ ∧ s1.cut_off_ = s.cut_off_ := by
  have hns : calls fuel cs s ≠ .spin := by rw [h]; simp
  have hbig := stable_le (fun f => calls f cs s) (fun f => calls_stable cs s) hns
    (Nat.le_add_right fuel (cells.length + cs.length + 1))
  simp only at hbig
  rw [h] at hbig
  exact calls_step_big cs hrep htf (by omega) hbig

/-- Every cell of a well-formed list is on a level within the bound and owns one slot per
level. -/
theorem rep_levels {s : SkipList K E} {cells : List (Cell K E)} (hrep : Rep s cells) :
    ∀ c ∈ cells, (c.lvl : Int) ≤ s.max_level_ ∧ slotsAt s.heap c.addr = some (c.lvl + 1) := by
  intro c hc
  have h1 := hrep.low c hc
  have h2 := hrep.top
  exact ⟨by omega, (hrep.stored c hc).2⟩

/-- The header slots above `levels_` point to the tail. -/
theorem rep_above {s : SkipList K E} {cells : List (Cell K E)} (hrep : Rep s cells)
    (i : Nat) (hi : s.levels_ < i) (him : (i : Int) ≤ s.max_level_) :
    readNext s.heap s.header_node_ i = .ret s.tail_node_ := by
  have hl := hrep.linked i him
  have h0 : chain cells i = [] := by
    apply chain_eq_nil_of_low
    intro c hc
    have := hrep.low c hc
    omega
  rw [h0] at hl
  exact hl

/-- The header slot at `levels_` points to a real node, unless `levels_` is 0. -/
theorem rep_top {s : SkipList K E} {cells : List (Cell K E)} (hrep : Rep s cells)
    (htf : TopFull s cells) :
    s.levels_ = 0 ∨ readNext s.heap s.header_node_ s.levels_ ≠ .ret s.tail_node_ := by
  rcases htf with h0 | ⟨c, hc, hcl⟩
  · exact Or.inl h0
  · refine Or.inr ?_
    have hl := hrep.linked s.levels_ hrep.top
    obtain ⟨y, B, hyB⟩ := List.exists_cons_of_ne_nil (chain_ne_nil hc hcl)
    rw [hyB] at hl
    have hy : y ∈ chain cells s.levels_ := by rw [hyB]; simp
    obtain ⟨d, hd, hda, -⟩ := mem_chain hy
    simp only [Linked] at hl
    rw [hl.1]
    intro h
    cases h
    exact rep_tail_not_cell hrep hd hda

/-- A list without cells has `levels_ = 0`, when the top level is never empty above 0. -/
theorem rep_empty {s : SkipList K E} {cells : List (Cell K E)} (hrep : Rep s cells)
    (htf : TopFull s cells) (h0 : s.d_size_ = 0) : s.levels_ = 0 := by
  rcases htf with h | ⟨c, hc, -⟩
  · exact h
  · have := hrep.size
    rw [h0] at this
    have hnil : cells = [] := by
      cases cells with
      | nil => rfl
      | cons a l => simp at this; omega
    rw [hnil] at hc
    cases hc

/-- When the constructor computes a negative `max_level_` the header has no slots, and a
call either changes nothing (its key is above `tail_key_`) or does not return. -/
theorem call_flat (large_key : K) (cut_off : Nat) (max_level : Int) (dflt : E)
    (hm : max_level < 0) (fuel : Nat) (c : Call K E) (s1 : SkipList K E)
    (h : call fuel c (construct large_key cut_off max_level dflt) = .ret s1) :
    s1 = construct large_key cut_off max_level dflt := by
  have hz : (max_level + 1).toNat = 0 := by omega
  have hs : ∀ the_key : K,
      (∃ r, search fuel the_key (construct large_key cut_off max_level dflt) = .ret r) →
        False := by
    intro the_key ⟨r, hr⟩
    cases fuel with
    | zero => simp [search, searchLoop, construct, advance] at hr
    | succ f =>
      simp [search, searchLoop, construct, advance, readNext, lookup, hz] at hr
  cases c with
  | insert draws the_pair =>
    simp only [call] at h
    by_cases hk : the_pair.1 > large_key
    · have hk2 : the_pair.1 > (construct large_key cut_off max_level dflt).tail_key_ := hk
      simp only [insert, if_pos hk2] at h
      cases h
      rfl
    · have hk2 : ¬ the_pair.1 > (construct large_key cut_off max_level dflt).tail_key_ := hk
      simp only [insert, if_neg hk2] at h
      obtain ⟨r, hr, -⟩ := bind_eq_ret h
      exact (hs _ ⟨r, hr⟩).elim
  | erase the_key =>
    simp only [call] at h
    by_cases hk : the_key > large_key
    · have hk2 : the_key > (construct large_key cut_off max_level dflt).tail_key_ := hk
      simp only [erase, if_pos hk2] at h
      cases h
      rfl
    · have hk2 : ¬ the_key > (construct large_key cut_off max_level dflt).tail_key_ := hk
      simp only [erase, if_neg hk2] at h
      obtain ⟨r, hr, -⟩ := bind_eq_ret h
      exact (hs _ ⟨r, hr⟩).elim

theorem calls_flat (large_key : K) (cut_off : Nat) (max_level : Int) (dflt : E)
    (hm : max_level < 0) (fuel : Nat) :
    ∀ (cs : List (Call K E)) (s1 : SkipList K E),
      calls fuel cs (construct large_key cut_off max_level dflt) = .ret s1 →
      s1 = construct large_key cut_off max_level dflt
  | [], s1, h => by
    simp only [calls] at h
    cases h
    rfl
  | c :: cs, s1, h => by
    rw [calls] at h
    obtain ⟨s2, hc, h2⟩ := bind_eq_ret h
    have := call_flat large_key cut_off max_level dflt hm fuel c s2 hc
    rw [this] at h2
    exact calls_flat large_key cut_off max_level dflt hm fuel cs s1 h2

/-- Whenever `erase` with the loop run as written returns, `erase` with the loop left out
returns the same list. -/
theorem eraseElided_of_ret {fuel : Nat} {the_key : K} {s s1 : SkipList K E}
    (h : erase fuel the_key s = .ret s1) : eraseElided fuel the_key s = .ret s1 := by
  unfold erase at h
  unfold eraseElided
  by_cases hg : the_key > s.tail_key_
  · rw [if_pos hg] at h ⊢
    exact h
  · rw [if_neg hg] at h ⊢
    obtain ⟨r, hr, h⟩ := bind_eq_ret h
    rw [hr, bind_ret]
    obtain ⟨k, hk, h⟩ := bind_eq_ret h
    simp only [] at hk h ⊢
    rw [hk, bind_ret]
    by_cases hne : k ≠ the_key
    · rw [if_pos hne] at h ⊢
      exact h
    · rw [if_neg hne] at h ⊢
      obtain ⟨heap1, hu, h⟩ := bind_eq_ret h
      rw [hu, bind_ret]
      obtain ⟨s2, hs2, h⟩ := bind_eq_ret h
      have := shrinkLoop_ret _ _ _ hs2
      subst this
      exact h

theorem eraseElided_stable {the_key : K} {s : SkipList K E} (fuel : Nat)
    (h : eraseElided fuel the_key s ≠ .spin) :
    eraseElided (fuel + 1) the_key s = eraseElided fuel the_key s := by
  unfold eraseElided at h ⊢
  by_cases hg : the_key > s.tail_key_
  · simp [hg]
  · simp only [if_neg hg] at h ⊢
    exact bind_stable h (search_stable fuel) (fun _ _ _ => rfl)

/-- What `erase` with the loop left out does with a stored key on a well-formed list: it
returns the well-formed list without the cell, with `levels_` as before; so when the cell
was the only one on the top level, the header slot at `levels_` points to the tail
afterwards. -/
theorem eraseElided_stored {s : SkipList K E} {pre post : List (Cell K E)} {c : Cell K E}
    {fuel : Nat} (hrep : Rep s (pre ++ c :: post)) (hf : (pre ++ c :: post).length < fuel) :
    ∃ s1, eraseElided fuel c.key s = .ret s1 ∧ Rep s1 (pre ++ post) ∧
      s1.levels_ = s.levels_ ∧ s1.d_size_ = s.d_size_ - 1 ∧
      s1.max_level_ = s.max_level_ ∧ s1.tail_key_ = s.tail_key_ ∧
      s1.cut_off_ = s.cut_off_ ∧
      (chain (pre ++ post) s.levels_ = [] →
        readNext s1.heap s1.header_node_ s1.levels_ = .ret s1.tail_node_) := by
  obtain ⟨h1, h2⟩ := sorted_around hrep.sorted
  have hck := hrep.below c (by simp)
  have hst := hrep.stored c (by simp)
  obtain ⟨last1, hsearch, hlen1, hlast1, -⟩ :=
    search_spec hrep rfl h1 h2 (not_lt_of_lt hck) hf
  have hfirst : firstOr (chain (c :: post) 0) s.tail_node_ = c.addr := by
    simp [chain_cons, firstOr]
  rw [hfirst] at hsearch
  have hg : ¬ (c.key > s.tail_key_) := not_lt_of_lt hck
  have hkey := keyAt_of_elemAt hst.1
  obtain ⟨heap1, hu, hlen, he, hs, hlinked⟩ := rep_unlink last1 hrep hlast1
  obtain ⟨nd, hnd, -, -⟩ := deref_of_elemAt (by rw [he]; exact hst.1 :
    elemAt heap1 c.addr = some (c.key, c.val))
  have hrep1 := rep_delete hrep hlen1 hlen he hs hlinked
  refine ⟨{ s with
      last_ := last1,
      heap := (heap1.set c.addr none),
      d_size_ := s.d_size_ - 1 }, ?_, hrep1, rfl, rfl, rfl, rfl, rfl, ?_⟩
  · unfold eraseElided
    simp only [hg, if_false, hsearch, bind_ret, hkey, ne_eq, not_true_eq_false, hu, hnd]
  · intro hnil
    have hl := hrep1.linked s.levels_ hrep.top
    rw [hnil] at hl
    exact hl

end Step

/-! ## The accesses of the descent are within bounds -/

section LogGeneric

variable {K E : Type}

theorem bind_bind {α β γ : Type} (o : Outcome α) (f : α → Outcome β) (g : β → Outcome γ) :
    (o.bind f).bind g = o.bind fun a => (f a).bind g := by
  cases o <;> rfl

end LogGeneric

section LogLemmas

variable {K E : Type} [LinearOrder K]

/-- Forgetting the accesses of `advanceLog` gives `advance`. -/
theorem advanceLog_fst (heap : Heap K E) (the_key : K) (i : Nat) :
    ∀ (fuel before_node : Nat),
      ((advanceLog heap the_key i fuel before_node).bind fun r => .ret r.1)
        = advance heap the_key i fuel before_node
  | 0, _ => rfl
  | fuel + 1, b => by
    simp only [advanceLog, advance, bind_bind]
    congr 1
    funext nx
    congr 1
    funext k
    by_cases hk : k < the_key
    · simp only [if_pos hk, bind_bind, bind_ret]
      exact advanceLog_fst heap the_key i fuel nx
    · simp only [if_neg hk, bind_ret]

/-- Forgetting the accesses of `findLoopLog` gives `findLoop`. -/
theorem findLoopLog_fst (fuel : Nat) (heap : Heap K E) (the_key : K) :
    ∀ (n before_node : Nat),
      ((findLoopLog fuel heap the_key n before_node).bind fun r => .ret r.1)
        = findLoop fuel heap the_key n before_node
  | 0, _ => rfl
  | i + 1, b => by
    simp only [findLoopLog, findLoop, bind_bind, bind_ret]
    rw [← advanceLog_fst heap the_key i fuel b, bind_bind]
    congr 1
    funext r
    rw [bind_ret]
    exact findLoopLog_fst fuel heap the_key i r.1

/-- Forgetting the accesses of `findLog` gives `find`. -/
theorem findLog_fst (fuel : Nat) (the_key : K) (s : SkipList K E) :
    ((findLog fuel the_key s).bind fun r => .ret r.1) = find fuel the_key s := by
  unfold findLog find
  by_cases hk : the_key > s.tail_key_
  · simp only [if_pos hk, bind_ret]
  · simp only [if_neg hk, bind_bind]
    rw [← findLoopLog_fst fuel s.heap the_key (s.levels_ + 1) s.header_node_, bind_bind]
    congr 1
    funext r
    rw [bind_ret]
    congr 1
    funext nx
    congr 1
    funext k
    by_cases h : k = the_key <;> simp [h]

/-- Forgetting the accesses of `searchLoopLog` gives `searchLoop`. -/
theorem searchLoopLog_fst (fuel : Nat) (heap : Heap K E) (the_key : K) :
    ∀ (n before_node : Nat) (last : List (Option Nat)),
      ((searchLoopLog fuel heap the_key n before_node last).bind fun r => .ret r.1)
        = searchLoop fuel heap the_key n before_node last
  | 0, _, _ => rfl
  | i + 1, b, last => by
    simp only [searchLoopLog, searchLoop, bind_bind, bind_ret]
    rw [← advanceLog_fst heap the_key i fuel b, bind_bind]
    congr 1
    funext r
    rw [bind_ret]
    congr 1
    funext last1
    exact searchLoopLog_fst fuel heap the_key i r.1 last1

/-- Forgetting the accesses of `searchLog` gives `search`. -/
theorem searchLog_fst (fuel : Nat) (the_key : K) (s : SkipList K E) :
    ((searchLog fuel the_key s).bind fun r => .ret r.1) = search fuel the_key s := by
  unfold searchLog search
  simp only [bind_bind]
  rw [← searchLoopLog_fst fuel s.heap the_key (s.levels_ + 1) s.header_node_ s.last_,
    bind_bind]
  congr 1

/-- The accesses of the inner loop along a chain are reads of level-`i` slots of the
nodes it passes. -/
theorem advanceLog_spec {heap : Heap K E} {the_key : K} {i : Nat} :
    ∀ {B : List Nat} {p : Nat} {R : List Nat} {q : Nat} {fuel : Nat},
      Linked heap i p (B ++ R) q →
      (∀ a ∈ B, ∃ k, keyAt heap a = .ret k ∧ k < the_key) →
      (∃ k, keyAt heap (firstOr R q) = .ret k ∧ ¬ k < the_key) →
      B.length < fuel →
      ∃ log, advanceLog heap the_key i fuel p = .ret (lastFrom p B, log) ∧
        ∀ a ∈ log, ∃ x ∈ p :: B, a = Access.slot x i
  | [], p, R, q, 0, _, _, _, hf => by simp at hf
  | [], p, R, q, fuel + 1, hl, _, ⟨k, hk, hnk⟩, _ => by
    have h1 := linked_first (by simpa using hl : Linked heap i p R q)
    refine ⟨[Access.slot p i], by simp [advanceLog, h1, hk, hnk, lastFrom], ?_⟩
    intro a ha
    exact ⟨p, by simp, by simpa using ha⟩
  | a :: B, p, R, q, 0, _, _, _, hf => by simp at hf
  | a :: B, p, R, q, fuel + 1, hl, hB, hR, hf => by
    rw [List.cons_append] at hl
    simp only [Linked] at hl
    obtain ⟨k, hk, hlt⟩ := hB a (by simp)
    have hf2 : B.length < fuel := by simpa using hf
    obtain ⟨log, ih, hlog⟩ :=
      advanceLog_spec hl.2 (fun b hb => hB b (List.mem_cons_of_mem _ hb)) hR hf2
    refine ⟨Access.slot p i :: Access.slot p i :: log,
      by simp [advanceLog, hl.1, hk, hlt, ih, lastFrom], ?_⟩
    intro x hx
    rcases List.mem_cons.1 hx with rfl | hx
    · exact ⟨p, by simp, rfl⟩
    · rcases List.mem_cons.1 hx with rfl | hx
      · exact ⟨p, by simp, rfl⟩
      · obtain ⟨y, hy, rfl⟩ := hlog x hx
        exact ⟨y, List.mem_cons_of_mem _ hy, rfl⟩

/-- A read of a level-`i` slot of the header or of a node of the level-`i` chain is
within bounds. -/
theorem safe_slot {s : SkipList K E} {cells : List (Cell K E)} (hrep : Rep s cells)
    {i x : Nat} (hi : (i : Int) ≤ s.max_level_)
    (hx : x = s.header_node_ ∨ x ∈ chain cells i) :
    SafeAccess s cells (Access.slot x i) := by
  rcases hx with rfl | hx
  · exact ⟨hrep.distinct, Or.inl ⟨rfl, hi⟩⟩
  · obtain ⟨c, hc, rfl, hl⟩ := mem_chain hx
    exact ⟨rep_tail_not_cell hrep hc, Or.inr ⟨c, hc, rfl, hl⟩⟩

/-- One level of the descent on a well-formed list, with its accesses. -/
theorem advanceLog_level {s : SkipList K E} {cells pre post : List (Cell K E)} {the_key : K}
    {fuel : Nat} (hrep : Rep s cells) (hsplit : cells = pre ++ post)
    (hpre : ∀ c ∈ pre, c.key < the_key) (hpost : ∀ c ∈ post, ¬ c.key < the_key)
    (hk : ¬ s.tail_key_ < the_key) (hf : cells.length < fuel) (i : Nat)
    (hi : (i : Int) ≤ s.max_level_) :
    ∃ log, advanceLog s.heap the_key i fuel (lastFrom s.header_node_ (chain pre (i + 1)))
        = .ret (lastFrom s.header_node_ (chain pre i), log) ∧
      (∀ a ∈ log, SafeAccess s cells a) ∧ ∀ a ∈ log, ∀ j, a ≠ Access.scratch j := by
  obtain ⟨A, B, hAB, hA⟩ := chain_split_above pre i s.header_node_
  have hl := hrep.linked i hi
  rw [hsplit, chain_append, hAB, List.append_assoc] at hl
  have hl2 := linked_drop hl
  rw [hA] at hl2
  have hB : ∀ a ∈ B, ∃ k, keyAt s.heap a = .ret k ∧ k < the_key := by
    intro a ha
    have ha2 : a ∈ chain pre i := by rw [hAB]; exact List.mem_append_right _ ha
    obtain ⟨c, hc, rfl, _⟩ := mem_chain ha2
    have hst := hrep.stored c (by rw [hsplit]; exact List.mem_append_left _ hc)
    exact ⟨c.key, keyAt_of_elemAt hst.1, hpre c hc⟩
  have hR : ∃ k, keyAt s.heap (firstOr (chain post i) s.tail_node_) = .ret k ∧ ¬ k < the_key := by
    cases hp : chain post i with
    | nil =>
      obtain ⟨v, hv⟩ := hrep.tail.1
      exact ⟨s.tail_key_, by simpa [firstOr] using keyAt_of_elemAt hv, hk⟩
    | cons y R =>
      have hy : y ∈ chain post i := by rw [hp]; simp
      obtain ⟨c, hc, rfl, _⟩ := mem_chain hy
      have hst := hrep.stored c (by rw [hsplit]; exact List.mem_append_right _ hc)
      exact ⟨c.key, by simpa [firstOr] using keyAt_of_elemAt hst.1, hpost c hc⟩
  have hlen : B.length < fuel := by
    have h1 := chain_length_le pre i
    rw [hAB] at h1
    have h2 : pre.length ≤ cells.length := by rw [hsplit]; simp
    simp at h1
    omega
  obtain ⟨log, h1, h2⟩ := advanceLog_spec hl2 hB hR hlen
  refine ⟨log, by rw [h1, hAB, lastFrom_append, hA], ?_, ?_⟩
  swap
  · intro a ha j
    obtain ⟨x, -, rfl⟩ := h2 a ha
    simp
  intro a ha
  obtain ⟨x, hx, rfl⟩ := h2 a ha
  apply safe_slot hrep hi
  have hsub : ∀ y ∈ chain pre i, y ∈ chain cells i := by
    intro y hy
    rw [hsplit, chain_append]
    exact List.mem_append_left _ hy
  rcases List.mem_cons.1 hx with rfl | hx
  · rw [← hA]
    rcases List.mem_cons.1 (lastFrom_mem s.header_node_ A) with h | h
    · exact Or.inl h
    · exact Or.inr (hsub _ (by rw [hAB]; exact List.mem_append_left _ h))
  · exact Or.inr (hsub _ (by rw [hAB]; exact List.mem_append_right _ hx))

theorem searchLoopLog_spec {s : SkipList K E} {cells pre post : List (Cell K E)}
    {the_key : K} {fuel : Nat} (hrep : Rep s cells) (hsplit : cells = pre ++ post)
    (hpre : ∀ c ∈ pre, c.key < the_key) (hpost : ∀ c ∈ post, ¬ c.key < the_key)
    (hk : ¬ s.tail_key_ < the_key) (hf : cells.length < fuel) :
    ∀ (n : Nat), n ≤ s.levels_ + 1 → ∀ (last : List (Option Nat)),
      (last.length : Int) = s.max_level_ + 1 →
      ∃ last1 log,
        searchLoopLog fuel s.heap the_key n (lastFrom s.header_node_ (chain pre n)) last
          = .ret ((lastFrom s.header_node_ (chain pre 0), last1), log) ∧
        ∀ a ∈ log, SafeAccess s cells a
  | 0, _, last, _ => ⟨last, [], by simp [searchLoopLog], by simp⟩
  | i + 1, hn, last, hlast => by
    have htop := hrep.top
    have hi : (i : Int) ≤ s.max_level_ := by omega
    have hil : i < last.length := by omega
    obtain ⟨log1, hadv, hsafe1, -⟩ := advanceLog_level hrep hsplit hpre hpost hk hf i hi
    obtain ⟨last2, log2, h1, hsafe2⟩ :=
      searchLoopLog_spec hrep hsplit hpre hpost hk hf i (by omega)
        (last.set i (some (lastFrom s.header_node_ (chain pre i)))) (by simpa using hlast)
    refine ⟨last2, log1 ++ Access.scratch i :: log2, ?_, ?_⟩
    · simp [searchLoopLog, hadv, writeLast, hil, h1]
    · intro a ha
      rcases List.mem_append.1 ha with ha | ha
      · exact hsafe1 a ha
      · rcases List.mem_cons.1 ha with rfl | ha
        · exact hi
        · exact hsafe2 a ha

theorem findLoopLog_spec {s : SkipList K E} {cells pre post : List (Cell K E)}
    {the_key : K} {fuel : Nat} (hrep : Rep s cells) (hsplit : cells = pre ++ post)
    (hpre : ∀ c ∈ pre, c.key < the_key) (hpost : ∀ c ∈ post, ¬ c.key < the_key)
    (hk : ¬ s.tail_key_ < the_key) (hf : cells.length < fuel) :
    ∀ (n : Nat), n ≤ s.levels_ + 1 →
      ∃ log,
        findLoopLog fuel s.heap the_key n (lastFrom s.header_node_ (chain pre n))
          = .ret (lastFrom s.header_node_ (chain pre 0), log) ∧
        (∀ a ∈ log, SafeAccess s cells a) ∧ ∀ a ∈ log, ∀ j, a ≠ Access.scratch j
  | 0, _ => ⟨[], by simp [findLoopLog], by simp, by simp⟩
  | i + 1, hn => by
    have htop := hrep.top
    have hi : (i : Int) ≤ s.max_level_ := by omega
    obtain ⟨log1, hadv, hsafe1, hno1⟩ := advanceLog_level hrep hsplit hpre hpost hk hf i hi
    obtain ⟨log2, h1, hsafe2, hno2⟩ :=
      findLoopLog_spec hrep hsplit hpre hpost hk hf i (by omega)
    refine ⟨log1 ++ log2, by simp [findLoopLog, hadv, h1], ?_, ?_⟩
    · intro a ha
      rcases List.mem_append.1 ha with ha | ha
      · exact hsafe1 a ha
      · exact hsafe2 a ha
    · intro a ha
      rcases List.mem_append.1 ha with ha | ha
      · exact hno1 a ha
      · exact hno2 a ha

/-- On a well-formed list `search` returns, for a key not above `tail_key_`, and all its
accesses are within bounds. -/
theorem searchLog_spec {s : SkipList K E} {cells : List (Cell K E)}
    {the_key : K} {fuel : Nat} (hrep : Rep s cells)
    (hk : ¬ s.tail_key_ < the_key) (hf : cells.length < fuel) :
    ∃ r log, searchLog fuel the_key s = .ret (r, log) ∧ search fuel the_key s = .ret r ∧
      ∀ a ∈ log, SafeAccess s cells a := by
  obtain ⟨pre, post, hsplit, hpre, hpost⟩ := exists_split the_key cells hrep.sorted
  have h0 : chain pre (s.levels_ + 1) = [] := by
    apply chain_eq_nil_of_low
    intro c hc
    have := hrep.low c (by rw [hsplit]; exact List.mem_append_left _ hc)
    omega
  obtain ⟨last1, log, h1, hsafe⟩ := searchLoopLog_spec hrep hsplit hpre hpost hk hf
    (s.levels_ + 1) (le_refl _) s.last_ hrep.scratch
  rw [h0] at h1
  have htop := hrep.top
  have hl := hrep.linked 0 (by omega)
  rw [hsplit, chain_append] at hl
  have hnx := linked_first (linked_drop hl)
  simp only [lastFrom] at h1
  have hlog : searchLog fuel the_key s
      = .ret ((firstOr (chain post 0) s.tail_node_, { s with last_ := last1 }),
          log ++ [Access.slot (lastFrom s.header_node_ (chain pre 0)) 0]) := by
    simp [searchLog, h1, hnx]
  refine ⟨_, _, hlog, ?_, ?_⟩
  · rw [← searchLog_fst, hlog, bind_ret]
  · intro a ha
    rcases List.mem_append.1 ha with ha | ha
    · exact hsafe a ha
    · rw [List.mem_singleton] at ha
      subst ha
      apply safe_slot hrep (by omega)
      rcases List.mem_cons.1 (lastFrom_mem s.header_node_ (chain pre 0)) with h | h
      · exact Or.inl h
      · refine Or.inr ?_
        rw [hsplit, chain_append]
        exact List.mem_append_left _ h

/-- On a well-formed list `find` returns, for a key not above `tail_key_`; all its
accesses are within bounds and none of them is a write of the scratch array. -/
theorem findLog_spec {s : SkipList K E} {cells : List (Cell K E)}
    {the_key : K} {fuel : Nat} (hrep : Rep s cells)
    (hk : ¬ s.tail_key_ < the_key) (hf : cells.length < fuel) :
    ∃ r log, findLog fuel the_key s = .ret (r, log) ∧ find fuel the_key s = .ret r ∧
      (∀ a ∈ log, SafeAccess s cells a) ∧ ∀ a ∈ log, ∀ j, a ≠ Access.scratch j := by
  obtain ⟨pre, post, hsplit, hpre, hpost⟩ := exists_split the_key cells hrep.sorted
  have h0 : chain pre (s.levels_ + 1) = [] := by
    apply chain_eq_nil_of_low
    intro c hc
    have := hrep.low c (by rw [hsplit]; exact List.mem_append_left _ hc)
    omega
  obtain ⟨log, h1, hsafe, hno⟩ := findLoopLog_spec hrep hsplit hpre hpost hk hf
    (s.levels_ + 1) (le_refl _)
  rw [h0] at h1
  have htop := hrep.top
  have hl := hrep.linked 0 (by omega)
  rw [hsplit, chain_append] at hl
  have hnx := linked_first (linked_drop hl)
  simp only [lastFrom] at h1
  obtain ⟨k1, v1, hel, -⟩ := landing_elem hrep hsplit hpost hk
  have hkey := keyAt_of_elemAt hel
  have hk2 : ¬ the_key > s.tail_key_ := hk
  have hs0 : SafeAccess s cells (Access.slot (lastFrom s.header_node_ (chain pre 0)) 0) := by
    apply safe_slot hrep (by omega)
    rcases List.mem_cons.1 (lastFrom_mem s.header_node_ (chain pre 0)) with h | h
    · exact Or.inl h
    · refine Or.inr ?_
      rw [hsplit, chain_append]
      exact List.mem_append_left _ h
  by_cases heq : k1 = the_key
  · have hlog : findLog fuel the_key s
        = .ret (some (firstOr (chain post 0) s.tail_node_),
            log ++ [Access.slot (lastFrom s.header_node_ (chain pre 0)) 0,
              Access.slot (lastFrom s.header_node_ (chain pre 0)) 0]) := by
      simp [findLog, hk2, h1, hnx, hkey, heq]
    refine ⟨_, _, hlog, ?_, ?_, ?_⟩
    · rw [← findLog_fst, hlog, bind_ret]
    · intro a ha
      rcases List.mem_append.1 ha with ha | ha
      · exact hsafe a ha
      · simp only [List.mem_cons, List.mem_singleton, List.not_mem_nil, or_false,
          or_self] at ha
        subst ha
        exact hs0
    · intro a ha
      rcases List.mem_append.1 ha with ha | ha
      · exact hno a ha
      · simp only [List.mem_cons, List.mem_singleton, List.not_mem_nil, or_false,
          or_self] at ha
        subst ha
        simp
  · have hlog : findLog fuel the_key s
        = .ret (none, log ++ [Access.slot (lastFrom s.header_node_ (chain pre 0)) 0]) := by
      simp [findLog, hk2, h1, hnx, hkey, heq]
    refine ⟨_, _, hlog, ?_, ?_, ?_⟩
    · rw [← findLog_fst, hlog, bind_ret]
    · intro a ha
      rcases List.mem_append.1 ha with ha | ha
      · exact hsafe a ha
      · rw [List.mem_singleton] at ha
        subst ha
        exact hs0
    · intro a ha
      rcases List.mem_append.1 ha with ha | ha
      · exact hno a ha
      · rw [List.mem_singleton] at ha
        subst ha
        simp

end LogLemmas

/-! ## Two inserts of one key -/

section Twice

variable {K E : Type} [LinearOrder K]

theorem key_once {pre post : List (Cell K E)} {c : Cell K E}
    (hs : (pre ++ c :: post).Pairwise fun a b => a.key < b.key) :
    (((pre ++ c :: post).map fun d => (d.key, d.val)).filter
      fun e => decide (e.1 = c.key)) = [(c.key, c.val)] := by
  have hs2 := hs
  rw [List.pairwise_append, List.pairwise_cons] at hs2
  obtain ⟨_, ⟨h2, _⟩, h3⟩ := hs2
  have hpre : (pre.map fun d => (d.key, d.val)).filter (fun e => decide (e.1 = c.key)) = [] := by
    rw [List.filter_eq_nil_iff]
    intro e he
    obtain ⟨d, hd, rfl⟩ := List.mem_map.1 he
    simpa using ne_of_lt (h3 d hd c (by simp))
  have hpost : (post.map fun d => (d.key, d.val)).filter (fun e => decide (e.1 = c.key)) = [] := by
    rw [List.filter_eq_nil_iff]
    intro e he
    obtain ⟨d, hd, rfl⟩ := List.mem_map.1 he
    simpa using ne_of_gt (h2 d hd)
  rw [List.map_append, List.filter_append, hpre, List.map_cons, List.filter_cons, hpost]
  simp

/-- What holds of a well-formed list in which `c` is a cell. -/
theorem stored_once {s : SkipList K E} {pre post : List (Cell K E)} {c : Cell K E}
    {fuel : Nat} (hrep : Rep s (pre ++ c :: post)) (hf : (pre ++ c :: post).length < fuel) :
    findElement fuel c.key s = .ret (some (c.key, c.val)) ∧
      ∃ es, levelElems fuel s 0 = .ret es ∧
        (es.filter fun e => decide (e.1 = c.key)).length = 1 := by
  refine ⟨(find_hit hrep hf).2, _, levelElems_zero hrep hf, ?_⟩
  rw [key_once hrep.sorted]
  rfl

theorem insert_twice {s : SkipList K E} {cells : List (Cell K E)} {k : K} (v1 v2 : E)
    {fuel : Nat} {draws1 : List Nat} (draws2 : List Nat)
    (hrep : Rep s cells) (hk : k < s.tail_key_)
    (hd : ∃ d ∈ draws1, s.cut_off_ < d) (hf : cells.length + 1 < fuel) :
    ∃ s1 s2, insert fuel draws1 (k, v1) s = .ret s1 ∧
      insert fuel draws2 (k, v2) s1 = .ret s2 ∧
      s2.d_size_ = s1.d_size_ ∧
      findElement fuel k s2 = .ret (some (k, v2)) ∧
      ∃ es, levelElems fuel s2 0 = .ret es ∧
        (es.filter fun e => decide (e.1 = k)).length = 1 := by
  by_cases hmem : ∃ c ∈ cells, c.key = k
  · obtain ⟨c, hc, rfl⟩ := hmem
    obtain ⟨pre, post, rfl⟩ := List.append_of_mem hc
    have hlen0 : (pre ++ c :: post).length < fuel := by omega
    obtain ⟨s1, hi1, hrep1, -⟩ := insert_overwrite v1 draws1 hrep hlen0
    have hlen1 : (pre ++ { c with val := v1 } :: post).length < fuel := by
      simp only [List.length_append, List.length_cons] at hf ⊢; omega
    obtain ⟨s2, hi2, hrep2, -, hsz, -⟩ :=
      insert_overwrite (c := { c with val := v1 }) v2 draws2 hrep1 hlen1
    have hlen2 : (pre ++ { c with val := v2 } :: post).length < fuel := by
      simp only [List.length_append, List.length_cons] at hf ⊢; omega
    exact ⟨s1, s2, hi1, hi2, hsz, stored_once (c := { c with val := v2 }) hrep2 hlen2⟩
  · obtain ⟨pre, post, hsplit, hpre, hpost⟩ := exists_split k cells hrep.sorted
    have hpost2 : ∀ c ∈ post, k < c.key := by
      intro c hc
      have hne : c.key ≠ k := fun h =>
        hmem ⟨c, by rw [hsplit]; exact List.mem_append_right _ hc, h⟩
      exact lt_of_le_of_ne (not_lt.1 (hpost c hc)) (Ne.symm hne)
    obtain ⟨lev0, hlev⟩ := levelLoop_ret s.cut_off_ draws1 0 hd
    have hlen0 : cells.length < fuel := by omega
    obtain ⟨s1, hi1, hrep1, -⟩ := insert_new v1 hrep hsplit hpre hpost2 hk hlen0 hlev
    have hlen : cells.length = pre.length + post.length := by rw [hsplit]; simp
    have hlen1 : ∀ c : Cell K E, (pre ++ c :: post).length < fuel := by
      intro c
      simp only [List.length_append, List.length_cons]; omega
    obtain ⟨s2, hi2, hrep2, -, hsz, -⟩ := insert_overwrite v2 draws2 hrep1 (hlen1 _)
    exact ⟨s1, s2, hi1, hi2, hsz,
      stored_once (c := ⟨s.heap.length, k, v2, newLevel s lev0⟩) hrep2 (hlen1 _)⟩

end Twice

/-! ## The example lists are well formed -/

section ExampleLemmas

theorem emptyList_rep : Rep emptyList [] :=
  construct_rep 1000 5 1 0 (by decide)

theorem tallList_eq : insert 3 [3, 9] (1, 11) emptyList = .ret tallList := by decide

theorem tallList_rep : Rep tallList [⟨2, 1, 11, 1⟩] := by
  have hk : (1 : Nat) < emptyList.tail_key_ := by decide
  have hl : levelLoop emptyList.cut_off_ [3, 9] 0 = .ret 1 := by decide
  have hf : ([] : List (Cell Nat Nat)).length < 3 := by decide
  have hs : ([] : List (Cell Nat Nat)) = [] ++ [] := rfl
  have hpre : ∀ c ∈ ([] : List (Cell Nat Nat)), c.key < 1 := by simp
  have hpost : ∀ c ∈ ([] : List (Cell Nat Nat)), 1 < c.key := by simp
  obtain ⟨s1, h, hrep, -⟩ := insert_new 11 emptyList_rep hs hpre hpost hk hf hl
  rw [tallList_eq] at h
  cases h
  exact hrep

theorem pairList_eq : insert 3 [9] (2, 22) tallList = .ret pairList := by decide

theorem pairList_rep : Rep pairList [⟨2, 1, 11, 1⟩, ⟨3, 2, 22, 0⟩] := by
  have hk : (2 : Nat) < tallList.tail_key_ := by decide
  have hl : levelLoop tallList.cut_off_ [9] 0 = .ret 0 := by decide
  have hf : ([⟨2, 1, 11, 1⟩] : List (Cell Nat Nat)).length < 3 := by decide
  have hs : ([⟨2, 1, 11, 1⟩] : List (Cell Nat Nat)) = [⟨2, 1, 11, 1⟩] ++ [] := rfl
  have hpre : ∀ c ∈ ([⟨2, 1, 11, 1⟩] : List (Cell Nat Nat)), c.key < 2 := by simp
  have hpost : ∀ c ∈ ([] : List (Cell Nat Nat)), 2 < c.key := by simp
  obtain ⟨s1, h, hrep, -⟩ := insert_new 22 tallList_rep hs hpre hpost hk hf hl
  rw [pairList_eq] at h
  cases h
  exact hrep

theorem stackList_eq :
    calls 3 [.insert [0, 8] (5, 50), .insert [0, 0, 0, 8] (8, 80)] (construct 100 3 3 0)
      = .ret stackList := by decide

theorem stackList_wf : WellFormed stackList := by
  obtain ⟨cells, hrep, -⟩ :=
    calls_step _ (construct_rep (100 : Nat) 3 3 (0 : Nat) (by decide)) (Or.inl rfl) stackList_eq
  exact ⟨cells, hrep⟩

theorem ridgeList_eq :
    calls 4 [.insert [8] (3, 30), .insert [0, 8] (6, 60), .insert [8] (9, 90)]
      (construct 100 3 3 0) = .ret ridgeList := by decide

theorem ridgeList_wf : WellFormed ridgeList := by
  obtain ⟨cells, hrep, -⟩ :=
    calls_step _ (construct_rep (100 : Nat) 3 3 (0 : Nat) (by decide)) (Or.inl rfl) ridgeList_eq
  exact ⟨cells, hrep⟩

end ExampleLemmas

/-! ## The claims -/

section Claims

variable {K E : Type} [LinearOrder K]

/-- C1 (find after a sequence of calls).  The claim asks that after every sequence of
`insert` and `erase` calls on a fresh list `find(k)` returns `(k, v)` when the last call
on `k` was `insert(k, v)`.  On the empty list with two levels the sequence
`insert(1, 11)` (node on levels 0 and 1), `insert(2, 22)` (node on level 0), `erase(1)`
never comes to an end, whatever the fuel: after the unlink the header slot of level 1
points to the tail while `levels_` is 1, and the loop `while (...) { levels_; }` changes
nothing.  So `find(2)` is never reached, although the last call on key 2 is
`insert(2, 22)`. -/
theorem find_after_calls_never_reached (fuel : Nat) :
    calls fuel [.insert [3, 9] (1, 11), .insert [9] (2, 22), .erase 1] emptyList = .spin :=
  calls_hang [.insert [3, 9] (1, 11), .insert [9] (2, 22)] [] 3
    (by decide) (by decide) (by decide) fuel

/-- C2 (overwrite, not duplicate).  On a well-formed list, for a key below `tail_key_`:
`insert(k, v1)` followed by `insert(k, v2)` both return (the first one needs a draw above
`cut_off_` to end `level`), the second one leaves `d_size_` as the first one left it,
`find(k)` then returns the pair `(k, v2)`, and the level-0 chain from the header to the
tail holds exactly one pair with key `k`. -/
theorem insert_same_key_twice {s : SkipList K E} {cells : List (Cell K E)} {k : K}
    (v1 v2 : E) {fuel : Nat} {draws1 : List Nat} (draws2 : List Nat)
    (hrep : Rep s cells) (hk : k < s.tail_key_)
    (hd : ∃ d ∈ draws1, s.cut_off_ < d) (hf : cells.length + 1 < fuel) :
    ∃ s1 s2, insert fuel draws1 (k, v1) s = .ret s1 ∧
      insert fuel draws2 (k, v2) s1 = .ret s2 ∧
      s2.d_size_ = s1.d_size_ ∧
      findElement fuel k s2 = .ret (some (k, v2)) ∧
      ∃ es, levelElems fuel s2 0 = .ret es ∧
        (es.filter fun e => decide (e.1 = k)).length = 1 :=
  insert_twice v1 v2 draws2 hrep hk hd hf

/-- Witness for C2: the key 2 inserted twice into the one-node list `tallList`. -/
theorem insert_same_key_twice_witness :
    Rep tallList [⟨2, 1, 11, 1⟩] ∧ (2 : Nat) < tallList.tail_key_ ∧
    (∃ d ∈ [9], tallList.cut_off_ < d) ∧
    ([⟨2, 1, 11, 1⟩] : List (Cell Nat Nat)).length + 1 < 3 ∧
    ∃ s1 s2, insert 3 [9] (2, 22) tallList = .ret s1 ∧
      insert 3 [] (2, 23) s1 = .ret s2 ∧
      s2.d_size_ = s1.d_size_ ∧
      findElement 3 2 s2 = .ret (some (2, 23)) ∧
      ∃ es, levelElems 3 s2 0 = .ret es ∧
        (es.filter fun e => decide (e.1 = 2)).length = 1 :=
  ⟨tallList_rep, by decide, ⟨9, by simp, by decide⟩, by decide,
    insert_same_key_twice 22 23 [] tallList_rep (by decide) ⟨9, by simp, by decide⟩
      (by decide)⟩

/-- C3 (round trip).  The claim asks that `find(k)` returns `v` after `insert(k, v)` and
not-found after a following `erase(k)`.  The empty list is well formed; `insert(1, 11)`
with the draws 3 and 9 returns `tallList`, where `find(1)` returns `(1, 11)`; but
`erase(1)` on `tallList` does not return for any fuel: it spins in its last loop, so the
second `find` is never reached. -/
theorem erase_after_insert_hangs :
    WellFormed emptyList ∧ insert 3 [3, 9] (1, 11) emptyList = .ret tallList ∧
    findElement 3 1 tallList = .ret (some (1, 11)) ∧
    ∀ fuel, erase fuel 1 tallList = .spin :=
  ⟨⟨[], emptyList_rep⟩, by decide, by decide,
    fun fuel => erase_hang 3 (by decide) (by decide) fuel⟩

/-- C4 (erase of an absent key).  On a well-formed list, `erase(k)` for a key below
`tail_key_` that no cell holds returns, and the list it returns differs from the list
before in the scratch array `last_` at most: `d_size_`, `levels_` and the whole free
store (every node with its key, value and links) are the same. -/
theorem erase_absent_key_changes_scratch_only {s : SkipList K E} {cells : List (Cell K E)}
    {the_key : K} {fuel : Nat} (hrep : Rep s cells) (hk : the_key < s.tail_key_)
    (habs : ∀ c ∈ cells, c.key ≠ the_key) (hf : cells.length < fuel) :
    ∃ last1, erase fuel the_key s = .ret { s with last_ := last1 } ∧
      last1.length = s.last_.length :=
  erase_absent hrep hk habs hf

/-- Witness for C4: `erase(7)` on the two-node list `pairList`, which holds 1 and 2. -/
theorem erase_absent_key_changes_scratch_only_witness :
    Rep pairList [⟨2, 1, 11, 1⟩, ⟨3, 2, 22, 0⟩] ∧ (7 : Nat) < pairList.tail_key_ ∧
    (∀ c ∈ ([⟨2, 1, 11, 1⟩, ⟨3, 2, 22, 0⟩] : List (Cell Nat Nat)), c.key ≠ 7) ∧
    ([⟨2, 1, 11, 1⟩, ⟨3, 2, 22, 0⟩] : List (Cell Nat Nat)).length < 3 ∧
    ∃ last1, erase 3 7 pairList = .ret { pairList with last_ := last1 } ∧
      last1.length = pairList.last_.length :=
  ⟨pairList_rep, by decide, by simp, by decide,
    erase_absent_key_changes_scratch_only pairList_rep (by decide) (by simp) (by decide)⟩

/-- C5 (order invariant after any sequence).  The claim asks that after every sequence of
calls the level-0 chain from the header reaches the tail with ascending keys.  The
sequence `insert(5, 50)`, `erase(1000)` on the empty list with key bound 1000 has no
defined end state: `erase` passes the guard `the_key > tail_key_`, `search` returns the
tail, whose key equals 1000, and the unlink loop then reads `the_node->next_[0]` of the
tail, which has no slots. -/
theorem calls_with_erase_of_tail_key_fault (fuel : Nat) :
    calls (fuel + 2) [.insert [9] (5, 50), .erase 1000] emptyList = .fault := by
  have h := stable_le (fun f => calls f [.insert [9] (5, 50), .erase 1000] emptyList)
    (fun f => calls_stable _ _) (by decide : calls 2 [.insert [9] (5, 50), .erase 1000]
      emptyList ≠ .spin) (Nat.le_add_left 2 fuel)
  simp only at h
  rw [h]
  decide

/-- C6 (find of an out-of-domain key).  The claim asks that `find(key)` returns not-found
for every key not below `tail_key_`.  On the empty list with key bound 1000, `find(1000)`
returns a pointer to the pair of the tail sentinel (address 1), the pair `(1000, 0)`:
the guard is `the_key > tail_key_`, so the key 1000 passes it. -/
theorem find_of_tail_key_returns_tail (fuel : Nat) :
    find (fuel + 1) 1000 emptyList = .ret (some 1) ∧
    findElement (fuel + 1) 1000 emptyList = .ret (some (1000, 0)) := by
  have h1 := stable_le (fun f => find f 1000 emptyList) (fun f => find_stable f)
    (by decide : find 1 1000 emptyList ≠ .spin) (Nat.le_add_left 1 fuel)
  have h2 := stable_le (fun f => findElement f 1000 emptyList)
    (fun f => findElement_stable f)
    (by decide : findElement 1 1000 emptyList ≠ .spin) (Nat.le_add_left 1 fuel)
  simp only at h1 h2
  rw [h1, h2]
  exact ⟨by decide, by decide⟩

/-- C7 (insert of an out-of-domain key).  The claim asks that `insert(key, v)` changes
no node when `key >= tail_key_`.  On the empty list with key bound 1000,
`insert(1000, 7)` returns `dentedList`: the value of the tail sentinel was 0 and is 7
afterwards. -/
theorem insert_of_tail_key_overwrites_tail (fuel : Nat) :
    insert (fuel + 1) [] (1000, 7) emptyList = .ret dentedList ∧
    elemAt emptyList.heap emptyList.tail_node_ = some (1000, 0) ∧
    elemAt dentedList.heap dentedList.tail_node_ = some (1000, 7) := by
  have h1 := stable_le (fun f => insert f [] (1000, 7) emptyList) (fun f => insert_stable f)
    (by decide : insert 1 [] (1000, 7) emptyList ≠ .spin) (Nat.le_add_left 1 fuel)
  simp only at h1
  rw [h1]
  exact ⟨by decide, by decide, by decide⟩

/-- C8 (erase of an out-of-domain key).  The claim asks that `erase(key)` is a no-op when
`key >= tail_key_`.  On the empty list with key bound 1000, `erase(1000)` is undefined:
`search` returns the tail, its key equals 1000, and the unlink loop reads
`the_node->next_[0]` of the tail, which was allocated with no slots. -/
theorem erase_of_tail_key_fault (fuel : Nat) : erase (fuel + 1) 1000 emptyList = .fault := by
  have h := stable_le (fun f => erase f 1000 emptyList) (fun f => erase_stable f)
    (by decide : erase 1 1000 emptyList ≠ .spin) (Nat.le_add_left 1 fuel)
  simp only at h
  rw [h]
  decide

/-- C9 (frame).  The claim asks that `find` of another key gives the same result before
and after `erase(k)`.  The list `pairList` is well formed and `find(2)` returns
`(2, 22)` on it; `erase(1)` on it does not return for any fuel, so there is no `find(2)`
after it. -/
theorem erase_of_other_key_hangs :
    WellFormed pairList ∧ findElement 3 2 pairList = .ret (some (2, 22)) ∧
    ∀ fuel, erase fuel 1 pairList = .spin :=
  ⟨⟨_, pairList_rep⟩, by decide, fun fuel => erase_hang 3 (by decide) (by decide) fuel⟩

/-- C10 (size).  The claim asks that `erase` of a stored key lowers `d_size_` by one.
`insert(7, 70)` on an empty list with `max_level_ = 3` gives `soloList` with
`d_size_ = 1` (the draws 0, 0, 8 ask for level 2, and `insert` caps it at `levels_ + 1`);
`erase(7)` on it does not return for any fuel, so `--d_size_` is never reached. -/
theorem erase_of_stored_key_never_lowers_size :
    insert 3 [0, 0, 8] (7, 70) (construct 100 3 3 0) = .ret soloList ∧
    soloList.d_size_ = 1 ∧ ∀ fuel, erase fuel 7 soloList = .spin :=
  ⟨by decide, by decide, fun fuel => erase_hang 3 (by decide) (by decide) fuel⟩

/-- C11 (level bound).  For a list constructed with `max_level_ >= 0`: whenever a sequence
of `insert` and `erase` calls, with any keys, any values and any draws of `rand()`, has
returned, `max_level_` has the value given at construction, `levels_` is between 0 and
`max_level_`, and the list is well formed with every stored node on a level between 0 and
`max_level_`, owning one forward slot per level; the nodes on the level-0 chain from the
header to the tail own between 1 and `max_level_ + 1` slots each. -/
theorem levels_stay_within_max_level (large_key : K) (cut_off : Nat) (max_level : Int)
    (dflt : E) (hm : 0 ≤ max_level) (fuel : Nat) (cs : List (Call K E))
    (s1 : SkipList K E)
    (h : calls fuel cs (construct large_key cut_off max_level dflt) = .ret s1) :
    s1.max_level_ = max_level ∧ (0 : Int) ≤ s1.levels_ ∧ (s1.levels_ : Int) ≤ max_level ∧
      (∃ cells, Rep s1 cells ∧
        ∀ c ∈ cells, (c.lvl : Int) ≤ max_level ∧
          slotsAt s1.heap c.addr = some (c.lvl + 1)) ∧
      ∃ nodes, Linked s1.heap 0 s1.header_node_ nodes s1.tail_node_ ∧
        ∀ p ∈ nodes, ∃ m : Nat, slotsAt s1.heap p = some m ∧ 1 ≤ m ∧
          (m : Int) ≤ max_level + 1 := by
  obtain ⟨cells, hrep, -, hml, -, -⟩ :=
    calls_step cs (construct_rep large_key cut_off max_level dflt hm) (Or.inl rfl) h
  have hml2 : s1.max_level_ = max_level := hml
  have hlv := rep_levels hrep
  rw [hml2] at hlv
  have htop := hrep.top
  rw [hml2] at htop
  refine ⟨hml2, by omega, htop, ⟨cells, hrep, hlv⟩, chain cells 0, ?_, ?_⟩
  · exact hrep.linked 0 (by rw [hml2]; exact hm)
  · intro p hp
    obtain ⟨c, hc, rfl, -⟩ := mem_chain hp
    obtain ⟨h1, h2⟩ := hlv c hc
    exact ⟨c.lvl + 1, h2, by omega, by push_cast; omega⟩

/-- Witness for C11: two inserts into the empty list with `max_level_ = 1`. -/
theorem levels_stay_within_max_level_witness :
    (0 : Int) ≤ 1 ∧
    calls 3 [.insert [3, 9] (1, 11), .insert [9] (2, 22)] (construct 1000 5 1 0)
      = .ret pairList ∧
    (pairList.max_level_ = 1 ∧ (0 : Int) ≤ pairList.levels_ ∧
      (pairList.levels_ : Int) ≤ 1 ∧
      (∃ cells, Rep pairList cells ∧
        ∀ c ∈ cells, (c.lvl : Int) ≤ 1 ∧
          slotsAt pairList.heap c.addr = some (c.lvl + 1)) ∧
      ∃ nodes, Linked pairList.heap 0 pairList.header_node_ nodes pairList.tail_node_ ∧
        ∀ p ∈ nodes, ∃ m : Nat, slotsAt pairList.heap p = some m ∧ 1 ≤ m ∧
          (m : Int) ≤ 1 + 1) :=
  ⟨by decide, by decide,
    levels_stay_within_max_level 1000 5 1 0 (by decide) 3
      [.insert [3, 9] (1, 11), .insert [9] (2, 22)] pairList (by decide)⟩

/-- C12 (erase terminates).  The claim asks that `erase(key)` terminates on every
well-formed list, in particular when the erased node was the only real node on the top
level above 0.  The list `stackList` is well formed, its top level 2 holds the pair
`(8, 80)` only, and `erase(8)` on it does not return, whatever the fuel: after the unlink
the header slot of level 2 points to the tail while `levels_` is 2, and the loop
`while (...) { levels_; }` changes nothing. -/
theorem erase_of_lone_top_node_hangs :
    WellFormed stackList ∧ 0 < stackList.levels_ ∧
    levelElems 3 stackList stackList.levels_ = .ret [(8, 80)] ∧
    ∀ fuel, erase fuel 8 stackList = .spin :=
  ⟨stackList_wf, by decide, by decide,
    fun fuel => erase_hang 3 (by decide) (by decide) fuel⟩

/-- C13 (search).  On a well-formed list, for every key not above `tail_key_`, `search`
returns with enough fuel.  The cells split into those with a key below the key searched
(`pre`) and the others (`post`), so that the level-`i` chain is `chain pre i` followed by
`chain post i`; after the call `last_[i]` is, for every level `i` up to `levels_`, the last
node of the header followed by `chain pre i`, and the node returned is the first node of
`chain post 0`, or the tail when `post` is empty. -/
theorem search_returns_predecessors {s : SkipList K E} {cells : List (Cell K E)}
    {the_key : K} {fuel : Nat} (hrep : Rep s cells) (hk : the_key ≤ s.tail_key_)
    (hf : cells.length < fuel) :
    ∃ pre post last1, cells = pre ++ post ∧ (∀ c ∈ pre, c.key < the_key) ∧
      (∀ c ∈ post, the_key ≤ c.key) ∧
      search fuel the_key s
        = .ret (firstOr (chain post 0) s.tail_node_, { s with last_ := last1 }) ∧
      (∀ i, i ≤ s.levels_ →
        last1[i]? = some (some (lastFrom s.header_node_ (chain pre i)))) ∧
      ∃ k1 v1, elemAt s.heap (firstOr (chain post 0) s.tail_node_) = some (k1, v1) ∧
        the_key ≤ k1 := by
  obtain ⟨pre, post, hsplit, hpre, hpost⟩ := exists_split the_key cells hrep.sorted
  obtain ⟨last1, h1, -, h3, -⟩ := search_spec hrep hsplit hpre hpost (not_lt.2 hk) hf
  obtain ⟨k1, v1, hel, hk1⟩ := landing_elem hrep hsplit hpost (not_lt.2 hk)
  exact ⟨pre, post, last1, hsplit, hpre, fun c hc => not_lt.1 (hpost c hc), h1, h3,
    k1, v1, hel, not_lt.1 hk1⟩

/-- Witness for C13: `search(2)` on the two-node list `pairList`. -/
theorem search_returns_predecessors_witness :
    Rep pairList [⟨2, 1, 11, 1⟩, ⟨3, 2, 22, 0⟩] ∧ (2 : Nat) ≤ pairList.tail_key_ ∧
    ([⟨2, 1, 11, 1⟩, ⟨3, 2, 22, 0⟩] : List (Cell Nat Nat)).length < 3 ∧
    ∃ pre post last1, ([⟨2, 1, 11, 1⟩, ⟨3, 2, 22, 0⟩] : List (Cell Nat Nat)) = pre ++ post ∧
      (∀ c ∈ pre, c.key < 2) ∧ (∀ c ∈ post, 2 ≤ c.key) ∧
      search 3 2 pairList
        = .ret (firstOr (chain post 0) pairList.tail_node_,
            { pairList with last_ := last1 }) ∧
      (∀ i, i ≤ pairList.levels_ →
        last1[i]? = some (some (lastFrom pairList.header_node_ (chain pre i)))) ∧
      ∃ k1 v1, elemAt pairList.heap (firstOr (chain post 0) pairList.tail_node_)
          = some (k1, v1) ∧ 2 ≤ k1 :=
  ⟨pairList_rep, by decide, by decide,
    search_returns_predecessors pairList_rep (by decide) (by decide)⟩

/-- C14 (find and search).  On a well-formed list, for every key below `tail_key_`, both
`search` and `find` return with enough fuel, and `find` lands on the node `search`
returns: when the key of that node equals the key looked for, `find` returns the address
of its pair and the caller reads that pair, otherwise `find` returns `NULL`.  The body of
`find` assigns to no member and to no node, so `find` is a function from the list to its
result: the list after the call is the list before it, `last_` included, whereas `search`
hands back the list with a new `last_`; accordingly the accesses `find` makes to the
pointer arrays contain no write of `last_`. -/
theorem find_agrees_with_search {s : SkipList K E} {cells : List (Cell K E)}
    {the_key : K} {fuel : Nat} (hrep : Rep s cells) (hk : the_key < s.tail_key_)
    (hf : cells.length < fuel) :
    ∃ nx last1 k1 v1 log, search fuel the_key s = .ret (nx, { s with last_ := last1 }) ∧
      elemAt s.heap nx = some (k1, v1) ∧
      find fuel the_key s = .ret (if k1 = the_key then some nx else none) ∧
      findElement fuel the_key s = .ret (if k1 = the_key then some (k1, v1) else none) ∧
      findLog fuel the_key s = .ret (if k1 = the_key then some nx else none, log) ∧
      ∀ a ∈ log, ∀ j, a ≠ Access.scratch j := by
  obtain ⟨pre, post, hsplit, hpre, hpost⟩ := exists_split the_key cells hrep.sorted
  have hk2 : ¬ s.tail_key_ < the_key := not_lt_of_lt hk
  obtain ⟨last1, h1, -⟩ := search_spec hrep hsplit hpre hpost hk2 hf
  obtain ⟨k1, v1, hel, -⟩ := landing_elem hrep hsplit hpost hk2
  obtain ⟨h2, h3⟩ := findElement_lands hrep hsplit hpre hpost hk2 hf hel
  obtain ⟨r, log, h4, h5, -, h6⟩ := findLog_spec hrep hk2 hf
  rw [h2] at h5
  cases h5
  exact ⟨_, last1, k1, v1, log, h1, hel, h2, h3, h4, h6⟩

/-- Witness for C14: `find(2)` on the two-node list `pairList`. -/
theorem find_agrees_with_search_witness :
    Rep pairList [⟨2, 1, 11, 1⟩, ⟨3, 2, 22, 0⟩] ∧ (2 : Nat) < pairList.tail_key_ ∧
    ([⟨2, 1, 11, 1⟩, ⟨3, 2, 22, 0⟩] : List (Cell Nat Nat)).length < 3 ∧
    ∃ nx last1 k1 v1 log, search 3 2 pairList = .ret (nx, { pairList with last_ := last1 }) ∧
      elemAt pairList.heap nx = some (k1, v1) ∧
      find 3 2 pairList = .ret (if k1 = 2 then some nx else none) ∧
      findElement 3 2 pairList = .ret (if k1 = 2 then some (k1, v1) else none) ∧
      findLog 3 2 pairList = .ret (if k1 = 2 then some nx else none, log) ∧
      ∀ a ∈ log, ∀ j, a ≠ Access.scratch j :=
  ⟨pairList_rep, by decide, by decide,
    find_agrees_with_search pairList_rep (by decide) (by decide)⟩

/-- C15 (subset invariant).  The claim asks that every `insert` and `erase` preserves:
each chain from the header ends at the tail and is a subsequence of the chain below.  The
list `tallList` is well formed, `erase(1000)` on it passes the guard
`the_key > tail_key_`, `search` returns the tail, and the unlink loop assigns
`last_[i]->next_[i] = the_node->next_[i]` with `the_node` the tail, which owns no slot:
the call has no defined result, and the links of the node of key 1 no longer lead to the
tail. -/
theorem erase_of_tail_key_breaks_chains (fuel : Nat) :
    WellFormed tallList ∧ slotsAt tallList.heap tallList.tail_node_ = some 0 ∧
    (∃ last1, search (fuel + 2) 1000 tallList
      = .ret (tallList.tail_node_, { tallList with last_ := last1 })) ∧
    erase (fuel + 2) 1000 tallList = .fault := by
  have h1 := stable_le (fun f => search f 1000 tallList) (fun f => search_stable f)
    (by decide : search 2 1000 tallList ≠ .spin) (Nat.le_add_left 2 fuel)
  have h2 := stable_le (fun f => erase f 1000 tallList) (fun f => erase_stable f)
    (by decide : erase 2 1000 tallList ≠ .spin) (Nat.le_add_left 2 fuel)
  simp only at h1 h2
  rw [h1, h2]
  exact ⟨⟨_, tallList_rep⟩, by decide, ⟨[some 2, some 2], by decide⟩, by decide⟩

/-- C16 (top level).  The claim asks that after every `erase` that returns `levels_` is
the highest level with a real node, and 0 when the list is empty.  `insert(7, 70)` with
the draws 0, 0, 8 on the empty list with `max_level_ = 3` gives `soloList`, with the one
node on levels 0 and 1.  In `erase(7)` the loop
`while (levels_ > 0 && header_node_->next_[levels_] == tail_node_) { levels_; }` does not
lower `levels_`: run as written it never ends, and with the loop left out, as an
optimising compiler translates it, `erase(7)` returns an empty list with `d_size_ = 0` and
`levels_ = 1`, whose header slot of level 1 points to the tail. -/
theorem erase_returns_with_stale_top_level :
    calls 3 [.insert [0, 0, 8] (7, 70)] (construct 100 3 3 0) = .ret soloList ∧
    (∀ fuel, erase fuel 7 soloList = .spin) ∧
    ∀ fuel, ∃ s1, eraseElided (fuel + 2) 7 soloList = .ret s1 ∧
      s1.d_size_ = 0 ∧ levelElems 1 s1 0 = .ret [] ∧ s1.levels_ = 1 ∧
      readNext s1.heap s1.header_node_ s1.levels_ = .ret s1.tail_node_ := by
  refine ⟨by decide, fun fuel => erase_hang 3 (by decide) (by decide) fuel, fun fuel => ?_⟩
  have h := stable_le (fun f => eraseElided f 7 soloList) (fun f => eraseElided_stable f)
    (by decide : eraseElided 2 7 soloList ≠ .spin) (Nat.le_add_left 2 fuel)
  simp only at h
  rw [h]
  exact ⟨_, rfl, by decide, by decide, by decide, by decide⟩

/-- C17 as stated fails.  On the empty list with `max_level_ = 3` and `levels_ = 0`,
`level()` returns 3 for the draws 1, 2, 3, 9, which is above `levels_`; `insert(4, 40)`
with these draws returns a list with `levels_ = 1`, not 3, whose new node (address 2)
owns 2 forward slots, not 4, and is not linked on level 2: the header slot of level 2
still points to the tail. -/
theorem insert_caps_level_at_one_above_top :
    level (construct 100 3 3 0 : SkipList Nat Nat) [1, 2, 3, 9] = .ret 3 ∧
    (construct 100 3 3 0 : SkipList Nat Nat).levels_ = 0 ∧
    ∀ fuel, ∃ s1, insert (fuel + 1) [1, 2, 3, 9] (4, 40) (construct 100 3 3 0) = .ret s1 ∧
      s1.levels_ = 1 ∧ elemAt s1.heap 2 = some (4, 40) ∧ slotsAt s1.heap 2 = some 2 ∧
      readNext s1.heap s1.header_node_ 2 = .ret s1.tail_node_ := by
  refine ⟨by decide, by decide, fun fuel => ?_⟩
  have h1 := stable_le (fun f => insert f [1, 2, 3, 9] (4, 40) (construct 100 3 3 0))
    (fun f => insert_stable f)
    (by decide : insert 1 [1, 2, 3, 9] (4, 40) (construct 100 3 3 0) ≠ .spin)
    (Nat.le_add_left 1 fuel)
  simp only at h1
  rw [h1]
  exact ⟨_, rfl, by decide, by decide, by decide, by decide⟩

/-- C17 (amended).  On a well-formed list, for a key below `tail_key_` that is not
stored, when `level()` returns a value above `levels_`: `insert` returns, `levels_` has
gone up by exactly one (to the level drawn only if that is `levels_ + 1`), the new node
holds the pair and owns `levels_ + 1` forward slots for the new value of `levels_`, the
list is well formed with the new node as a cell of that level, and the chain of every
level from 0 to the new `levels_` holds the new pair. -/
theorem insert_above_top_raises_top_by_one {s : SkipList K E} {cells : List (Cell K E)}
    {k : K} (v : E) {fuel : Nat} {draws : List Nat} {lev : Int}
    (hrep : Rep s cells) (hk : k < s.tail_key_) (habs : ∀ c ∈ cells, c.key ≠ k)
    (hf : cells.length < fuel) (hlev : level s draws = .ret lev)
    (hgt : (s.levels_ : Int) < lev) :
    ∃ s1, insert fuel draws (k, v) s = .ret s1 ∧ s1.levels_ = s.levels_ + 1 ∧
      lookup s.heap s.heap.length = none ∧
      elemAt s1.heap s.heap.length = some (k, v) ∧
      slotsAt s1.heap s.heap.length = some (s1.levels_ + 1) ∧
      (∃ pre post, cells = pre ++ post ∧
        Rep s1 (pre ++ ⟨s.heap.length, k, v, s1.levels_⟩ :: post)) ∧
      ∀ i, i ≤ s1.levels_ → ∃ es, levelElems (fuel + 1) s1 i = .ret es ∧ (k, v) ∈ es := by
  unfold level at hlev
  obtain ⟨lev0, hl0, hlev⟩ := bind_eq_ret hlev
  have hnl : newLevel s lev0 = s.levels_ + 1 := by
    have htop := hrep.top
    unfold newLevel
    by_cases hle : (lev0 : Int) ≤ s.max_level_
    · rw [if_pos hle] at hlev
      cases hlev
      omega
    · rw [if_neg hle] at hlev
      cases hlev
      omega
  obtain ⟨pre, post, hsplit, hpre, hpost⟩ := exists_split k cells hrep.sorted
  have hpost2 : ∀ c ∈ post, k < c.key := by
    intro c hc
    have hne : c.key ≠ k := habs c (by rw [hsplit]; exact List.mem_append_right _ hc)
    exact lt_of_le_of_ne (not_lt.1 (hpost c hc)) (Ne.symm hne)
  obtain ⟨s1, hi, hrep1, hlv, -, hml, -⟩ := insert_new v hrep hsplit hpre hpost2 hk hf hl0
  rw [hnl] at hlv hrep1
  have hlv1 : s1.levels_ = s.levels_ + 1 := by rw [hlv]; exact max_eq_right (by omega)
  have hst := hrep1.stored ⟨s.heap.length, k, v, s.levels_ + 1⟩ (by simp)
  refine ⟨s1, hi, hlv1, ?_, hst.1, by rw [hlv1]; exact hst.2,
    ⟨pre, post, hsplit, by rw [hlv1]; exact hrep1⟩, ?_⟩
  · simp [lookup]
  · intro i hi2
    have hi3 : i ≤ s.levels_ + 1 := by rw [hlv1] at hi2; exact hi2
    have htop : ((s.levels_ + 1 : Nat) : Int) ≤ s1.max_level_ := by
      have := hrep1.top
      rw [hlv1] at this
      exact this
    have hlen : (pre ++ ⟨s.heap.length, k, v, s.levels_ + 1⟩ :: post).length < fuel + 1 := by
      rw [hsplit] at hf
      simp at hf ⊢
      omega
    refine ⟨_, levelElems_spec hrep1 hlen i (by omega), ?_⟩
    simp only [List.mem_map, List.mem_filter, decide_eq_true_eq]
    exact ⟨⟨s.heap.length, k, v, s.levels_ + 1⟩, ⟨by simp, hi3⟩, rfl⟩

/-- Witness for the amended C17: `insert(1, 11)` into the empty list with the draws 3
and 9, for which `level()` returns 1. -/
theorem insert_above_top_raises_top_by_one_witness :
    Rep emptyList [] ∧ (1 : Nat) < emptyList.tail_key_ ∧
    (∀ c ∈ ([] : List (Cell Nat Nat)), c.key ≠ 1) ∧
    ([] : List (Cell Nat Nat)).length < 3 ∧ level emptyList [3, 9] = .ret 1 ∧
    (emptyList.levels_ : Int) < 1 ∧
    ∃ s1, insert 3 [3, 9] (1, 11) emptyList = .ret s1 ∧
      s1.levels_ = emptyList.levels_ + 1 ∧
      lookup emptyList.heap emptyList.heap.length = none ∧
      elemAt s1.heap emptyList.heap.length = some (1, 11) ∧
      slotsAt s1.heap emptyList.heap.length = some (s1.levels_ + 1) ∧
      (∃ pre post, ([] : List (Cell Nat Nat)) = pre ++ post ∧
        Rep s1 (pre ++ ⟨emptyList.heap.length, 1, 11, s1.levels_⟩ :: post)) ∧
      ∀ i, i ≤ s1.levels_ → ∃ es, levelElems (3 + 1) s1 i = .ret es ∧ (1, 11) ∈ es :=
  ⟨emptyList_rep, by decide, by simp, by decide, by decide, by decide,
    insert_above_top_raises_top_by_one 11 emptyList_rep (by decide) (by simp) (by decide)
      (by decide : level emptyList [3, 9] = .ret 1) (by decide)⟩

/-- C19 (erase of a stored key).  The claim asks that after `erase(k)` of a stored key
the node is off every chain and the chains hold the other nodes as before.  The list
`ridgeList` is well formed and stores the pair `(6, 60)`, whose node is the only one on
level 1; `erase(6)` on it does not return, whatever the fuel: it unlinks the node and then
spins in the loop `while (...) { levels_; }`, so there is no list after the call and the
node is never released. -/
theorem erase_of_stored_key_never_returns :
    WellFormed ridgeList ∧ findElement 4 6 ridgeList = .ret (some (6, 60)) ∧
    levelElems 4 ridgeList 1 = .ret [(6, 60)] ∧
    ∀ fuel, erase fuel 6 ridgeList = .spin :=
  ⟨ridgeList_wf, by decide, by decide,
    fun fuel => erase_hang 4 (by decide) (by decide) fuel⟩

/-- C20 (safe descent).  On a well-formed list, for every key not above `tail_key_`,
`search` and `find` return with enough fuel (the number of stored pairs plus one), and
every access their descent makes to a pointer array is within bounds: each forward slot
read is a slot of the header with an index up to `max_level_`, or of a real node with an
index up to the level of that node, never a slot of the tail, and each index of `last_`
written by `search` is at most `max_level_`; `find` writes no slot of `last_`. -/
theorem descent_stays_within_bounds {s : SkipList K E} {cells : List (Cell K E)}
    {the_key : K} {fuel : Nat} (hrep : Rep s cells) (hk : the_key ≤ s.tail_key_)
    (hf : cells.length < fuel) :
    (∃ r log, searchLog fuel the_key s = .ret (r, log) ∧ search fuel the_key s = .ret r ∧
      ∀ a ∈ log, SafeAccess s cells a) ∧
    ∃ r log, findLog fuel the_key s = .ret (r, log) ∧ find fuel the_key s = .ret r ∧
      (∀ a ∈ log, SafeAccess s cells a) ∧ ∀ a ∈ log, ∀ j, a ≠ Access.scratch j :=
  ⟨searchLog_spec hrep (not_lt.2 hk) hf, findLog_spec hrep (not_lt.2 hk) hf⟩

/-- Witness for C20: the descent for the key 1000, the key of the tail, on the two-node
list `pairList`. -/
theorem descent_stays_within_bounds_witness :
    Rep pairList [⟨2, 1, 11, 1⟩, ⟨3, 2, 22, 0⟩] ∧ (1000 : Nat) ≤ pairList.tail_key_ ∧
    ([⟨2, 1, 11, 1⟩, ⟨3, 2, 22, 0⟩] : List (Cell Nat Nat)).length < 3 ∧
    ((∃ r log, searchLog 3 1000 pairList = .ret (r, log) ∧
        search 3 1000 pairList = .ret r ∧
        ∀ a ∈ log, SafeAccess pairList [⟨2, 1, 11, 1⟩, ⟨3, 2, 22, 0⟩] a) ∧
      ∃ r log, findLog 3 1000 pairList = .ret (r, log) ∧ find 3 1000 pairList = .ret r ∧
        (∀ a ∈ log, SafeAccess pairList [⟨2, 1, 11, 1⟩, ⟨3, 2, 22, 0⟩] a) ∧
        ∀ a ∈ log, ∀ j, a ≠ Access.scratch j) :=
  ⟨pairList_rep, by decide, by decide,
    descent_stays_within_bounds pairList_rep (by decide) (by decide)⟩

end Claims

section LevelClaims

variable {K E : Type}

/-- C18 as stated fails.  First, with the cutoff 5.0 (the largest draw that passes the test
is 5) and `max_level_ = 1`, the draws 5 and 9: the first draw is not below the cutoff, so
the level worded by the specification is 0; `level()` returns 1, because its loop
`while (rand() <= cut_off_)` goes on at a draw equal to the cutoff.  Second, with the
cutoff `2^30 = 1073741824` (`prob = 0.5` and `RAND_MAX = 2^31 - 1`; the largest draw that
passes is 1073741888) and the draws 1073741825 and 2000000000: the first draw is above the
cutoff, the level worded by the specification is 0, and `level()` returns 1, because the
conversion to `float` rounds the draw down to the cutoff. -/
theorem level_goes_on_at_the_cutoff :
    (floatOfInt emptyList.cut_off_ ≤ 5 ∧ 5 < floatOfInt (emptyList.cut_off_ + 1) ∧
      (∃ d ∈ [5, 9], ¬ d < 5) ∧ 0 ≤ emptyList.max_level_ ∧
      levelBySpec 5 emptyList.max_level_ [5, 9] = 0 ∧
      level emptyList [5, 9] = .ret 1) ∧
    (floatOfInt 1073741888 ≤ 1073741824 ∧ 1073741824 < floatOfInt (1073741888 + 1) ∧
      (∃ d ∈ [1073741825, 2000000000], ¬ d < 1073741824) ∧
      levelBySpec 1073741824 1 [1073741825, 2000000000] = 0 ∧
      level (construct 1000 1073741888 1 0 : SkipList Nat Nat) [1073741825, 2000000000]
        = .ret 1) :=
  ⟨⟨by decide, by decide, ⟨5, by simp, by decide⟩, by decide, by decide, by decide⟩,
    by decide, by decide, ⟨1073741825, by simp, by decide⟩, by decide, by decide⟩

/-- C18 (amended).  Let the member `cut_off_` of the embedding be the largest draw that
passes the test `rand() <= cut_off_` of the code, where `cut` is the integer part of the
`float` cutoff; the loop with the comparison on floats is then the loop of the embedding.
For draws that contain one whose conversion to `float` is above the
cutoff, and `max_level_ >= 0`, `level()` returns `min(c, max_level_)`, where `c` is the
number of draws before the first one whose conversion to `float` is above the cutoff,
which is the first draw above the largest draw that passes; the result is between 0 and
`max_level_`.  It is the level worded by the specification for a cutoff `cutoff` whenever
no draw lies from `cutoff` up to the largest draw that passes. -/
theorem level_counts_draws_that_pass (s : SkipList K E) (cut : Nat) (draws : List Nat)
    (hN : floatOfInt s.cut_off_ ≤ cut) (hN1 : cut < floatOfInt (s.cut_off_ + 1))
    (hd : ∃ d ∈ draws, cut < floatOfInt d) (hm : 0 ≤ s.max_level_) :
    ∃ lev : Int, level s draws = .ret lev ∧
      levelLoopFloat cut draws 0 = levelLoop s.cut_off_ draws 0 ∧
      lev = min ((draws.takeWhile fun d => decide (floatOfInt d ≤ cut)).length : Int)
        s.max_level_ ∧
      lev = min ((draws.takeWhile fun d => decide (d ≤ s.cut_off_)).length : Int)
        s.max_level_ ∧
      0 ≤ lev ∧ lev ≤ s.max_level_ ∧
      ∀ cutoff, cutoff ≤ s.cut_off_ + 1 →
        (∀ d ∈ draws, ¬ (cutoff ≤ d ∧ d ≤ s.cut_off_)) →
        lev = levelBySpec cutoff s.max_level_ draws := by
  have hd2 : ∃ d ∈ draws, s.cut_off_ < d := by
    obtain ⟨d, hd1, hd2⟩ := hd
    refine ⟨d, hd1, ?_⟩
    by_contra hle
    have := (passes_iff_le hN hN1 d).2 (by omega)
    omega
  have h := levelLoop_count s.cut_off_ draws 0 hd2
  rw [Nat.zero_add] at h
  refine ⟨min ((draws.takeWhile fun d => decide (d ≤ s.cut_off_)).length : Int)
    s.max_level_, ?_, levelLoopFloat_eq hN hN1 draws 0, ?_, rfl, ?_, min_le_right _ _, ?_⟩
  · unfold level
    rw [h, bind_ret]
    by_cases hle : ((draws.takeWhile fun d => decide (d ≤ s.cut_off_)).length : Int)
        ≤ s.max_level_
    · rw [if_pos hle, min_eq_left hle]
    · rw [if_neg hle, min_eq_right (le_of_lt (not_le.1 hle))]
  · rw [takeWhile_passes hN hN1 draws]
  · exact le_min (by omega) hm
  · intro cutoff hc hne
    unfold levelBySpec
    rw [takeWhile_spec cutoff s.cut_off_ hc draws hne]

/-- Witness for the amended C18: the cutoff `2^30` of `prob = 0.5`, for which the largest
draw that passes is 1073741888, `max_level_ = 1`, and the draws 1073741824, 1073741825 and
2000000000. -/
theorem level_counts_draws_that_pass_witness :
    floatOfInt (construct 1000 1073741888 1 0 : SkipList Nat Nat).cut_off_ ≤ 1073741824 ∧
    1073741824 < floatOfInt ((construct 1000 1073741888 1 0 : SkipList Nat Nat).cut_off_ + 1) ∧
    (∃ d ∈ [1073741824, 1073741825, 2000000000], 1073741824 < floatOfInt d) ∧
    0 ≤ (construct 1000 1073741888 1 0 : SkipList Nat Nat).max_level_ ∧
    ∃ lev : Int,
      level (construct 1000 1073741888 1 0 : SkipList Nat Nat)
        [1073741824, 1073741825, 2000000000] = .ret lev ∧
      levelLoopFloat 1073741824 [1073741824, 1073741825, 2000000000] 0
        = levelLoop (construct 1000 1073741888 1 0 : SkipList Nat Nat).cut_off_
            [1073741824, 1073741825, 2000000000] 0 ∧
      lev = min (([1073741824, 1073741825, 2000000000].takeWhile
          fun d => decide (floatOfInt d ≤ 1073741824)).length : Int)
        (construct 1000 1073741888 1 0 : SkipList Nat Nat).max_level_ ∧
      lev = min (([1073741824, 1073741825, 2000000000].takeWhile
          fun d => decide (d ≤ (construct 1000 1073741888 1 0 : SkipList Nat Nat).cut_off_)).length
            : Int)
        (construct 1000 1073741888 1 0 : SkipList Nat Nat).max_level_ ∧
      0 ≤ lev ∧ lev ≤ (construct 1000 1073741888 1 0 : SkipList Nat Nat).max_level_ ∧
      ∀ cutoff, cutoff ≤ (construct 1000 1073741888 1 0 : SkipList Nat Nat).cut_off_ + 1 →
        (∀ d ∈ [1073741824, 1073741825, 2000000000],
          ¬ (cutoff ≤ d ∧ d ≤ (construct 1000 1073741888 1 0 : SkipList Nat Nat).cut_off_)) →
        lev = levelBySpec cutoff (construct 1000 1073741888 1 0 : SkipList Nat Nat).max_level_
          [1073741824, 1073741825, 2000000000] :=
  ⟨by decide, by decide, ⟨2000000000, by simp, by decide⟩, by decide,
    level_counts_draws_that_pass (construct 1000 1073741888 1 0 : SkipList Nat Nat)
      1073741824 [1073741824, 1073741825, 2000000000] (by decide) (by decide)
      ⟨2000000000, by simp, by decide⟩ (by decide)⟩

end LevelClaims

end SkipListModel
